import Mathlib

/-!
# Verification of the kiddo bucketed k-d tree (src/kiddo.rs)

This file gives a shallow embedding of the kiddo k-d tree implementation
(`src/kiddo.rs`) and proves, or refutes, the frozen claims about it.

Modelling conventions:

* Scalar coordinates of points stored in the tree are rationals `ℚ` (exact
  arithmetic standing in for the floating point type `A: Float`).  A point
  supplied by a caller is a `RawPoint`, a list of `Coord`, where a coordinate
  is either a finite rational or one of the three non-finite floats
  (NaN, +∞, −∞); this is what `check_point`'s `is_finite` test inspects.
  Only finite points ever pass validation, so the tree itself stores plain
  rational vectors.
* The per-node bounds `min_bounds`/`max_bounds` are initialised in the source
  to `[+∞; K]` / `[−∞; K]` and are updated by `extend` on every insertion.
  We model the pair of arrays as `Option (Point × Point)`: `none` is the
  initial all-infinite state (no point has ever been inserted here), and
  `extend` on `none` yields exactly the bounds the source produces after its
  first update (the point itself, componentwise).
* Distances that the source compares against `A::infinity()` are modelled in
  `WithTop ℚ` with `⊤` for `+∞`.
* `std::collections::BinaryHeap` (a max-heap) is modelled as a list together
  with deterministic operations: `push` conses, `peek`/`pop` find and remove
  the first element with maximal key, `into_sorted_vec` sorts ascending
  (`List.insertionSort`).  The source stores *negated* axis distances in the
  pending heap so that popping the maximum yields the smallest bound; we model
  this directly by popping the first element with *minimal* (un-negated)
  bound.  Every claim proved below is insensitive to the order in which the
  real heap breaks ties between equal keys.
* The dimension constant `K` of `KdTree<A, T, K>` is implicit in the lengths
  of the stored lists; loops `0..K` in the source become `List.range` over
  the length of the relevant vector.
-/

namespace Kiddo

/-- Scalar coordinate of a caller-supplied point: a finite rational or one of
the non-finite floating point values that `check_point` rejects. -/
inductive Coord where
  | val : ℚ → Coord
  | nan : Coord
  | posInf : Coord
  | negInf : Coord
  deriving DecidableEq

/-- Models `Float::is_finite` on a supplied coordinate. -/
def Coord.isFinite : Coord → Bool
  | .val _ => true
  | _ => false

/-- The rational value of a finite coordinate (only used on points that passed
the finiteness check; the default on non-finite coordinates is never reached
on validated paths). -/
def Coord.toQ : Coord → ℚ
  | .val q => q
  | _ => 0

/-- A point as supplied by a caller (may contain non-finite coordinates). -/
abbrev RawPoint := List Coord

/-- A point as stored in the tree (validated, hence finite). -/
abbrev Point := List ℚ

/-- Injects a finite point into the caller-supplied representation. -/
def rawOf (p : Point) : RawPoint := p.map Coord.val

/-- Converts a supplied point to its finite projection. -/
def toQPoint (p : RawPoint) : Point := p.map Coord.toQ

/-- The error enumeration `ErrorKind` of the source. -/
inductive ErrorKind where
  | PeriodicOutOfBounds
  | NonFiniteCoordinate
  | ZeroCapacity
  | Empty
  deriving DecidableEq

deriving instance DecidableEq for Except

/-- A distance metric callback `F: Fn(&[A; K], &[A; K]) -> A`. -/
abbrev Met := Point → Point → ℚ

/-- The smaller of two rationals (`A::min`), written out so that it reduces
in the kernel. -/
def qmin (a b : ℚ) : ℚ := if a ≤ b then a else b

/-- The larger of two rationals (`A::max`), written out so that it reduces
in the kernel. -/
def qmax (a b : ℚ) : ℚ := if a ≤ b then b else a

theorem qmin_eq_min (a b : ℚ) : qmin a b = min a b := by
  unfold qmin
  by_cases h : a ≤ b
  · simp [h, min_eq_left h]
  · simp [h, min_eq_right (le_of_not_le h)]

theorem qmax_eq_max (a b : ℚ) : qmax a b = max a b := by
  unfold qmax
  by_cases h : a ≤ b
  · simp [h, max_eq_right h]
  · simp [h, max_eq_left (le_of_not_le h)]

/-- Modelled from the spec: the canonical squared-Euclidean metric
(`kiddo::distance::squared_euclidean`; the file defining it is not under
`src/`).  Per §6 of the spec it is the canonical and tested metric: the sum
over the componentwise squared differences. -/
def squaredEuclidean : Met := fun a b =>
  ((a.zip b).map (fun ab => (ab.1 - ab.2) ^ 2)).sum

/-- Modelled from the spec: the per-dimension clamp of
`util::distance_to_space` (§4.3; the file `src/util.rs` is not under `src/`):
for each dimension, if the query coordinate is below the box it is clamped to
the lower bound, if above to the upper bound, otherwise kept. -/
def clampToBounds (p lo hi : Point) : Point :=
  (p.zip (lo.zip hi)).map (fun x =>
    if x.1 < x.2.1 then x.2.1 else if x.1 > x.2.2 then x.2.2 else x.1)

/-- Modelled from the spec: `util::distance_to_space` (§4.3) computes the
metric between the query point and its clamp into the box.  On the initial
all-infinite bounds (`none`, possible only for a tree that holds no point)
the clamped vector is infinite and the squared-Euclidean value is `+∞`,
modelled as `⊤`. -/
def distanceToSpace (p : Point) (bounds : Option (Point × Point)) (d : Met) :
    WithTop ℚ :=
  match bounds with
  | none => ⊤
  | some lohi => ((d p (clampToBounds p lohi.1 lohi.2) : ℚ) : WithTop ℚ)

/-! ## The deterministic model of `std::collections::BinaryHeap`

`popFirstMaxBy key l` removes the first element of `l` whose key is maximal
(and `popFirstMinBy` the first whose key is minimal, modelling the negated
keys of the pending heap).  The source's heaps only promise to yield *a*
maximal element; this model fixes one deterministic choice. -/

/-- Removes the first element with maximal key from a list. -/
def popFirstMaxBy {α β : Type _} [LinearOrder β] (key : α → β) :
    List α → Option (α × List α)
  | [] => none
  | a :: rest =>
    match popFirstMaxBy key rest with
    | none => some (a, [])
    | some (m, rest') =>
      if key a < key m then some (m, a :: rest') else some (a, rest)

/-- Removes the first element with minimal key from a list. -/
def popFirstMinBy {α β : Type _} [LinearOrder β] (key : α → β) :
    List α → Option (α × List α)
  | [] => none
  | a :: rest =>
    match popFirstMinBy key rest with
    | none => some (a, [])
    | some (m, rest') =>
      if key m < key a then some (m, a :: rest') else some (a, rest)

/-- Models the remainder of `Vec::swap_remove(0)`: the last element moves
into the freed front slot (this drives the order in which `split` drains a
leaf). -/
def swapRemainder {α : Type _} : List α → List α
  | [] => []
  | [_] => []
  | _ :: b :: rest => (b :: rest).getLastD b :: (b :: rest).dropLast

@[simp]
theorem swapRemainder_length {α : Type _} (l : List α) :
    (swapRemainder l).length = l.length - 1 := by
  match l with
  | [] => rfl
  | [a] => rfl
  | a :: b :: rest => simp [swapRemainder]

/-- Structural worker for `drainSeq`; the counter starts at the length of
the list and each step shortens the list by exactly one, so the counter
never runs out. -/
def drainSeqF {α : Type _} : ℕ → List α → List α
  | 0, _ => []
  | _, [] => []
  | n + 1, a :: rest => a :: drainSeqF n (swapRemainder (a :: rest))

/-- The order in which repeated `swap_remove(0)` drains a vector: the head,
then the drain order of the remainder (last element moved to the front). -/
def drainSeq {α : Type _} (l : List α) : List α := drainSeqF l.length l

/-- Models `Vec::swap_remove(i)`: removes index `i`, moving the last element
into its place.  (Out-of-range `i` would panic in Rust; the model returns the
list unchanged, and that case is unreachable on validated paths.) -/
def swapRemoveAt {α : Type _} (l : List α) (i : ℕ) : List α :=
  if i < l.length then
    match l.getLast? with
    | none => l
    | some x => (l.set i x).dropLast
  else l

/-! ## The tree structure -/

/-- The struct `KdTree<A, T, K>` together with its `Node` content, flattened
into one inductive (the struct holds `size`, the AABB as described in the
modelling notes, the node content and the optional periodic vector; the node
content is either a leaf with points, bucket and capacity, or a stem with
two children, a split value and a split dimension).  The flattening into a
single inductive keeps every recursion over trees structural. -/
inductive KdTree (T : Type) where
  | leafNode : ℕ → Option (Point × Point) → List Point → List T → ℕ →
      Option Point → KdTree T
  | stemNode : ℕ → Option (Point × Point) → KdTree T → KdTree T → ℚ → ℕ →
      Option Point → KdTree T

variable {T : Type}

/-- Field accessor for `size`. -/
def KdTree.size : KdTree T → ℕ
  | .leafNode s _ _ _ _ _ => s
  | .stemNode s _ _ _ _ _ _ => s

/-- Field accessor for the bounds pair. -/
def KdTree.bounds : KdTree T → Option (Point × Point)
  | .leafNode _ b _ _ _ _ => b
  | .stemNode _ b _ _ _ _ _ => b

/-- Field accessor for `periodic`. -/
def KdTree.periodic : KdTree T → Option Point
  | .leafNode _ _ _ _ _ p => p
  | .stemNode _ _ _ _ _ _ p => p

/-- The source method `is_leaf`. -/
def KdTree.isLeaf : KdTree T → Bool
  | .leafNode _ _ _ _ _ _ => true
  | .stemNode _ _ _ _ _ _ _ => false

/-- Number of `KdTree` nodes in a tree (a termination measure for the
best-first traversals; not part of the source). -/
def KdTree.numNodes : KdTree T → ℕ
  | .leafNode _ _ _ _ _ _ => 1
  | .stemNode _ _ l r _ _ _ => 1 + l.numNodes + r.numNodes

/-- All (point, payload) pairs stored in the leaves beneath a tree, leaves
left-to-right and within one leaf in bucket order (the reference order for
the brute-force specifications). -/
def KdTree.pairs : KdTree T → List (Point × T)
  | .leafNode _ _ pts bkt _ _ => pts.zip bkt
  | .stemNode _ _ l r _ _ _ => l.pairs ++ r.pairs

deriving instance DecidableEq for KdTree

/-- The constructor `with_per_node_capacity`. -/
def withPerNodeCapacity (T : Type) (capacity : ℕ) :
    Except ErrorKind (KdTree T) :=
  if capacity = 0 then .error .ZeroCapacity
  else .ok (.leafNode 0 none [] [] capacity none)

/-- The constructor `periodic_with_per_node_capacity`. -/
def periodicWithPerNodeCapacity (T : Type) (capacity : ℕ) (periodic : Point) :
    Except ErrorKind (KdTree T) :=
  if capacity = 0 then .error .ZeroCapacity
  else .ok (.leafNode 0 none [] [] capacity (some periodic))

/-- The constructor `new` (capacity 16, `unwrap` of the above). -/
def newTree (T : Type) : KdTree T := .leafNode 0 none [] [] 16 none

/-- The constructor `new_periodic` (capacity 16). -/
def newPeriodic (T : Type) (periodic : Point) : KdTree T :=
  .leafNode 0 none [] [] 16 (some periodic)

/-- The method `extend`: componentwise, a coordinate strictly below the
current lower bound replaces it, and one strictly above the upper bound
replaces that.  On the initial all-infinite bounds (`none`) both comparisons
fire in every dimension, so the new bounds are the point itself. -/
def extendBounds (b : Option (Point × Point)) (p : Point) :
    Option (Point × Point) :=
  match b with
  | none => some (p, p)
  | some lohi =>
    some ((lohi.1.zip p).map (fun x => if x.2 < x.1 then x.2 else x.1),
          (lohi.2.zip p).map (fun x => if x.2 > x.1 then x.2 else x.1))

/-- The method `belongs_in_left`: `point[split_dimension] < split_value`.
(Called only on stems in the source; on a leaf the model answers `false`.) -/
def KdTree.belongsInLeft (t : KdTree T) (p : Point) : Bool :=
  match t with
  | .stemNode _ _ _ _ sv sd _ => decide (p.getD sd 0 < sv)
  | .leafNode _ _ _ _ _ _ => false

mutual

/-- The method `add_to_bucket`: extend the bounds, append the pair, bump
`size`, and split when the leaf now exceeds its capacity.  `fuel` bounds the
depth of the `add_to_bucket` / `split` recursion (each nested level consumes
two units); `addUnchecked` supplies `2 * points.length + 8`, which dominates
the depth of any possible nested-split chain (once a child has been filled
by a drain its bounds are exactly those of its points, so each further split
level strictly shrinks the drained list), hence the fuel never runs out and
the zero-fuel fallbacks are unreachable. -/
def addToBucketF : ℕ → KdTree T → Point → T → KdTree T
  | fuel, .leafNode size bounds pts bkt capacity periodic, p, data =>
    let t' : KdTree T :=
      .leafNode (size + 1) (extendBounds bounds p)
        (pts ++ [p]) (bkt ++ [data]) capacity periodic
    if size + 1 > capacity then
      match fuel with
      | 0 => t'
      | fuel' + 1 => splitF fuel' t'
    else t'
  | _, t, _, _ => t

/-- The method `split`: choose the split dimension as the last dimension
that strictly increases the running maximum of `max_bounds[d] − min_bounds[d]`
(the source skips NaN diffs; rational diffs are never NaN, and on the
all-infinite initial bounds every source diff is `−∞`, hence no dimension is
chosen — modelled by the `none` branch).  If no dimension has positive diff
the leaf is left as is; otherwise the midpoint split value is computed, two
fresh children are created with the same capacity and periodic vector, the
leaf is drained into them in repeated `swap_remove(0)` order (`drainSeq`,
routing left iff `point[split_dimension] < split_value` via
`add_to_bucket`), and the node becomes a stem. -/
def splitF : ℕ → KdTree T → KdTree T
  | fuel + 1, .leafNode size bounds pts bkt capacity periodic =>
    (match bounds with
    | none => .leafNode size none pts bkt capacity periodic
    | some lohi =>
      let sd? := (List.range lohi.1.length).foldl
        (fun acc dim =>
          let diff := lohi.2.getD dim 0 - lohi.1.getD dim 0
          if diff > acc.1 then (diff, some dim) else acc)
        ((0 : ℚ), (none : Option ℕ))
      match sd?.2 with
      | none => .leafNode size (some lohi) pts bkt capacity periodic
      | some sd =>
        let mn := lohi.1.getD sd 0
        let mx := lohi.2.getD sd 0
        let sv := mn + (mx - mn) / 2
        let child : KdTree T := .leafNode 0 none [] [] capacity periodic
        let lr := (drainSeq (pts.zip bkt)).foldl
          (fun lr it =>
            if it.1.getD sd 0 < sv then
              (addToBucketF fuel lr.1 it.1 it.2, lr.2)
            else
              (lr.1, addToBucketF fuel lr.2 it.1 it.2))
          (child, child)
        .stemNode size (some lohi) lr.1 lr.2 sv sd periodic)
  | _, t => t

end

/-- The method `add_unchecked`: at a leaf, delegate to `add_to_bucket`
(which already extends the bounds and bumps the size); at a stem, recurse
into the child chosen by `point[split_dimension] < split_value` and then
extend this node's bounds and bump its size.  The source returns
`Result<(), _>` here but never an error, so the model returns the tree. -/
def KdTree.addUnchecked : KdTree T → Point → T → KdTree T
  | .leafNode size bounds pts bkt cap periodic, p, data =>
    addToBucketF (2 * pts.length + 8)
      (.leafNode size bounds pts bkt cap periodic) p data
  | .stemNode size bounds lch rch sv sd periodic, p, data =>
    if p.getD sd 0 < sv then
      .stemNode (size + 1) (extendBounds bounds p)
        (lch.addUnchecked p data) rch sv sd periodic
    else
      .stemNode (size + 1) (extendBounds bounds p)
        lch (rch.addUnchecked p data) sv sd periodic

/-- The method `check_point`.  First the finiteness test over the supplied
coordinates.  Then, in periodic mode, the bounds test exactly as written in
the source: it folds over the components `x` of the *periodic vector itself*,
comparing `x` against every component `periodic[idx]` — the supplied point is
never read — and errors iff some component of `periodic` exceeds another
(`above_bound`) or is below another (`below_bound`). -/
def KdTree.checkPoint (t : KdTree T) (p : RawPoint) :
    Except ErrorKind Unit :=
  if ¬ (p.all Coord.isFinite) then .error .NonFiniteCoordinate
  else
    match t.periodic with
    | none => .ok ()
    | some per =>
      let ab := per.foldl
        (fun acc x =>
          per.foldl
            (fun acc2 li => (acc2.1 || decide (x > li), acc2.2 || decide (x < li)))
            acc)
        (false, false)
      if ab.1 || ab.2 then .error .PeriodicOutOfBounds else .ok ()

/-- The method `add`: validate, then `add_unchecked`. -/
def KdTree.add (t : KdTree T) (p : RawPoint) (data : T) :
    Except ErrorKind (KdTree T) :=
  match t.checkPoint p with
  | .error e => .error e
  | .ok _ => .ok (t.addUnchecked (toQPoint p) data)

/-- The positional scan of `remove` inside a leaf: while the index is below
the node's `size` counter, a pair matching both point and payload is removed
by `swap_remove` (the index does not advance and `size` drops), otherwise the
index advances.  Returns (number removed, remaining points, remaining
bucket). -/
def removeScanF [DecidableEq T] (p : Point) (data : T) :
    ℕ → ℕ → ℕ → List Point → List T → ℕ × List Point × List T
  | 0, _, _, pts, bkt => (0, pts, bkt)
  | fuel + 1, sz, i, pts, bkt =>
    if i < sz then
      if pts.get? i = some p ∧ bkt.get? i = some data then
        let res := removeScanF p data fuel (sz - 1) i
          (swapRemoveAt pts i) (swapRemoveAt bkt i)
        (res.1 + 1, res.2)
      else
        removeScanF p data fuel sz (i + 1) pts bkt
    else (0, pts, bkt)

/-- The scan, with enough fuel for the worst case (each iteration either
decrements `sz` or increments `i`, so `2 * sz + 1` steps always suffice and
the zero-fuel fallback is unreachable). -/
def removeScan [DecidableEq T] (p : Point) (data : T)
    (sz i : ℕ) (pts : List Point) (bkt : List T) :
    ℕ × List Point × List T :=
  removeScanF p data (2 * sz + 1) sz i pts bkt

/-! ## Lemmas about the heap model -/

theorem popFirstMinBy_none {α β : Type _} [LinearOrder β] {key : α → β}
    {l : List α} (h : popFirstMinBy key l = none) : l = [] := by
  cases l with
  | nil => rfl
  | cons a tl =>
    exfalso
    simp only [popFirstMinBy] at h
    cases htl : popFirstMinBy key tl with
    | none => rw [htl] at h; simp at h
    | some mr =>
      obtain ⟨m, r⟩ := mr
      rw [htl] at h
      by_cases hk : key m < key a <;> simp [hk] at h

theorem popFirstMaxBy_none {α β : Type _} [LinearOrder β] {key : α → β}
    {l : List α} (h : popFirstMaxBy key l = none) : l = [] := by
  cases l with
  | nil => rfl
  | cons a tl =>
    exfalso
    simp only [popFirstMaxBy] at h
    cases htl : popFirstMaxBy key tl with
    | none => rw [htl] at h; simp at h
    | some mr =>
      obtain ⟨m, r⟩ := mr
      rw [htl] at h
      by_cases hk : key a < key m <;> simp [hk] at h

theorem popFirstMinBy_perm {α β : Type _} [LinearOrder β] {key : α → β} :
    ∀ {l : List α} {x : α} {rest : List α},
      popFirstMinBy key l = some (x, rest) → l.Perm (x :: rest) := by
  intro l
  induction l with
  | nil => intro x rest h; simp [popFirstMinBy] at h
  | cons a tl ih =>
    intro x rest h
    simp only [popFirstMinBy] at h
    cases htl : popFirstMinBy key tl with
    | none =>
      rw [htl] at h
      simp only [Option.some.injEq, Prod.mk.injEq] at h
      obtain ⟨rfl, rfl⟩ := h
      have : tl = [] := popFirstMinBy_none htl
      subst this
      exact List.Perm.refl _
    | some mr =>
      rw [htl] at h
      obtain ⟨m, rest'⟩ := mr
      by_cases hk : key m < key a
      · simp only [hk, if_pos, Option.some.injEq, Prod.mk.injEq] at h
        obtain ⟨rfl, rfl⟩ := h
        exact ((ih htl).cons a).trans (List.Perm.swap _ a _)
      · simp only [hk, if_neg, Option.some.injEq, Prod.mk.injEq, not_false_iff] at h
        obtain ⟨rfl, rfl⟩ := h
        exact List.Perm.refl _

theorem popFirstMaxBy_perm {α β : Type _} [LinearOrder β] {key : α → β} :
    ∀ {l : List α} {x : α} {rest : List α},
      popFirstMaxBy key l = some (x, rest) → l.Perm (x :: rest) := by
  intro l
  induction l with
  | nil => intro x rest h; simp [popFirstMaxBy] at h
  | cons a tl ih =>
    intro x rest h
    simp only [popFirstMaxBy] at h
    cases htl : popFirstMaxBy key tl with
    | none =>
      rw [htl] at h
      simp only [Option.some.injEq, Prod.mk.injEq] at h
      obtain ⟨rfl, rfl⟩ := h
      have : tl = [] := popFirstMaxBy_none htl
      subst this
      exact List.Perm.refl _
    | some mr =>
      rw [htl] at h
      obtain ⟨m, rest'⟩ := mr
      by_cases hk : key a < key m
      · simp only [hk, if_pos, Option.some.injEq, Prod.mk.injEq] at h
        obtain ⟨rfl, rfl⟩ := h
        exact ((ih htl).cons a).trans (List.Perm.swap _ a _)
      · simp only [hk, if_neg, Option.some.injEq, Prod.mk.injEq, not_false_iff] at h
        obtain ⟨rfl, rfl⟩ := h
        exact List.Perm.refl _

theorem popFirstMinBy_min {α β : Type _} [LinearOrder β] {key : α → β} :
    ∀ {l : List α} {x : α} {rest : List α},
      popFirstMinBy key l = some (x, rest) → ∀ y ∈ l, key x ≤ key y := by
  intro l
  induction l with
  | nil => intro x rest h; simp [popFirstMinBy] at h
  | cons a tl ih =>
    intro x rest h y hy
    simp only [popFirstMinBy] at h
    cases htl : popFirstMinBy key tl with
    | none =>
      rw [htl] at h
      simp only [Option.some.injEq, Prod.mk.injEq] at h
      obtain ⟨rfl, rfl⟩ := h
      have : tl = [] := popFirstMinBy_none htl
      subst this
      simp at hy
      subst hy
      exact le_refl _
    | some mr =>
      rw [htl] at h
      obtain ⟨m, rest'⟩ := mr
      by_cases hk : key m < key a
      · simp only [hk, if_pos, Option.some.injEq, Prod.mk.injEq] at h
        obtain ⟨rfl, rfl⟩ := h
        rcases List.mem_cons.mp hy with rfl | hy
        · exact le_of_lt hk
        · exact ih htl y hy
      · simp only [hk, if_neg, Option.some.injEq, Prod.mk.injEq, not_false_iff] at h
        obtain ⟨rfl, rfl⟩ := h
        rcases List.mem_cons.mp hy with rfl | hy
        · exact le_refl _
        · exact le_trans (not_lt.mp hk) (ih htl y hy)

theorem popFirstMaxBy_max {α β : Type _} [LinearOrder β] {key : α → β} :
    ∀ {l : List α} {x : α} {rest : List α},
      popFirstMaxBy key l = some (x, rest) → ∀ y ∈ l, key y ≤ key x := by
  intro l
  induction l with
  | nil => intro x rest h; simp [popFirstMaxBy] at h
  | cons a tl ih =>
    intro x rest h y hy
    simp only [popFirstMaxBy] at h
    cases htl : popFirstMaxBy key tl with
    | none =>
      rw [htl] at h
      simp only [Option.some.injEq, Prod.mk.injEq] at h
      obtain ⟨rfl, rfl⟩ := h
      have : tl = [] := popFirstMaxBy_none htl
      subst this
      simp at hy
      subst hy
      exact le_refl _
    | some mr =>
      rw [htl] at h
      obtain ⟨m, rest'⟩ := mr
      by_cases hk : key a < key m
      · simp only [hk, if_pos, Option.some.injEq, Prod.mk.injEq] at h
        obtain ⟨rfl, rfl⟩ := h
        rcases List.mem_cons.mp hy with rfl | hy
        · exact le_of_lt hk
        · exact ih htl y hy
      · simp only [hk, if_neg, Option.some.injEq, Prod.mk.injEq, not_false_iff] at h
        obtain ⟨rfl, rfl⟩ := h
        rcases List.mem_cons.mp hy with rfl | hy
        · exact le_refl _
        · exact le_trans (ih htl y hy) (not_lt.mp hk)

/-! ## Query machinery -/

/-- The free function `get_distance`: without a periodic vector, just the
metric; with one, the minimum of the metric over the 3^K translations of the
first argument by −L, 0, +L on each axis, starting the running minimum at
the sum of the squared components of L. -/
def getDistance (a b : Point) (d : Met) (periodic : Option Point) : ℚ :=
  match periodic with
  | none => d a b
  | some per =>
    let init := per.foldl (fun acc x => acc + x * x) 0
    (List.range (3 ^ a.length)).foldl
      (fun mn imageIdx =>
        let newA := (List.range a.length).map (fun idx =>
          a.getD idx 0 + ((((imageIdx / 3 ^ idx) % 3 : ℕ) : ℚ) - 1) * per.getD idx 0)
        qmin mn (d newA b))
      init

/-- The method `populate_pending`: starting from the popped subtree, descend
stems toward the side the query point belongs to; at each stem push the other
child, keyed by its axis-aligned-box distance, onto the pending set when that
distance does not exceed `max_dist`.  (The source stores the negated distance
so the max-heap pops the smallest; the model stores the distance itself and
pops the minimum.)  Returns the updated pending set and the reached leaf. -/
def populatePending (point : Point) (maxDist : WithTop ℚ) (d : Met) :
    List (WithTop ℚ × KdTree T) → KdTree T →
      List (WithTop ℚ × KdTree T) × KdTree T
  | pending, .stemNode sz b lch rch sv sd per =>
    if point.getD sd 0 < sv then
      let c2s := distanceToSpace point rch.bounds d
      populatePending point maxDist d
        (if c2s ≤ maxDist then (c2s, rch) :: pending else pending) lch
    else
      let c2s := distanceToSpace point lch.bounds d
      populatePending point maxDist d
        (if c2s ≤ maxDist then (c2s, lch) :: pending else pending) rch
  | pending, t => (pending, t)

/-- Total node weight of a pending set (termination measure of the query
loops; not part of the source). -/
def pendingWeight (pending : List (WithTop ℚ × KdTree T)) : ℕ :=
  (pending.map (fun x => x.2.numNodes)).sum

@[simp]
theorem numNodes_stem (s : ℕ) (b : Option (Point × Point))
    (lch rch : KdTree T) (sv : ℚ) (sd : ℕ) (p : Option Point) :
    (KdTree.stemNode s b lch rch sv sd p).numNodes =
      1 + lch.numNodes + rch.numNodes := rfl

@[simp]
theorem numNodes_leaf (s : ℕ) (b : Option (Point × Point)) (pts : List Point)
    (bkt : List T) (cap : ℕ) (p : Option Point) :
    (KdTree.leafNode s b pts bkt cap p).numNodes = 1 := rfl

theorem KdTree.numNodes_pos (t : KdTree T) : 1 ≤ t.numNodes := by
  cases t with
  | stemNode s b lch rch sv sd p => simp; omega
  | leafNode s b pts bkt cap p => simp

@[simp]
theorem pendingWeight_nil : pendingWeight ([] : List (WithTop ℚ × KdTree T)) = 0 := rfl

@[simp]
theorem pendingWeight_cons (x : WithTop ℚ × KdTree T)
    (l : List (WithTop ℚ × KdTree T)) :
    pendingWeight (x :: l) = x.2.numNodes + pendingWeight l := rfl

theorem pendingWeight_perm {l l' : List (WithTop ℚ × KdTree T)}
    (h : l.Perm l') : pendingWeight l = pendingWeight l' := by
  unfold pendingWeight
  exact List.Perm.sum_eq (h.map (fun x => x.2.numNodes))

theorem populatePending_weight_aux (point : Point) (maxDist : WithTop ℚ)
    (d : Met) :
    ∀ (n : ℕ) (t : KdTree T) (pending : List (WithTop ℚ × KdTree T)),
      t.numNodes ≤ n →
      pendingWeight (populatePending point maxDist d pending t).1 +
          (populatePending point maxDist d pending t).2.numNodes ≤
        pendingWeight pending + t.numNodes ∧
      (populatePending point maxDist d pending t).2.isLeaf = true := by
  intro n
  induction n with
  | zero =>
    intro t pending h
    have := t.numNodes_pos
    omega
  | succ n ih =>
    intro t pending h
    cases t with
    | leafNode s b pts bkt cap per =>
      simp [populatePending, KdTree.isLeaf]
    | stemNode s b lch rch sv sd per =>
      simp only [numNodes_stem] at h
      have hl : lch.numNodes ≤ n := by
        have := rch.numNodes_pos
        omega
      have hr : rch.numNodes ≤ n := by
        have := lch.numNodes_pos
        omega
      by_cases hb : point.getD sd 0 < sv
      · have heq : populatePending point maxDist d pending
            (.stemNode s b lch rch sv sd per) =
            populatePending point maxDist d
              (if distanceToSpace point rch.bounds d ≤ maxDist then
                (distanceToSpace point rch.bounds d, rch) :: pending
               else pending) lch := by
          simp only [populatePending]
          rw [if_pos hb]
        rw [heq]
        have hw : pendingWeight
            (if distanceToSpace point rch.bounds d ≤ maxDist then
              (distanceToSpace point rch.bounds d, rch) :: pending
             else pending) ≤ pendingWeight pending + rch.numNodes := by
          by_cases hc : distanceToSpace point rch.bounds d ≤ maxDist <;>
            simp [hc] <;> omega
        have hih := ih lch
          (if distanceToSpace point rch.bounds d ≤ maxDist then
            (distanceToSpace point rch.bounds d, rch) :: pending
           else pending) hl
        refine ⟨?_, hih.2⟩
        have := hih.1
        simp only [numNodes_stem]
        omega
      · have heq : populatePending point maxDist d pending
            (.stemNode s b lch rch sv sd per) =
            populatePending point maxDist d
              (if distanceToSpace point lch.bounds d ≤ maxDist then
                (distanceToSpace point lch.bounds d, lch) :: pending
               else pending) rch := by
          simp only [populatePending]
          rw [if_neg hb]
        rw [heq]
        have hw : pendingWeight
            (if distanceToSpace point lch.bounds d ≤ maxDist then
              (distanceToSpace point lch.bounds d, lch) :: pending
             else pending) ≤ pendingWeight pending + lch.numNodes := by
          by_cases hc : distanceToSpace point lch.bounds d ≤ maxDist <;>
            simp [hc] <;> omega
        have hih := ih rch
          (if distanceToSpace point lch.bounds d ≤ maxDist then
            (distanceToSpace point lch.bounds d, lch) :: pending
           else pending) hr
        refine ⟨?_, hih.2⟩
        have := hih.1
        simp only [numNodes_stem]
        omega

/-- Descending with `populate_pending` never increases the total weight:
the weight of the new pending entries plus the reached leaf stays within the
weight of the subtree descended into. -/
theorem populatePending_weight (point : Point) (maxDist : WithTop ℚ) (d : Met)
    (t : KdTree T) (pending : List (WithTop ℚ × KdTree T)) :
    pendingWeight (populatePending point maxDist d pending t).1 +
        (populatePending point maxDist d pending t).2.numNodes ≤
      pendingWeight pending + t.numNodes :=
  (populatePending_weight_aux point maxDist d t.numNodes t pending le_rfl).1

/-- The node reached by `populate_pending` is always a leaf. -/
theorem populatePending_isLeaf (point : Point) (maxDist : WithTop ℚ) (d : Met)
    (t : KdTree T) (pending : List (WithTop ℚ × KdTree T)) :
    (populatePending point maxDist d pending t).2.isLeaf = true :=
  (populatePending_weight_aux point maxDist d t.numNodes t pending le_rfl).2

theorem ne_nil_of_isEmpty_eq_false {α : Type _} {l : List α}
    (h : l.isEmpty = false) : l ≠ [] := by
  cases l <;> simp_all

/-- First-minimal bound of the pending heap: the value
`-pending.peek().unwrap().distance` that the loop guards compare (the source
peeks the max of the negated bounds).  `⊤` on an empty pending set, which the
guards rule out before peeking. -/
def peekMinKey (pending : List (WithTop ℚ × KdTree T)) : WithTop ℚ :=
  match popFirstMinBy (fun x => x.1) pending with
  | none => ⊤
  | some x => x.1.1

/-- First-maximal distance of the evaluated heap
(`evaluated.peek().unwrap().distance`); read only under guards that ensure
nonemptiness. -/
def peekMaxDist (evaluated : List (ℚ × T)) : ℚ :=
  match popFirstMaxBy (fun x => x.1) evaluated with
  | none => 0
  | some x => x.1.1

/-- The `peek_mut` replacement step of `nearest_step`: if the new element is
strictly closer than the farthest evaluated element, the farthest is
replaced. -/
def replaceTop (e : ℚ × T) (evaluated : List (ℚ × T)) : List (ℚ × T) :=
  match popFirstMaxBy (fun x => x.1) evaluated with
  | none => evaluated
  | some (top, rest) => if e.1 < top.1 then e :: rest else evaluated

/-- The leaf-processing part of `nearest_step`: each stored pair is scored
with `get_distance`; an element within `max_dist` is pushed while fewer than
`num` elements are held, and otherwise replaces the farthest held element
when strictly closer. -/
def nearestStepLeaf (periodic : Option Point) (point : Point) (num : ℕ)
    (maxDist : WithTop ℚ) (d : Met) (pts : List Point) (bkt : List T)
    (evaluated : List (ℚ × T)) : List (ℚ × T) :=
  (pts.zip bkt).foldl
    (fun ev pb =>
      let dist := getDistance point pb.1 d periodic
      if (dist : WithTop ℚ) ≤ maxDist then
        if ev.length < num then (dist, pb.2) :: ev
        else replaceTop (dist, pb.2) ev
      else ev)
    evaluated

/-- The method `nearest_step`: pop the subtree with the smallest bound,
descend it with `populate_pending`, and process the reached leaf.  (The
stem fallback mirrors the source's `unreachable!()`; `populate_pending`
always ends at a leaf.) -/
def nearestStep (periodic : Option Point) (point : Point) (num : ℕ)
    (maxDist : WithTop ℚ) (d : Met)
    (pending : List (WithTop ℚ × KdTree T)) (evaluated : List (ℚ × T)) :
    List (WithTop ℚ × KdTree T) × List (ℚ × T) :=
  match popFirstMinBy (fun x => x.1) pending with
  | none => (pending, evaluated)
  | some (top, rest) =>
    let pe := populatePending point maxDist d rest top.2
    match pe.2 with
    | .leafNode _ _ pts bkt _ _ =>
      (pe.1, nearestStepLeaf periodic point num maxDist d pts bkt evaluated)
    | _ => (pe.1, evaluated)

theorem nearestStep_weight (periodic : Option Point) (point : Point)
    (num : ℕ) (maxDist : WithTop ℚ) (d : Met)
    {pending : List (WithTop ℚ × KdTree T)} (evaluated : List (ℚ × T))
    (hne : pending ≠ []) :
    pendingWeight
        (nearestStep periodic point num maxDist d pending evaluated).1 <
      pendingWeight pending := by
  unfold nearestStep
  cases hp : popFirstMinBy (fun x => x.1) pending with
  | none => exact absurd (popFirstMinBy_none hp) hne
  | some xr =>
    obtain ⟨top, rest⟩ := xr
    have hwp : pendingWeight pending = top.2.numNodes + pendingWeight rest := by
      rw [pendingWeight_perm (popFirstMinBy_perm hp)]
      simp
    have h1 := populatePending_weight point maxDist d top.2 rest
    have h2 := KdTree.numNodes_pos (populatePending point maxDist d rest top.2).2
    have key : pendingWeight (populatePending point maxDist d rest top.2).1 <
        pendingWeight pending := by
      rw [hwp]
      have h3 := KdTree.numNodes_pos top.2
      omega
    rcases hc : (populatePending point maxDist d rest top.2).2 with
      ⟨s2, b2, pts2, bkt2, cap2, per2⟩ | ⟨s2, b2, l2, r2, sv2, sd2, per2⟩ <;>
      simp only [hc] <;> simpa using key

/-- The query loop of `nearest` (and of `nearest_periodic` per image): while
pending is nonempty and either fewer than `num` elements were evaluated or
the smallest pending bound does not exceed the farthest evaluated distance,
run `nearest_step` with an infinite `max_dist`.  The fuel bounds the number
of iterations; every step strictly decreases the pending weight, so the
entry points pass the root weight plus one and the fuel never runs out. -/
def nearestLoop (periodic : Option Point) (point : Point) (num : ℕ) (d : Met) :
    ℕ → List (WithTop ℚ × KdTree T) → List (ℚ × T) → List (ℚ × T)
  | 0, _, evaluated => evaluated
  | fuel + 1, pending, evaluated =>
    if pending.isEmpty = false ∧ (evaluated.length < num ∨
        peekMinKey pending ≤ (peekMaxDist evaluated : WithTop ℚ)) then
      let st := nearestStep periodic point num ⊤ d pending evaluated
      nearestLoop periodic point num d fuel st.1 st.2
    else evaluated

/-- The query loop of `within_impl`: while pending is nonempty and the
smallest pending bound is within the radius, run `nearest_step` with
`num = size` and `max_dist = radius` (fuel as in `nearestLoop`). -/
def withinLoop (periodic : Option Point) (point : Point) (num : ℕ)
    (radius : ℚ) (d : Met) :
    ℕ → List (WithTop ℚ × KdTree T) → List (ℚ × T) → List (ℚ × T)
  | 0, _, evaluated => evaluated
  | fuel + 1, pending, evaluated =>
    if pending.isEmpty = false ∧ peekMinKey pending ≤ (radius : WithTop ℚ) then
      let st := nearestStep periodic point num (radius : WithTop ℚ) d pending
        evaluated
      withinLoop periodic point num radius d fuel st.1 st.2
    else evaluated

/-- Sorting of result vectors: `BinaryHeap::into_sorted_vec` and
`sort_by(partial_cmp on the distance)` both order ascending by distance. -/
def sortByDist (l : List (ℚ × T)) : List (ℚ × T) :=
  l.insertionSort (fun a b => a.1 ≤ b.1)

/-- The method `nearest`: validate, clamp `num` to `size`, return empty for
`num = 0`, otherwise run the loop from the root (pushed with bound zero) and
return the evaluated heap sorted ascending, truncated to `num`. -/
def KdTree.nearest (t : KdTree T) (point : RawPoint) (num : ℕ) (d : Met) :
    Except ErrorKind (List (ℚ × T)) :=
  match t.checkPoint point with
  | .error e => .error e
  | .ok _ =>
    let num := min num t.size
    if num = 0 then .ok []
    else
      let evaluated :=
        nearestLoop t.periodic (toQPoint point) num d (t.numNodes + 1)
          [((0 : WithTop ℚ), t)] []
      .ok ((sortByDist evaluated).take num)

/-- The per-axis squared distances to the nearer of the two periodic faces
(`closest_side_dist2` in every periodic query): the smaller of the query
component and its distance to the upper face, squared. -/
def closestSideDist2 (q L : Point) : List ℚ :=
  (List.range q.length).map (fun side =>
    let qc := q.getD side 0
    let upper := L.getD side 0 - qc
    (qmin upper qc) ^ 2)

/-- The image-enumeration block shared by all `*_periodic` queries: for each
nonzero bit pattern over the axes, when the sum of the flagged per-axis face
distances is strictly below the cutoff, the query point is translated on each
flagged axis by +L (lower half of the box) or −L (upper half). -/
def imagesToCheck (q L : Point) (csd2 : List ℚ) (cutoff : ℚ) : List Point :=
  (List.range' 1 (2 ^ q.length - 1)).filterMap (fun image =>
    let dist := ((List.range q.length).map (fun idx =>
      if (image / 2 ^ idx) % 2 = 1 then csd2.getD idx 0 else 0)).sum
    if dist < cutoff then
      some ((List.range q.length).map (fun idx =>
        if (image / 2 ^ idx) % 2 = 1 then
          let qc := q.getD idx 0
          let pc := L.getD idx 0
          if qc < pc / 2 then qc + pc else qc - pc
        else q.getD idx 0))
    else none)

/-- The method `nearest_periodic`: the canonical run of the `nearest` loop,
then the image enumeration cut off at the farthest canonical distance, a
rerun of the loop per image, a merge of all evaluated heaps, and the sorted
truncation to `num`. -/
def KdTree.nearestPeriodic (t : KdTree T) (point : RawPoint) (num : ℕ)
    (d : Met) (periodic : Point) : Except ErrorKind (List (ℚ × T)) :=
  match t.checkPoint point with
  | .error e => .error e
  | .ok _ =>
    let num := min num t.size
    if num = 0 then .ok []
    else
      let q := toQPoint point
      let evaluated := nearestLoop t.periodic q num d (t.numNodes + 1)
        [((0 : WithTop ℚ), t)] []
      let largest := evaluated.foldl (fun acc x => qmax acc x.1) 0
      let images := imagesToCheck q periodic (closestSideDist2 q periodic) largest
      let merged := images.foldl
        (fun ev img =>
          ev ++ nearestLoop t.periodic img num d (t.numNodes + 1)
            [((0 : WithTop ℚ), t)] [])
        evaluated
      .ok ((sortByDist merged).take num)

/-- The method `within_impl`: validate, then run the loop with the radius as
both the pending cutoff and `max_dist`, returning the raw evaluated heap. -/
def KdTree.withinImpl (t : KdTree T) (point : RawPoint) (radius : ℚ)
    (d : Met) : Except ErrorKind (List (ℚ × T)) :=
  match t.checkPoint point with
  | .error e => .error e
  | .ok _ =>
    .ok (withinLoop t.periodic (toQPoint point) t.size radius d
      (t.numNodes + 1) [((0 : WithTop ℚ), t)] [])

/-- The method `within`: empty tree short-circuits to an empty result
(before any validation), otherwise `within_impl` sorted ascending. -/
def KdTree.within (t : KdTree T) (point : RawPoint) (radius : ℚ) (d : Met) :
    Except ErrorKind (List (ℚ × T)) :=
  if t.size = 0 then .ok []
  else
    match t.withinImpl point radius d with
    | .error e => .error e
    | .ok ev => .ok (sortByDist ev)

/-- The method `within_unsorted`: as `within` but without the sort. -/
def KdTree.withinUnsorted (t : KdTree T) (point : RawPoint) (radius : ℚ)
    (d : Met) : Except ErrorKind (List (ℚ × T)) :=
  if t.size = 0 then .ok []
  else t.withinImpl point radius d

/-- The image loop shared by `within_periodic` and
`within_unsorted_periodic`: appending each image's `within_impl` result to
the accumulated result, propagating errors. -/
def withinImagesFold (t : KdTree T) (radius : ℚ) (d : Met) :
    List Point → List (ℚ × T) → Except ErrorKind (List (ℚ × T))
  | [], acc => .ok acc
  | img :: rest, acc =>
    match t.withinImpl (rawOf img) radius d with
    | .error e => .error e
    | .ok res => withinImagesFold t radius d rest (acc ++ res)

/-- The method `within_periodic`: empty tree short-circuits; otherwise the
canonical `within_impl` result, every image's result appended, and a final
ascending sort by distance. -/
def KdTree.withinPeriodic (t : KdTree T) (point : RawPoint) (radius : ℚ)
    (d : Met) (periodic : Point) : Except ErrorKind (List (ℚ × T)) :=
  if t.size = 0 then .ok []
  else
    match t.withinImpl point radius d with
    | .error e => .error e
    | .ok canonical =>
      let q := toQPoint point
      let images := imagesToCheck q periodic (closestSideDist2 q periodic) radius
      match withinImagesFold t radius d images canonical with
      | .error e => .error e
      | .ok merged => .ok (sortByDist merged)

/-- The method `within_unsorted_periodic`: as `within_periodic` without the
final sort. -/
def KdTree.withinUnsortedPeriodic (t : KdTree T) (point : RawPoint)
    (radius : ℚ) (d : Met) (periodic : Point) :
    Except ErrorKind (List (ℚ × T)) :=
  if t.size = 0 then .ok []
  else
    match t.withinImpl point radius d with
    | .error e => .error e
    | .ok canonical =>
      let q := toQPoint point
      let images := imagesToCheck q periodic (closestSideDist2 q periodic) radius
      withinImagesFold t radius d images canonical

/-- The comparison `pending[0].distance < best_dist` in the `nearest_one`
loop guard: `pending[0]` holds the *negated* bound of the oldest pending
entry (the bottom of the LIFO stack), so a stored bound of `⊤` compares as
`−∞` and is below every possible `best_dist`; finite bounds compare negated
against the (possibly infinite) running best. -/
def negBelowB (lb best : WithTop ℚ) : Bool :=
  if lb = ⊤ then true
  else if best = ⊤ then true
  else decide (-(lb.untop' 0) < best.untop' 0)

/-- The bound stored at `pending[0]`, the bottom of the `nearest_one`
stack (its entries are modelled most-recent-first). -/
def bottomKey (pending : List (WithTop ℚ × KdTree T)) : WithTop ℚ :=
  match pending.getLast? with
  | none => ⊤
  | some x => x.1

/-- The method `nearest_one_step`: pop the most recently pushed subtree,
descend it with `populate_pending` bounded by the current best distance, and
scan the reached leaf, replacing the best pair whenever an element is
strictly closer (or none is held yet). -/
def nearestOneStep (periodic : Option Point) (point : Point) (d : Met)
    (pending : List (WithTop ℚ × KdTree T)) (bestDist : WithTop ℚ)
    (bestElem : Option T) :
    List (WithTop ℚ × KdTree T) × WithTop ℚ × Option T :=
  match pending with
  | [] => ([], bestDist, bestElem)
  | top :: rest =>
    let pe := populatePending point bestDist d rest top.2
    match pe.2 with
    | .leafNode _ _ pts bkt _ _ =>
      (pe.1, (pts.zip bkt).foldl
        (fun acc pb =>
          let dist := getDistance point pb.1 d periodic
          if acc.2.isNone = true ∨ (dist : WithTop ℚ) < acc.1 then
            ((dist : WithTop ℚ), some pb.2)
          else acc)
        (bestDist, bestElem))
    | _ => (pe.1, bestDist, bestElem)

theorem nearestOneStep_weight (periodic : Option Point) (point : Point)
    (d : Met) {pending : List (WithTop ℚ × KdTree T)} (bestDist : WithTop ℚ)
    (bestElem : Option T) (hne : pending ≠ []) :
    pendingWeight
        (nearestOneStep periodic point d pending bestDist bestElem).1 <
      pendingWeight pending := by
  cases pending with
  | nil => exact absurd rfl hne
  | cons top rest =>
    have h1 := populatePending_weight point bestDist d top.2 rest
    have h2 := KdTree.numNodes_pos (populatePending point bestDist d rest top.2).2
    have h3 := KdTree.numNodes_pos top.2
    unfold nearestOneStep
    rcases hc : (populatePending point bestDist d rest top.2).2 with
      ⟨s2, b2, pts2, bkt2, cap2, per2⟩ | ⟨s2, b2, l2, r2, sv2, sd2, per2⟩ <;>
      simp only [hc] <;> simp <;> omega

/-- The query loop of `nearest_one`: while pending is nonempty and either no
best element is held or the negated bound at `pending[0]` is below the best
distance, run `nearest_one_step` (fuel as in `nearestLoop`). -/
def nearestOneLoop (periodic : Option Point) (point : Point) (d : Met) :
    ℕ → List (WithTop ℚ × KdTree T) → WithTop ℚ → Option T →
      WithTop ℚ × Option T
  | 0, _, bestDist, bestElem => (bestDist, bestElem)
  | fuel + 1, pending, bestDist, bestElem =>
    if pending.isEmpty = false ∧ (bestElem.isNone = true ∨
        negBelowB (bottomKey pending) bestDist = true) then
      let st := nearestOneStep periodic point d pending bestDist bestElem
      nearestOneLoop periodic point d fuel st.1 st.2.1 st.2.2
    else (bestDist, bestElem)

/-- The method `nearest_one`: `Empty` on an empty tree (before validation),
then validate, then the loop from the root with best distance `+∞`.  The
final `unwrap` of the best element corresponds to the `none` fallback, which
is unreachable for a tree whose leaves realise its positive size. -/
def KdTree.nearestOne (t : KdTree T) (point : RawPoint) (d : Met) :
    Except ErrorKind (ℚ × T) :=
  if t.size = 0 then .error .Empty
  else
    match t.checkPoint point with
    | .error e => .error e
    | .ok _ =>
      let r := nearestOneLoop t.periodic (toQPoint point) d (t.numNodes + 1)
        [((0 : WithTop ℚ), t)] ⊤ none
      match r.2 with
      | some e => .ok (r.1.untop' 0, e)
      | none => .error .Empty

/-- The method `nearest_one_periodic`: the canonical `nearest_one` loop,
then the image enumeration cut off at the canonical best distance, a rerun
per image keeping the smaller best. -/
def KdTree.nearestOnePeriodic (t : KdTree T) (point : RawPoint) (d : Met)
    (periodic : Point) : Except ErrorKind (ℚ × T) :=
  if t.size = 0 then .error .Empty
  else
    match t.checkPoint point with
    | .error e => .error e
    | .ok _ =>
      let q := toQPoint point
      let canonical := nearestOneLoop t.periodic q d (t.numNodes + 1)
        [((0 : WithTop ℚ), t)] ⊤ none
      match canonical.2 with
      | none => .error .Empty
      | some cElem =>
        let images := imagesToCheck q periodic (closestSideDist2 q periodic)
          (canonical.1.untop' 0)
        let final := images.foldl
          (fun best img =>
            let ir := nearestOneLoop t.periodic img d (t.numNodes + 1)
              [((0 : WithTop ℚ), t)] ⊤ none
            if ir.1 < best.1 then ir else best)
          (canonical.1, some cElem)
        match final.2 with
        | some e => .ok (final.1.untop' 0, e)
        | none => .error .Empty

/-- The method `best_n_within_step`: pop the most recently pushed subtree,
descend with the radius as `max_dist`, and scan the leaf: an element within
the radius is pushed onto the payload heap while fewer than `max_qty` are
held, and otherwise replaces the largest held payload when strictly
smaller. -/
def bestNWithinStep [LinearOrder T] (periodic : Option Point) (point : Point)
    (maxQty : ℕ) (maxDist : ℚ) (d : Met)
    (pending : List (WithTop ℚ × KdTree T)) (evaluated : List T) :
    List (WithTop ℚ × KdTree T) × List T :=
  match pending with
  | [] => ([], evaluated)
  | top :: rest =>
    let pe := populatePending point (maxDist : WithTop ℚ) d rest top.2
    match pe.2 with
    | .leafNode _ _ pts bkt _ _ =>
      (pe.1, (pts.zip bkt).foldl
        (fun ev pb =>
          let dist := getDistance point pb.1 d periodic
          if dist ≤ maxDist then
            if ev.length < maxQty then pb.2 :: ev
            else
              match popFirstMaxBy id ev with
              | none => ev
              | some (topv, restv) =>
                if pb.2 < topv then pb.2 :: restv else ev
          else ev)
        evaluated)
    | _ => (pe.1, evaluated)

theorem bestNWithinStep_weight [LinearOrder T] (periodic : Option Point)
    (point : Point) (maxQty : ℕ) (maxDist : ℚ) (d : Met)
    {pending : List (WithTop ℚ × KdTree T)} (evaluated : List T)
    (hne : pending ≠ []) :
    pendingWeight
        (bestNWithinStep periodic point maxQty maxDist d pending evaluated).1 <
      pendingWeight pending := by
  cases pending with
  | nil => exact absurd rfl hne
  | cons top rest =>
    have h1 := populatePending_weight point (maxDist : WithTop ℚ) d top.2 rest
    have h2 := KdTree.numNodes_pos
      (populatePending point (maxDist : WithTop ℚ) d rest top.2).2
    have h3 := KdTree.numNodes_pos top.2
    unfold bestNWithinStep
    rcases hc : (populatePending point (maxDist : WithTop ℚ) d rest top.2).2 with
      ⟨s2, b2, pts2, bkt2, cap2, per2⟩ | ⟨s2, b2, l2, r2, sv2, sd2, per2⟩ <;>
      simp only [hc] <;> simp <;> omega

/-- The query loop of `best_n_within` and `best_n_within_into_iter`: while
pending is nonempty, run `best_n_within_step` (fuel as in `nearestLoop`). -/
def bestNWithinLoop [LinearOrder T] (periodic : Option Point) (point : Point)
    (maxQty : ℕ) (maxDist : ℚ) (d : Met) :
    ℕ → List (WithTop ℚ × KdTree T) → List T → List T
  | 0, _, evaluated => evaluated
  | fuel + 1, pending, evaluated =>
    if pending.isEmpty = false then
      let st := bestNWithinStep periodic point maxQty maxDist d pending
        evaluated
      bestNWithinLoop periodic point maxQty maxDist d fuel st.1 st.2
    else evaluated

/-- The method `best_n_within`: empty tree short-circuits to an empty result
(before any validation), then validate, then the loop from the root. -/
def KdTree.bestNWithin [LinearOrder T] (t : KdTree T) (point : RawPoint)
    (radius : ℚ) (maxQty : ℕ) (d : Met) : Except ErrorKind (List T) :=
  if t.size = 0 then .ok []
  else
    match t.checkPoint point with
    | .error e => .error e
    | .ok _ =>
      .ok (bestNWithinLoop t.periodic (toQPoint point) maxQty radius d
        (t.numNodes + 1) [((0 : WithTop ℚ), t)] [])

/-- The method `best_n_within_into_iter`: the same loop, but with the
validation and the empty-tree short-circuit commented out in the source; the
returned iterator yields the payload heap with no error channel at all. -/
def KdTree.bestNWithinIntoIter [LinearOrder T] (t : KdTree T)
    (point : RawPoint) (radius : ℚ) (maxQty : ℕ) (d : Met) : List T :=
  bestNWithinLoop t.periodic (toQPoint point) maxQty radius d
    (t.numNodes + 1) [((0 : WithTop ℚ), t)] []

/-- The method `remove`: validate the point, then descend every subtree
(right child first, then left, exactly as in the source, with the `?`
operator re-running validation at every level), scanning each leaf and
decrementing the sizes on the way up.  Returns the number removed together
with the updated tree (the source mutates in place). -/
def KdTree.remove [DecidableEq T] :
    KdTree T → RawPoint → T → Except ErrorKind (ℕ × KdTree T)
  | .leafNode size bounds pts bkt cap periodic, p, data =>
    match (KdTree.leafNode size bounds pts bkt cap periodic :
        KdTree T).checkPoint p with
    | .error e => .error e
    | .ok _ =>
      let res := removeScan (toQPoint p) data size 0 pts bkt
      .ok (res.1, .leafNode (size - res.1) bounds res.2.1 res.2.2 cap periodic)
  | .stemNode size bounds lch rch sv sd periodic, p, data =>
    match (KdTree.stemNode size bounds lch rch sv sd periodic :
        KdTree T).checkPoint p with
    | .error e => .error e
    | .ok _ =>
      match rch.remove p data with
      | .error e => .error e
      | .ok rres =>
        match lch.remove p data with
        | .error e => .error e
        | .ok lres =>
          .ok (rres.1 + lres.1,
            .stemNode (size - rres.1 - lres.1) bounds
              lres.2 rres.2 sv sd periodic)

/-! ## The streaming iterator `NearestIter` -/

/-- The struct `NearestIter`: the query point, the pending subtree heap, the
evaluated heap (the source keys it on the *negated* distance so that popping
the maximum yields the closest pair; the model stores the distance itself and
pops the minimum), and the tree's periodic vector. -/
structure NearestIter (T : Type) where
  point : Point
  pending : List (WithTop ℚ × KdTree T)
  evaluated : List (ℚ × T)
  periodic : Option Point

/-- The value `self.evaluated.peek().map_or(A::infinity(), |x| -x.distance)`
of `NearestIter::next`: the smallest evaluated distance, or `+∞` when none
has been evaluated. -/
def evalMinKey (evaluated : List (ℚ × T)) : WithTop ℚ :=
  match popFirstMinBy (fun x => x.1) evaluated with
  | none => ⊤
  | some x => (x.1.1 : WithTop ℚ)

/-- The advancing loop inside `NearestIter::next`: while pending is nonempty
and the smallest evaluated distance is at least the smallest pending bound,
pop the closest pending subtree, descend it (pushing every sibling, with no
`max_dist` cut: the source pushes unconditionally, which descending with
`max_dist = ⊤` reproduces), and push every pair of the reached leaf onto the
evaluated heap with its `get_distance` score.  Fuel as in `nearestLoop`. -/
def iterAdvance (d : Met) : ℕ → NearestIter T → NearestIter T
  | 0, it => it
  | fuel + 1, it =>
    if it.pending.isEmpty = false ∧
        peekMinKey it.pending ≤ evalMinKey it.evaluated then
      match popFirstMinBy (fun x => x.1) it.pending with
      | none => it
      | some (top, rest) =>
        let pe := populatePending it.point ⊤ d rest top.2
        match pe.2 with
        | .leafNode _ _ pts bkt _ _ =>
          iterAdvance d fuel
            ⟨it.point, pe.1,
              (pts.zip bkt).foldl (fun ev pb =>
                (getDistance it.point pb.1 d it.periodic, pb.2) :: ev)
                it.evaluated,
              it.periodic⟩
        | _ => iterAdvance d fuel ⟨it.point, pe.1, it.evaluated, it.periodic⟩
    else it

/-- The method `NearestIter::next`: advance, then pop the closest evaluated
pair (returning its distance un-negated), if any. -/
def NearestIter.next (d : Met) (it : NearestIter T) :
    Option ((ℚ × T) × NearestIter T) :=
  let it' := iterAdvance d (pendingWeight it.pending + 1) it
  match popFirstMinBy (fun x => x.1) it'.evaluated with
  | none => none
  | some (x, rest) =>
    some (x, ⟨it'.point, it'.pending, rest, it'.periodic⟩)

/-- The method `iter_nearest`: validate, then return the iterator seeded with
the root at bound zero and an empty evaluated heap. -/
def KdTree.iterNearest (t : KdTree T) (point : RawPoint) (d : Met) :
    Except ErrorKind (NearestIter T) :=
  match t.checkPoint point with
  | .error e => .error e
  | .ok _ =>
    .ok ⟨toQPoint point, [((0 : WithTop ℚ), t)], [], t.periodic⟩

/-! ## Characterisation of the `check_point` periodic test -/

/-- A fold that ORs two predicates into a pair accumulator computes the two
`any`s. -/
theorem foldl_orPair {α : Type _} (f g : α → Bool) (l : List α)
    (acc : Bool × Bool) :
    l.foldl (fun acc x => (acc.1 || f x, acc.2 || g x)) acc =
      (acc.1 || l.any f, acc.2 || l.any g) := by
  induction l generalizing acc with
  | nil => simp
  | cons a tl ih => simp [List.foldl_cons, ih, List.any_cons, Bool.or_assoc]

/-- The inner index loop of the `check_point` fold: it ORs into the
accumulator whether `x` exceeds (is below) any component of the periodic
vector. -/
theorem checkFold_inner (per : Point) (x : ℚ) (acc : Bool × Bool) :
    per.foldl
        (fun acc2 li => (acc2.1 || decide (x > li), acc2.2 || decide (x < li)))
        acc =
      (acc.1 || per.any (fun li => decide (x > li)),
       acc.2 || per.any (fun li => decide (x < li))) :=
  foldl_orPair _ _ _ _

/-- The outer fold of the `check_point` periodic test: `above_bound` is set
iff some component of the periodic vector exceeds another, `below_bound` iff
some component is below another — the supplied point is never consulted. -/
theorem checkFold_outer (per scan : Point) (acc : Bool × Bool) :
    scan.foldl
        (fun acc x =>
          per.foldl
            (fun acc2 li =>
              (acc2.1 || decide (x > li), acc2.2 || decide (x < li)))
            acc)
        acc =
      (acc.1 || scan.any (fun x => per.any (fun li => decide (x > li))),
       acc.2 || scan.any (fun x => per.any (fun li => decide (x < li)))) := by
  simp only [checkFold_inner]
  exact foldl_orPair _ _ _ _

/-- On a finite point, `check_point` of a periodic tree succeeds whenever all
components of the periodic vector are equal — regardless of the point. -/
theorem checkPoint_ok_of_allEq {t : KdTree T} {L : Point}
    (hper : t.periodic = some L) (hEq : ∀ x ∈ L, ∀ y ∈ L, x = y)
    {p : RawPoint} (hfin : p.all Coord.isFinite = true) :
    t.checkPoint p = .ok () := by
  unfold KdTree.checkPoint
  rw [hper, hfin]
  simp only [Bool.not_true, checkFold_outer]
  have h1 : L.any (fun x => L.any (fun li => decide (x > li))) = false := by
    rw [List.any_eq_false]
    intro x hx
    rw [Bool.not_eq_true, List.any_eq_false]
    intro y hy
    have hxy := hEq x hx y hy
    subst hxy
    simp
  have h2 : L.any (fun x => L.any (fun li => decide (x < li))) = false := by
    rw [List.any_eq_false]
    intro x hx
    rw [Bool.not_eq_true, List.any_eq_false]
    intro y hy
    have hxy := hEq x hx y hy
    subst hxy
    simp
  simp [h1, h2]

/-- On a finite point, `check_point` of a periodic tree fails with
`PeriodicOutOfBounds` whenever two components of the periodic vector differ —
regardless of the point. -/
theorem checkPoint_err_of_ne {t : KdTree T} {L : Point}
    (hper : t.periodic = some L) {x y : ℚ} (hx : x ∈ L) (hy : y ∈ L)
    (hne : x ≠ y) {p : RawPoint} (hfin : p.all Coord.isFinite = true) :
    t.checkPoint p = .error .PeriodicOutOfBounds := by
  unfold KdTree.checkPoint
  rw [hper, hfin]
  simp only [Bool.not_true, checkFold_outer]
  rcases lt_or_gt_of_ne hne with hlt | hgt
  · have h2 : L.any (fun a => L.any (fun li => decide (a < li))) = true := by
      simp only [List.any_eq_true, decide_eq_true_eq]
      exact ⟨x, hx, y, hy, hlt⟩
    simp [h2]
  · have h1 : L.any (fun a => L.any (fun li => decide (a > li))) = true := by
      simp only [List.any_eq_true, decide_eq_true_eq]
      exact ⟨x, hx, y, hy, hgt⟩
    simp [h1]

/-- On a non-periodic tree, `check_point` of a finite point succeeds. -/
theorem checkPoint_ok_of_nonperiodic {t : KdTree T}
    (hper : t.periodic = none) {p : RawPoint}
    (hfin : p.all Coord.isFinite = true) : t.checkPoint p = .ok () := by
  unfold KdTree.checkPoint
  rw [hper, hfin]
  simp

/-- On a point with a non-finite coordinate, `check_point` always fails with
`NonFiniteCoordinate` (before reading anything else). -/
theorem checkPoint_err_of_nonfinite {t : KdTree T} {p : RawPoint}
    (hfin : ¬ p.all Coord.isFinite = true) :
    t.checkPoint p = .error .NonFiniteCoordinate := by
  unfold KdTree.checkPoint
  simp [hfin]

/-- Points injected from validated rationals are finite. -/
theorem rawOf_all_isFinite (p : Point) :
    (rawOf p).all Coord.isFinite = true := by
  unfold rawOf
  simp [List.all_map]
  intro x hx
  rfl

/-- Uniformity of the periodic vector across a tree (spec §3, invariant 5):
the field every node carries equals `P`.  Needed because `remove` re-runs
validation at every level of the tree. -/
def periodicUniform (P : Option Point) : KdTree T → Bool
  | .leafNode _ _ _ _ _ per => decide (per = P)
  | .stemNode _ _ l r _ _ per =>
    decide (per = P) && periodicUniform P l && periodicUniform P r

/-- The verdict of `check_point` depends only on the periodic field. -/
theorem checkPoint_congr (t t' : KdTree T) (h : t.periodic = t'.periodic)
    (p : RawPoint) : t.checkPoint p = t'.checkPoint p := by
  unfold KdTree.checkPoint
  rw [h]

theorem isOk_iff_exists {ε α : Type _} {e : Except ε α} :
    e.isOk = true ↔ ∃ v, e = .ok v := by
  cases e <;> simp [Except.isOk, Except.toBool]

/-- Unfolding `remove` under a failed validation: the error propagates. -/
theorem remove_checkErr [DecidableEq T] {t : KdTree T} {p : RawPoint}
    {e : ErrorKind} (h : t.checkPoint p = .error e) (data : T) :
    t.remove p data = .error e := by
  cases t <;> simp only [KdTree.remove] <;> rw [h]

/-- With an all-equal periodic vector at every node, `remove` with a finite
point succeeds at every level. -/
theorem remove_isOk_of_uniform_allEq [DecidableEq T] {L : Point}
    (hEq : ∀ x ∈ L, ∀ y ∈ L, x = y) {p : RawPoint}
    (hfin : p.all Coord.isFinite = true) (data : T) :
    ∀ (t : KdTree T), periodicUniform (some L) t = true →
      (t.remove p data).isOk = true := by
  intro t
  induction t with
  | leafNode s b pts bkt cap per =>
    intro hu
    simp only [periodicUniform, decide_eq_true_eq] at hu
    simp only [KdTree.remove]
    rw [checkPoint_ok_of_allEq (t := KdTree.leafNode s b pts bkt cap per)
      (by simpa [KdTree.periodic] using hu) hEq hfin]
    simp [Except.isOk, Except.toBool]
  | stemNode s b lch rch sv sd per ihl ihr =>
    intro hu
    simp only [periodicUniform, Bool.and_eq_true, decide_eq_true_eq] at hu
    obtain ⟨⟨hper, hul⟩, hur⟩ := hu
    obtain ⟨rv, hrv⟩ := isOk_iff_exists.mp (ihr hur)
    obtain ⟨lv, hlv⟩ := isOk_iff_exists.mp (ihl hul)
    simp only [KdTree.remove]
    rw [checkPoint_ok_of_allEq (t := KdTree.stemNode s b lch rch sv sd per)
      (by simpa [KdTree.periodic] using hper) hEq hfin]
    rw [hrv, hlv]
    simp [Except.isOk, Except.toBool]

/-- When the root validation succeeds for every finite point,
`within_impl` succeeds. -/
theorem withinImpl_eq_ok {t : KdTree T} {p : RawPoint}
    (h : t.checkPoint p = .ok ()) (radius : ℚ) (d : Met) :
    t.withinImpl p radius d =
      .ok (withinLoop t.periodic (toQPoint p) t.size radius d
        (t.numNodes + 1) [((0 : WithTop ℚ), t)] []) := by
  unfold KdTree.withinImpl
  rw [h]

/-- The image fold of the periodic `within` variants succeeds whenever the
root validation succeeds on every finite point. -/
theorem withinImagesFold_isOk {t : KdTree T} (radius : ℚ) (d : Met)
    (hchk : ∀ q : Point, t.checkPoint (rawOf q) = .ok ()) :
    ∀ (images : List Point) (acc : List (ℚ × T)),
      (withinImagesFold t radius d images acc).isOk = true := by
  intro images
  induction images with
  | nil =>
    intro acc
    simp [withinImagesFold, Except.isOk, Except.toBool]
  | cons img rest ih =>
    intro acc
    unfold withinImagesFold
    rw [withinImpl_eq_ok (hchk img) radius d]
    exact ih _

/-- Unfolding `nearest` under a successful validation. -/
theorem nearest_checkOk {t : KdTree T} {p : RawPoint}
    (h : t.checkPoint p = .ok ()) (num : ℕ) (d : Met) :
    t.nearest p num d =
      (if min num t.size = 0 then .ok []
       else
        .ok ((sortByDist (nearestLoop t.periodic (toQPoint p)
            (min num t.size) d (t.numNodes + 1)
            [((0 : WithTop ℚ), t)] [])).take (min num t.size))) := by
  unfold KdTree.nearest
  rw [h]

/-- Unfolding `add` under a successful validation. -/
theorem add_checkOk {t : KdTree T} {p : RawPoint}
    (h : t.checkPoint p = .ok ()) (data : T) :
    t.add p data = .ok (t.addUnchecked (toQPoint p) data) := by
  unfold KdTree.add
  rw [h]

/-- C10.  The periodic bounds test of `check_point` reads only the stored
periodic vector, never the supplied point: with all components of L equal no
operation ever reports `PeriodicOutOfBounds` for a finite point (`add` and
`remove` succeed outright, every query returns something other than that
error), and with two components of L different every operation that reaches
validation reports `PeriodicOutOfBounds` for every finite point — `add`,
`remove`, `nearest`, `nearest_periodic` and `iter_nearest` unconditionally,
the remaining queries whenever the tree is nonempty (on an empty tree they
return their empty-tree results before validating). -/
theorem C10_checkPoint_ignores_the_point [DecidableEq T] [LinearOrder T]
    (t : KdTree T) (L : Point) (hper : t.periodic = some L)
    (huni : periodicUniform (some L) t = true)
    (p : RawPoint) (hfin : p.all Coord.isFinite = true)
    (num : ℕ) (r : ℚ) (d : Met) (data : T) :
    ((∀ x ∈ L, ∀ y ∈ L, x = y) →
      t.checkPoint p = .ok () ∧
      (t.add p data).isOk = true ∧
      (t.remove p data).isOk = true ∧
      t.nearest p num d ≠ .error .PeriodicOutOfBounds ∧
      t.nearestPeriodic p num d L ≠ .error .PeriodicOutOfBounds ∧
      t.nearestOne p d ≠ .error .PeriodicOutOfBounds ∧
      t.nearestOnePeriodic p d L ≠ .error .PeriodicOutOfBounds ∧
      t.within p r d ≠ .error .PeriodicOutOfBounds ∧
      t.withinUnsorted p r d ≠ .error .PeriodicOutOfBounds ∧
      t.withinPeriodic p r d L ≠ .error .PeriodicOutOfBounds ∧
      t.withinUnsortedPeriodic p r d L ≠ .error .PeriodicOutOfBounds ∧
      t.bestNWithin p r num d ≠ .error .PeriodicOutOfBounds ∧
      (t.iterNearest p d).isOk = true) ∧
    ((∃ x ∈ L, ∃ y ∈ L, x ≠ y) →
      t.checkPoint p = .error .PeriodicOutOfBounds ∧
      t.add p data = .error .PeriodicOutOfBounds ∧
      t.remove p data = .error .PeriodicOutOfBounds ∧
      t.nearest p num d = .error .PeriodicOutOfBounds ∧
      t.nearestPeriodic p num d L = .error .PeriodicOutOfBounds ∧
      t.iterNearest p d = .error .PeriodicOutOfBounds ∧
      (t.size ≠ 0 → t.nearestOne p d = .error .PeriodicOutOfBounds) ∧
      (t.size ≠ 0 → t.nearestOnePeriodic p d L = .error .PeriodicOutOfBounds) ∧
      (t.size ≠ 0 → t.within p r d = .error .PeriodicOutOfBounds) ∧
      (t.size ≠ 0 → t.withinUnsorted p r d = .error .PeriodicOutOfBounds) ∧
      (t.size ≠ 0 → t.withinPeriodic p r d L = .error .PeriodicOutOfBounds) ∧
      (t.size ≠ 0 →
        t.withinUnsortedPeriodic p r d L = .error .PeriodicOutOfBounds) ∧
      (t.size ≠ 0 → t.bestNWithin p r num d = .error .PeriodicOutOfBounds)) := by
  constructor
  · intro hEq
    have hok : t.checkPoint p = .ok () := checkPoint_ok_of_allEq hper hEq hfin
    have hokAll : ∀ q : Point, t.checkPoint (rawOf q) = .ok () := fun q =>
      checkPoint_ok_of_allEq hper hEq (rawOf_all_isFinite q)
    refine ⟨hok, ?_, ?_, ?_, ?_, ?_, ?_, ?_, ?_, ?_, ?_, ?_, ?_⟩
    · rw [add_checkOk hok data]
      simp [Except.isOk, Except.toBool]
    · exact remove_isOk_of_uniform_allEq hEq hfin data t huni
    · rw [nearest_checkOk hok num d]
      split <;> simp
    · unfold KdTree.nearestPeriodic
      rw [hok]
      simp only []
      split <;> simp
    · unfold KdTree.nearestOne
      split
      · simp
      · rw [hok]
        simp only []
        split <;> simp
    · unfold KdTree.nearestOnePeriodic
      split
      · simp
      · rw [hok]
        simp only []
        split
        · simp
        · split <;> simp
    · unfold KdTree.within
      split
      · simp
      · rw [withinImpl_eq_ok hok r d]
        simp
    · unfold KdTree.withinUnsorted
      split
      · simp
      · rw [withinImpl_eq_ok hok r d]
        simp
    · unfold KdTree.withinPeriodic
      split
      · simp
      · rw [withinImpl_eq_ok hok r d]
        simp only []
        obtain ⟨v, hv⟩ := isOk_iff_exists.mp
          (withinImagesFold_isOk r d hokAll
            (imagesToCheck (toQPoint p) L (closestSideDist2 (toQPoint p) L) r)
            (withinLoop t.periodic (toQPoint p) t.size r d
              (t.numNodes + 1) [((0 : WithTop ℚ), t)] []))
        rw [hv]
        simp
    · unfold KdTree.withinUnsortedPeriodic
      split
      · simp
      · rw [withinImpl_eq_ok hok r d]
        simp only []
        obtain ⟨v, hv⟩ := isOk_iff_exists.mp
          (withinImagesFold_isOk r d hokAll
            (imagesToCheck (toQPoint p) L (closestSideDist2 (toQPoint p) L) r)
            (withinLoop t.periodic (toQPoint p) t.size r d
              (t.numNodes + 1) [((0 : WithTop ℚ), t)] []))
        rw [hv]
        simp
    · unfold KdTree.bestNWithin
      split
      · simp
      · rw [hok]
        simp
    · unfold KdTree.iterNearest
      rw [hok]
      simp [Except.isOk, Except.toBool]
  · intro hNe
    obtain ⟨x, hx, y, hy, hxy⟩ := hNe
    have herr : t.checkPoint p = .error .PeriodicOutOfBounds :=
      checkPoint_err_of_ne hper hx hy hxy hfin
    refine ⟨herr, ?_, ?_, ?_, ?_, ?_, ?_, ?_, ?_, ?_, ?_, ?_, ?_⟩
    · unfold KdTree.add
      rw [herr]
    · exact remove_checkErr herr data
    · unfold KdTree.nearest
      rw [herr]
    · unfold KdTree.nearestPeriodic
      rw [herr]
    · unfold KdTree.iterNearest
      rw [herr]
    · intro hsz
      unfold KdTree.nearestOne
      rw [if_neg hsz, herr]
    · intro hsz
      unfold KdTree.nearestOnePeriodic
      rw [if_neg hsz, herr]
    · intro hsz
      unfold KdTree.within KdTree.withinImpl
      rw [if_neg hsz, herr]
    · intro hsz
      unfold KdTree.withinUnsorted KdTree.withinImpl
      rw [if_neg hsz, herr]
    · intro hsz
      unfold KdTree.withinPeriodic KdTree.withinImpl
      rw [if_neg hsz, herr]
    · intro hsz
      unfold KdTree.withinUnsortedPeriodic KdTree.withinImpl
      rw [if_neg hsz, herr]
    · intro hsz
      unfold KdTree.bestNWithin
      rw [if_neg hsz, herr]

/-- Witness for C10 at a concrete periodic tree and point: the first branch
at the all-equal vector [10, 10], the second at the unequal vector [10, 20]
(where the finite in-bounds point [1, 1] is nevertheless rejected). -/
theorem C10_checkPoint_ignores_the_point_witness :
    ((newPeriodic ℕ [10, 10]).checkPoint (rawOf [1, 1]) = .ok () ∧
      ((newPeriodic ℕ [10, 10]).add (rawOf [1, 1]) 0).isOk = true) ∧
    ((newPeriodic ℕ [10, 20]).checkPoint (rawOf [1, 1]) =
        .error .PeriodicOutOfBounds ∧
      (newPeriodic ℕ [10, 20]).add (rawOf [1, 1]) 0 =
        .error .PeriodicOutOfBounds) := by
  have h1 := C10_checkPoint_ignores_the_point (newPeriodic ℕ [10, 10])
    [10, 10] rfl (by decide) (rawOf [1, 1]) (by decide) 1 1 squaredEuclidean 0
  have h2 := C10_checkPoint_ignores_the_point (newPeriodic ℕ [10, 20])
    [10, 20] rfl (by decide) (rawOf [1, 1]) (by decide) 1 1 squaredEuclidean 0
  have hEq : ∀ x ∈ ([10, 10] : Point), ∀ y ∈ ([10, 10] : Point), x = y := by
    decide
  have hNe : ∃ x ∈ ([10, 20] : Point), ∃ y ∈ ([10, 20] : Point), x ≠ y := by
    refine ⟨10, by decide, 20, by decide, by decide⟩
  obtain ⟨c1, c2, -⟩ := h1.1 hEq
  obtain ⟨d1, d2, -⟩ := h2.2 hNe
  exact ⟨⟨c1, c2⟩, ⟨d1, d2⟩⟩

/-- C6.  The claim — `PeriodicOutOfBounds` iff some component of the point
lies outside [0, Lᵢ) — fails on the code: with the periodic vector [10, 10]
the finite point [50, 5] has its first component far outside [0, 10), yet
`add` accepts it (and stores it), `remove` accepts it, and `nearest` queries
at it succeed, because the bounds test compares the components of L against
themselves and never reads the point (cf. C10). -/
theorem C6_out_of_bounds_point_accepted :
    (((newPeriodic ℕ [10, 10]).add (rawOf [50, 5]) 7).toOption.map
        KdTree.pairs) = some [([50, 5], 7)] ∧
    ((newPeriodic ℕ [10, 10]).remove (rawOf [50, 5]) 7).isOk = true ∧
    (newPeriodic ℕ [10, 10]).nearest (rawOf [50, 5]) 1 squaredEuclidean =
      .ok [] := by
  with_unfolding_all decide

/-- The two-point periodic tree of the C2 failing input: period L = [10],
stored points [1] (payload 0) and [6] (payload 1), built by two successful
adds on a fresh periodic tree of default capacity. -/
def c2Tree : KdTree ℕ :=
  ((((newPeriodic ℕ [10]).add (rawOf [1]) 0).toOption.getD
      (newPeriodic ℕ [10])).add (rawOf [6]) 1).toOption.getD
    (newPeriodic ℕ [10])

/-- C2.  Evaluating the code at the failing input: the tree stores exactly
[1] ↦ 0 and [6] ↦ 1 under period [10]; the minimum-image distances from the
query [1] are 0 (to [1]) and 25 (to [6]), so the brute-force 2-nearest list
is [(0, 0), (25, 1)] — but `nearest_periodic` returns the pair (0, 0) twice,
once from the canonical query and once from the image query at [11],
dropping payload 1 entirely.  Likewise the brute-force within-radius-30 list
from the query [2] is [(1, 0), (16, 1)] (minimum-image distances 1 and 16),
but `within_periodic` returns every stored point twice. -/
theorem C2_periodic_queries_duplicate_entries :
    c2Tree.pairs = [([1], 0), ([6], 1)] ∧
    getDistance [1] [1] squaredEuclidean (some [10]) = 0 ∧
    getDistance [1] [6] squaredEuclidean (some [10]) = 25 ∧
    c2Tree.nearestPeriodic (rawOf [1]) 2 squaredEuclidean [10] =
      .ok [(0, 0), (0, 0)] ∧
    getDistance [2] [1] squaredEuclidean (some [10]) = 1 ∧
    getDistance [2] [6] squaredEuclidean (some [10]) = 16 ∧
    c2Tree.withinPeriodic (rawOf [2]) 30 squaredEuclidean [10] =
      .ok [(1, 0), (1, 0), (16, 1), (16, 1)] := by
  with_unfolding_all decide

/-- Counterexample to C7: on the empty tree, `within` with the point [NaN]
returns `Ok([])` — the empty-tree short-circuit runs before any validation —
instead of the claimed `NonFiniteCoordinate`; `nearest_one` at [NaN] returns
`Empty`, and `best_n_within` returns `Ok([])`, for the same reason. -/
theorem C7_counterexample_empty_tree_skips_validation :
    (newTree ℕ).within [Coord.nan] 1 squaredEuclidean = .ok [] ∧
    (newTree ℕ).nearestOne [Coord.nan] squaredEuclidean = .error .Empty ∧
    (newTree ℕ).bestNWithin [Coord.nan] 1 1 squaredEuclidean = .ok [] ∧
    (newTree ℕ).within [Coord.nan] 1 squaredEuclidean ≠
      .error .NonFiniteCoordinate := by
  with_unfolding_all decide

/-- C7 as amended.  For a supplied point with a non-finite coordinate:
`add`, `remove`, `nearest`, `nearest_periodic` and `iter_nearest` return
`NonFiniteCoordinate` before any traversal on every tree; `nearest_one` and
`nearest_one_periodic` return it only on a nonempty tree (`Empty` otherwise);
the `within` family and `best_n_within` return it only on a nonempty tree
(an empty result otherwise, without validating); and
`best_n_within_into_iter` performs no validation at all — it runs the query
loop on the non-finite point's rational projection regardless. -/
theorem C7_amended_nonfinite_validation [DecidableEq T] [LinearOrder T]
    (t : KdTree T) (p : RawPoint) (hnf : ¬ p.all Coord.isFinite = true)
    (num : ℕ) (r : ℚ) (d : Met) (data : T) (L : Point) :
    t.add p data = .error .NonFiniteCoordinate ∧
    t.remove p data = .error .NonFiniteCoordinate ∧
    t.nearest p num d = .error .NonFiniteCoordinate ∧
    t.nearestPeriodic p num d L = .error .NonFiniteCoordinate ∧
    t.iterNearest p d = .error .NonFiniteCoordinate ∧
    (t.size = 0 → t.nearestOne p d = .error .Empty) ∧
    (t.size ≠ 0 → t.nearestOne p d = .error .NonFiniteCoordinate) ∧
    (t.size = 0 → t.nearestOnePeriodic p d L = .error .Empty) ∧
    (t.size ≠ 0 → t.nearestOnePeriodic p d L = .error .NonFiniteCoordinate) ∧
    (t.size = 0 → t.within p r d = .ok []) ∧
    (t.size ≠ 0 → t.within p r d = .error .NonFiniteCoordinate) ∧
    (t.size = 0 → t.withinUnsorted p r d = .ok []) ∧
    (t.size ≠ 0 → t.withinUnsorted p r d = .error .NonFiniteCoordinate) ∧
    (t.size = 0 → t.withinPeriodic p r d L = .ok []) ∧
    (t.size ≠ 0 → t.withinPeriodic p r d L = .error .NonFiniteCoordinate) ∧
    (t.size = 0 → t.withinUnsortedPeriodic p r d L = .ok []) ∧
    (t.size ≠ 0 →
      t.withinUnsortedPeriodic p r d L = .error .NonFiniteCoordinate) ∧
    (t.size = 0 → t.bestNWithin p r num d = .ok []) ∧
    (t.size ≠ 0 → t.bestNWithin p r num d = .error .NonFiniteCoordinate) ∧
    t.bestNWithinIntoIter p r num d =
      bestNWithinLoop t.periodic (toQPoint p) num r d (t.numNodes + 1)
        [((0 : WithTop ℚ), t)] [] := by
  have herr : t.checkPoint p = .error .NonFiniteCoordinate :=
    checkPoint_err_of_nonfinite hnf
  refine ⟨?_, remove_checkErr herr data, ?_, ?_, ?_, ?_, ?_, ?_, ?_, ?_, ?_,
    ?_, ?_, ?_, ?_, ?_, ?_, ?_, ?_, rfl⟩
  · unfold KdTree.add
    rw [herr]
  · unfold KdTree.nearest
    rw [herr]
  · unfold KdTree.nearestPeriodic
    rw [herr]
  · unfold KdTree.iterNearest
    rw [herr]
  · intro hsz
    unfold KdTree.nearestOne
    rw [if_pos hsz]
  · intro hsz
    unfold KdTree.nearestOne
    rw [if_neg hsz, herr]
  · intro hsz
    unfold KdTree.nearestOnePeriodic
    rw [if_pos hsz]
  · intro hsz
    unfold KdTree.nearestOnePeriodic
    rw [if_neg hsz, herr]
  · intro hsz
    unfold KdTree.within
    rw [if_pos hsz]
  · intro hsz
    unfold KdTree.within KdTree.withinImpl
    rw [if_neg hsz, herr]
  · intro hsz
    unfold KdTree.withinUnsorted
    rw [if_pos hsz]
  · intro hsz
    unfold KdTree.withinUnsorted KdTree.withinImpl
    rw [if_neg hsz, herr]
  · intro hsz
    unfold KdTree.withinPeriodic
    rw [if_pos hsz]
  · intro hsz
    unfold KdTree.withinPeriodic KdTree.withinImpl
    rw [if_neg hsz, herr]
  · intro hsz
    unfold KdTree.withinUnsortedPeriodic
    rw [if_pos hsz]
  · intro hsz
    unfold KdTree.withinUnsortedPeriodic KdTree.withinImpl
    rw [if_neg hsz, herr]
  · intro hsz
    unfold KdTree.bestNWithin
    rw [if_pos hsz]
  · intro hsz
    unfold KdTree.bestNWithin
    rw [if_neg hsz, herr]

/-- Witness for the amended C7 at a one-point tree and the point [NaN]. -/
theorem C7_amended_nonfinite_validation_witness :
    (((newTree ℕ).addUnchecked [1, 2] 5).add [Coord.nan] 9 =
      .error .NonFiniteCoordinate) ∧
    (((newTree ℕ).addUnchecked [1, 2] 5).size ≠ 0 →
      ((newTree ℕ).addUnchecked [1, 2] 5).within [Coord.nan] 1
        squaredEuclidean = .error .NonFiniteCoordinate) := by
  have h := C7_amended_nonfinite_validation ((newTree ℕ).addUnchecked [1, 2] 5)
    [Coord.nan] (by decide) 1 1 squaredEuclidean 9 [10, 10]
  exact ⟨h.1, h.2.2.2.2.2.2.2.2.2.2.1⟩

/-! ## Bounds and content invariants

The preservation proofs below follow the reachability analysis of the
source: a leaf can only exceed its capacity while all of its points
coincide (`split` finds no dimension of positive extent and leaves the
bucket in place), and during a drain a child can only overflow either on
the final drained pair or with coincident content, so `add_to_bucket` is
never invoked on a stem and no pair is ever lost. -/

/-- All points of a list have dimension `K`. -/
def ptsLen (K : ℕ) (pts : List Point) : Prop := ∀ p ∈ pts, p.length = K

/-- All points of a list coincide. -/
def allSame (pts : List Point) : Prop := ∀ p ∈ pts, ∀ q ∈ pts, p = q

/-- Exact bounds: `none` for no points, otherwise two `K`-vectors that
contain every point componentwise and are attained in every dimension. -/
def boundsSpec (K : ℕ) (pts : List Point) : Option (Point × Point) → Prop
  | none => pts = []
  | some lohi =>
    lohi.1.length = K ∧ lohi.2.length = K ∧
    (∀ p ∈ pts, ∀ i < K,
      lohi.1.getD i 0 ≤ p.getD i 0 ∧ p.getD i 0 ≤ lohi.2.getD i 0) ∧
    (∀ i < K,
      (∃ p ∈ pts, p.getD i 0 = lohi.1.getD i 0) ∧
      (∃ p ∈ pts, p.getD i 0 = lohi.2.getD i 0))

theorem boundsSpec_perm {K : ℕ} {pts pts' : List Point}
    (hp : pts.Perm pts') {b : Option (Point × Point)}
    (h : boundsSpec K pts b) : boundsSpec K pts' b := by
  cases b with
  | none =>
    simp only [boundsSpec] at h ⊢
    subst h
    exact hp.symm.eq_nil
  | some lohi =>
    obtain ⟨h1, h2, h3, h4⟩ := h
    refine ⟨h1, h2, ?_, ?_⟩
    · intro p hpmem i hi
      exact h3 p (hp.mem_iff.mpr hpmem) i hi
    · intro i hi
      obtain ⟨⟨p, hpm, hpe⟩, ⟨q, hqm, hqe⟩⟩ := h4 i hi
      exact ⟨⟨p, hp.subset hpm, hpe⟩, ⟨q, hp.subset hqm, hqe⟩⟩

/-! ## Size accounting (C4) -/

/-- `split` never changes the node's `size` field. -/
theorem splitF_size (fuel : ℕ) (t : KdTree T) : (splitF fuel t).size = t.size := by
  match fuel, t with
  | 0, t => rfl
  | fuel + 1, .stemNode s b l r sv sd per => rfl
  | fuel + 1, .leafNode s b pts bkt cap per =>
    simp only [splitF]
    cases b with
    | none => rfl
    | some lohi =>
      simp only []
      split <;> rfl

/-- `add_to_bucket` grows the node's `size` by exactly one. -/
theorem addToBucketF_size (fuel : ℕ) (s : ℕ) (b : Option (Point × Point))
    (pts : List Point) (bkt : List T) (cap : ℕ) (per : Option Point)
    (p : Point) (data : T) :
    (addToBucketF fuel (.leafNode s b pts bkt cap per) p data).size = s + 1 := by
  unfold addToBucketF
  split
  · match fuel with
    | 0 => rfl
    | fuel + 1 =>
      simp only []
      rw [splitF_size]
      rfl
  · rfl

/-- `add_unchecked` grows the root's `size` by exactly one. -/
theorem addUnchecked_size (t : KdTree T) (p : Point) (data : T) :
    (t.addUnchecked p data).size = t.size + 1 := by
  cases t with
  | leafNode s b pts bkt cap per =>
    simp only [KdTree.addUnchecked]
    rw [addToBucketF_size]
    rfl
  | stemNode s b l r sv sd per =>
    simp only [KdTree.addUnchecked]
    split <;> rfl

@[simp]
theorem drainSeqF_length {α : Type _} :
    ∀ (n : ℕ) (l : List α), (drainSeqF n l).length = min n l.length := by
  intro n
  induction n with
  | zero => intro l; simp [drainSeqF]
  | succ n ih =>
    intro l
    cases l with
    | nil => simp [drainSeqF]
    | cons a rest =>
      simp only [drainSeqF, List.length_cons, ih, swapRemainder_length]
      simp
      omega

@[simp]
theorem drainSeq_length {α : Type _} (l : List α) :
    (drainSeq l).length = l.length := by
  simp [drainSeq]

@[simp]
theorem swapRemoveAt_length {α : Type _} (l : List α) (i : ℕ) (h : i < l.length) :
    (swapRemoveAt l i).length = l.length - 1 := by
  unfold swapRemoveAt
  rw [if_pos h]
  cases hl : l.getLast? with
  | none =>
    cases l with
    | nil => simp at h
    | cons a rest => simp [List.getLast?] at hl
  | some x => simp

/-! ## Pointwise helpers for bounds reasoning -/

theorem getD_ext {K : ℕ} {p q : Point} (hp : p.length = K) (hq : q.length = K)
    (h : ∀ i < K, p.getD i 0 = q.getD i 0) : p = q := by
  apply List.ext_getElem (by omega)
  intro i h1 h2
  have hi : i < K := by omega
  have hgd := h i hi
  rwa [List.getD_eq_getElem p 0 h1, List.getD_eq_getElem q 0 h2] at hgd

theorem zipMap_getD (f : ℚ × ℚ → ℚ) (a b : Point) (i : ℕ)
    (ha : i < a.length) (hb : i < b.length) :
    ((a.zip b).map f).getD i 0 = f (a.getD i 0, b.getD i 0) := by
  have hz : i < (a.zip b).length := by rw [List.length_zip]; omega
  have hm : i < ((a.zip b).map f).length := by rw [List.length_map]; exact hz
  rw [List.getD_eq_getElem _ 0 hm, List.getD_eq_getElem a 0 ha,
    List.getD_eq_getElem b 0 hb]
  simp [List.getElem_zip]

theorem mem_zip_left {α β : Type _} :
    ∀ {l : List α} {m : List β}, l.length = m.length → ∀ {a : α}, a ∈ l →
      ∃ b, (a, b) ∈ l.zip m := by
  intro l
  induction l with
  | nil => intro m _ a ha; simp at ha
  | cons x t ih =>
    intro m hlen a ha
    cases m with
    | nil => simp at hlen
    | cons y s =>
      rcases List.mem_cons.mp ha with rfl | ha
      · exact ⟨y, by simp⟩
      · obtain ⟨b, hb⟩ := ih (by simpa using hlen) ha
        exact ⟨b, by simp [hb]⟩

theorem zip_map_fst_snd {α β : Type _} (l : List (α × β)) :
    (l.map Prod.fst).zip (l.map Prod.snd) = l := by
  induction l with
  | nil => rfl
  | cons a t ih => simp [ih]

theorem filter_length_split {α : Type _} (p : α → Bool) (l : List α) :
    (l.filter p).length + (l.filter (fun x => ! p x)).length = l.length := by
  induction l with
  | nil => rfl
  | cons a t ih =>
    by_cases h : p a <;> simp [List.filter_cons, h] <;> omega

/-! ## All-coincident point lists -/

theorem allSame_sub {L M : List Point} (h : allSame M)
    (hsub : ∀ q ∈ L, q ∈ M) : allSame L :=
  fun p hp q hq => h p (hsub p hp) q (hsub q hq)

/-! ## Exact bounds of a point list -/

/-- The bounds obtained by folding `extend` over a list of points from the
initial (all-infinite, here `none`) state — the exact bounds of the list. -/
def boundsOf (pts : List Point) : Option (Point × Point) :=
  pts.foldl extendBounds none

theorem boundsOf_append (pts : List Point) (p : Point) :
    boundsOf (pts ++ [p]) = extendBounds (boundsOf pts) p := by
  simp [boundsOf, List.foldl_append]

theorem zip_self_map (g : ℚ × ℚ → ℚ) (hg : ∀ a, g (a, a) = a) (x : Point) :
    (x.zip x).map g = x := by
  induction x with
  | nil => rfl
  | cons a t ih => simp [hg, ih]

theorem extendBounds_coinc (x : Point) :
    extendBounds (some (x, x)) x = some (x, x) := by
  simp only [extendBounds]
  rw [zip_self_map _ (fun a => by simp) x, zip_self_map _ (fun a => by simp) x]

theorem foldl_extend_coinc (x : Point) :
    ∀ (L : List Point), (∀ q ∈ L, q = x) →
      L.foldl extendBounds (some (x, x)) = some (x, x) := by
  intro L
  induction L with
  | nil => intro _; rfl
  | cons a t ih =>
    intro h
    have ha : a = x := h a (by simp)
    subst ha
    simp only [List.foldl_cons, extendBounds_coinc]
    exact ih (fun q hq => h q (by simp [hq]))

theorem boundsOf_allSame {L : List Point} (h : allSame L) {x : Point}
    (hx : x ∈ L) : boundsOf L = some (x, x) := by
  cases L with
  | nil => simp at hx
  | cons a t =>
    have hax : x = a := h x hx a (by simp)
    subst hax
    simp only [boundsOf, List.foldl_cons]
    have hinit : extendBounds none x = some (x, x) := rfl
    rw [hinit]
    exact foldl_extend_coinc x t (fun q hq => h q (by simp [hq]) x (by simp))

/-- Extending exact bounds with a point of the right dimension yields exact
bounds of the extended list. -/
theorem extend_boundsSpec {K : ℕ} {pts : List Point} {b : Option (Point × Point)}
    (h : boundsSpec K pts b) {p : Point} (hp : p.length = K) :
    boundsSpec K (pts ++ [p]) (extendBounds b p) := by
  cases b with
  | none =>
    simp only [boundsSpec] at h
    subst h
    refine ⟨hp, hp, ?_, ?_⟩
    · intro q hq i hi
      have : q = p := by simpa using hq
      subst this
      exact ⟨le_refl _, le_refl _⟩
    · intro i hi
      exact ⟨⟨p, by simp, rfl⟩, ⟨p, by simp, rfl⟩⟩
  | some lohi =>
    obtain ⟨lo, hi⟩ := lohi
    obtain ⟨h1, h2, h3, h4⟩ := h
    simp only at h1 h2
    have hlo : ∀ i < K,
        ((lo.zip p).map fun x => if x.2 < x.1 then x.2 else x.1).getD i 0 =
          if p.getD i 0 < lo.getD i 0 then p.getD i 0 else lo.getD i 0 := by
      intro i hik
      rw [zipMap_getD _ lo p i (by omega) (by omega)]
    have hhi : ∀ i < K,
        ((hi.zip p).map fun x => if x.2 > x.1 then x.2 else x.1).getD i 0 =
          if p.getD i 0 > hi.getD i 0 then p.getD i 0 else hi.getD i 0 := by
      intro i hik
      rw [zipMap_getD _ hi p i (by omega) (by omega)]
    refine ⟨?_, ?_, ?_, ?_⟩
    · simp only [extendBounds]
      rw [List.length_map, List.length_zip]
      omega
    · simp only [extendBounds]
      rw [List.length_map, List.length_zip]
      omega
    · intro q hq i hik
      rw [hlo i hik, hhi i hik]
      rcases List.mem_append.mp hq with hq | hq
      · have hc := h3 q hq i hik
        constructor
        · by_cases hcmp : p.getD i 0 < lo.getD i 0
          · rw [if_pos hcmp]; linarith [hc.1]
          · rw [if_neg hcmp]; exact hc.1
        · by_cases hcmp : p.getD i 0 > hi.getD i 0
          · rw [if_pos hcmp]; linarith [hc.2]
          · rw [if_neg hcmp]; exact hc.2
      · have : q = p := by simpa using hq
        subst this
        constructor
        · by_cases hcmp : q.getD i 0 < lo.getD i 0
          · rw [if_pos hcmp]
          · rw [if_neg hcmp]; linarith [not_lt.mp hcmp]
        · by_cases hcmp : q.getD i 0 > hi.getD i 0
          · rw [if_pos hcmp]
          · rw [if_neg hcmp]; linarith [not_lt.mp hcmp]
    · intro i hik
      obtain ⟨⟨ql, hql, hqle⟩, ⟨qh, hqh, hqhe⟩⟩ := h4 i hik
      constructor
      · by_cases hcmp : p.getD i 0 < lo.getD i 0
        · exact ⟨p, by simp, by rw [hlo i hik, if_pos hcmp]⟩
        · exact ⟨ql, by simp [hql], by rw [hlo i hik, if_neg hcmp]; exact hqle⟩
      · by_cases hcmp : p.getD i 0 > hi.getD i 0
        · exact ⟨p, by simp, by rw [hhi i hik, if_pos hcmp]⟩
        · exact ⟨qh, by simp [hqh], by rw [hhi i hik, if_neg hcmp]; exact hqhe⟩

theorem boundsOf_spec {K : ℕ} :
    ∀ (L : List Point), ptsLen K L → boundsSpec K L (boundsOf L) := by
  intro L
  induction L using List.reverseRecOn with
  | nil => intro _; simp [boundsOf, boundsSpec]
  | append_singleton M p ih =>
    intro h
    rw [boundsOf_append]
    exact extend_boundsSpec (ih (fun q hq => h q (by simp [hq])))
      (h p (by simp))

/-- On an all-coincident nonempty list, exact bounds are the degenerate box
at the common point. -/
theorem boundsSpec_allSame {K : ℕ} {pts : List Point} {b : Option (Point × Point)}
    (hb : boundsSpec K pts b) (hall : allSame pts) {x : Point} (hx : x ∈ pts)
    (hxl : x.length = K) : b = some (x, x) := by
  cases b with
  | none =>
    simp only [boundsSpec] at hb
    subst hb
    simp at hx
  | some lohi =>
    obtain ⟨h1, h2, h3, h4⟩ := hb
    have hlo : lohi.1 = x := by
      apply getD_ext h1 hxl
      intro i hi
      obtain ⟨⟨q, hqm, hqe⟩, _⟩ := h4 i hi
      have hqx : q = x := hall q hqm x hx
      subst hqx
      exact hqe.symm
    have hhi : lohi.2 = x := by
      apply getD_ext h2 hxl
      intro i hi
      obtain ⟨_, ⟨q, hqm, hqe⟩⟩ := h4 i hi
      have hqx : q = x := hall q hqm x hx
      subst hqx
      exact hqe.symm
    rw [show lohi = (x, x) from Prod.ext hlo hhi]

/-! ## The split-dimension fold -/

/-- One step of the fold in `split` that chooses the split dimension: keep
the running maximum diff and replace it (recording the dimension) when the
current dimension's diff strictly exceeds it. -/
def splitStep (lo hi : Point) (acc : ℚ × Option ℕ) (dim : ℕ) : ℚ × Option ℕ :=
  let diff := hi.getD dim 0 - lo.getD dim 0
  if diff > acc.1 then (diff, some dim) else acc

/-- The dimension chosen by `split` for the given bounds. -/
def splitDim (lohi : Point × Point) : Option ℕ :=
  ((List.range lohi.1.length).foldl (splitStep lohi.1 lohi.2)
    ((0 : ℚ), (none : Option ℕ))).2

theorem splitStep_eq (lo hi : Point) (acc : ℚ × Option ℕ) (d : ℕ) :
    splitStep lo hi acc d =
      if hi.getD d 0 - lo.getD d 0 > acc.1
      then (hi.getD d 0 - lo.getD d 0, some d) else acc := rfl

theorem splitFold_some (lo hi : Point) :
    ∀ (l : List ℕ) (acc : ℚ × Option ℕ), 0 ≤ acc.1 →
      (∀ j, acc.2 = some j → j < lo.length ∧ lo.getD j 0 < hi.getD j 0) →
      (∀ d ∈ l, d < lo.length) →
      0 ≤ (l.foldl (splitStep lo hi) acc).1 ∧
      ∀ j, (l.foldl (splitStep lo hi) acc).2 = some j →
        j < lo.length ∧ lo.getD j 0 < hi.getD j 0 := by
  intro l
  induction l with
  | nil => intro acc h0 hacc _; exact ⟨h0, hacc⟩
  | cons d t ih =>
    intro acc h0 hacc hm
    simp only [List.foldl_cons]
    by_cases hc : hi.getD d 0 - lo.getD d 0 > acc.1
    · have hstep : splitStep lo hi acc d =
          (hi.getD d 0 - lo.getD d 0, some d) := by
        rw [splitStep_eq, if_pos hc]
      rw [hstep]
      refine ih _ ?_ ?_ (fun j hj => hm j (by simp [hj]))
      · show (0 : ℚ) ≤ hi.getD d 0 - lo.getD d 0
        linarith
      intro j hj
      have hdj : d = j := Option.some.inj hj
      subst hdj
      exact ⟨hm d (by simp), by linarith⟩
    · have hstep : splitStep lo hi acc d = acc := by
        rw [splitStep_eq, if_neg hc]
      rw [hstep]
      exact ih acc h0 hacc (fun j hj => hm j (by simp [hj]))

theorem splitDim_some {lohi : Point × Point} {sd : ℕ}
    (h : splitDim lohi = some sd) :
    sd < lohi.1.length ∧ lohi.1.getD sd 0 < lohi.2.getD sd 0 :=
  (splitFold_some lohi.1 lohi.2 (List.range lohi.1.length)
    ((0 : ℚ), none) le_rfl (fun j hj => by simp at hj)
    (fun d hd => List.mem_range.mp hd)).2 sd h

theorem splitFold_const (lo hi : Point) :
    ∀ (l : List ℕ) (acc : ℚ × Option ℕ), 0 ≤ acc.1 →
      (∀ d ∈ l, hi.getD d 0 - lo.getD d 0 ≤ 0) →
      l.foldl (splitStep lo hi) acc = acc := by
  intro l
  induction l with
  | nil => intro acc _ _; rfl
  | cons d t ih =>
    intro acc h0 hd
    simp only [List.foldl_cons]
    have hc : ¬ (hi.getD d 0 - lo.getD d 0 > acc.1) := by
      have := hd d (by simp)
      linarith
    have hstep : splitStep lo hi acc d = acc := by
      rw [splitStep_eq, if_neg hc]
    rw [hstep]
    exact ih acc h0 (fun e he => hd e (by simp [he]))

theorem splitDim_none_of {lohi : Point × Point}
    (h : ∀ j < lohi.1.length, lohi.2.getD j 0 ≤ lohi.1.getD j 0) :
    splitDim lohi = none := by
  unfold splitDim
  rw [splitFold_const lohi.1 lohi.2 _ _ le_rfl
    (fun d hd => by have := h d (List.mem_range.mp hd); linarith)]

theorem splitFold_mono (lo hi : Point) :
    ∀ (l : List ℕ) (acc : ℚ × Option ℕ), 0 < acc.1 → acc.2.isSome →
      0 < (l.foldl (splitStep lo hi) acc).1 ∧
      ((l.foldl (splitStep lo hi) acc).2).isSome := by
  intro l
  induction l with
  | nil => intro acc h0 hs; exact ⟨h0, hs⟩
  | cons d t ih =>
    intro acc h0 hs
    simp only [List.foldl_cons]
    by_cases hc : hi.getD d 0 - lo.getD d 0 > acc.1
    · have hstep : splitStep lo hi acc d =
          (hi.getD d 0 - lo.getD d 0, some d) := by
        rw [splitStep_eq, if_pos hc]
      rw [hstep]
      refine ih _ ?_ rfl
      show (0 : ℚ) < hi.getD d 0 - lo.getD d 0
      linarith
    · have hstep : splitStep lo hi acc d = acc := by
        rw [splitStep_eq, if_neg hc]
      rw [hstep]
      exact ih acc h0 hs

theorem splitFold_isSome (lo hi : Point) :
    ∀ (l : List ℕ) (acc : ℚ × Option ℕ), 0 ≤ acc.1 →
      (0 < acc.1 → acc.2.isSome) →
      (∃ d ∈ l, 0 < hi.getD d 0 - lo.getD d 0) →
      ((l.foldl (splitStep lo hi) acc).2).isSome := by
  intro l
  induction l with
  | nil => intro acc _ _ hex; simp at hex
  | cons d t ih =>
    intro acc h0 hs hex
    simp only [List.foldl_cons]
    by_cases hc : hi.getD d 0 - lo.getD d 0 > acc.1
    · have hstep : splitStep lo hi acc d =
          (hi.getD d 0 - lo.getD d 0, some d) := by
        rw [splitStep_eq, if_pos hc]
      rw [hstep]
      refine (splitFold_mono lo hi t
        (hi.getD d 0 - lo.getD d 0, some d) ?_ rfl).2
      show (0 : ℚ) < hi.getD d 0 - lo.getD d 0
      linarith
    · have hstep : splitStep lo hi acc d = acc := by
        rw [splitStep_eq, if_neg hc]
      rw [hstep]
      obtain ⟨e, he, hepos⟩ := hex
      rcases List.mem_cons.mp he with rfl | he
      · have hpos : 0 < acc.1 := by linarith [not_lt.mp hc]
        exact (splitFold_mono lo hi t acc hpos (hs hpos)).2
      · exact ih acc h0 hs ⟨e, he, hepos⟩

theorem splitDim_none {lohi : Point × Point} (h : splitDim lohi = none) :
    ∀ j < lohi.1.length, lohi.2.getD j 0 ≤ lohi.1.getD j 0 := by
  intro j hj
  by_contra hlt
  push_neg at hlt
  have hsome := splitFold_isSome lohi.1 lohi.2 (List.range lohi.1.length)
    ((0 : ℚ), none) le_rfl (fun h0 => absurd h0 (lt_irrefl 0))
    ⟨j, List.mem_range.mpr hj, by linarith⟩
  unfold splitDim at h
  rw [h] at hsome
  simp at hsome

/-! ## Equations for `split` and `add_to_bucket` -/

/-- The drain fold of `split`, naming the inline fold over the drained
pairs. -/
def drainFold (f : ℕ) (sv : ℚ) (sd : ℕ) (init : KdTree T × KdTree T)
    (items : List (Point × T)) : KdTree T × KdTree T :=
  items.foldl
    (fun lr it =>
      if it.1.getD sd 0 < sv then (addToBucketF f lr.1 it.1 it.2, lr.2)
      else (lr.1, addToBucketF f lr.2 it.1 it.2)) init

theorem splitF_succ (f s : ℕ) (lohi : Point × Point) (pts : List Point)
    (bkt : List T) (cap : ℕ) (per : Option Point) :
    splitF (f + 1) (.leafNode s (some lohi) pts bkt cap per : KdTree T) =
      (match splitDim lohi with
       | none => (.leafNode s (some lohi) pts bkt cap per : KdTree T)
       | some sd =>
         let lr := drainFold f
           (lohi.1.getD sd 0 + (lohi.2.getD sd 0 - lohi.1.getD sd 0) / 2) sd
           (.leafNode 0 none [] [] cap per, .leafNode 0 none [] [] cap per)
           (drainSeq (pts.zip bkt))
         .stemNode s (some lohi) lr.1 lr.2
           (lohi.1.getD sd 0 + (lohi.2.getD sd 0 - lohi.1.getD sd 0) / 2)
           sd per) := rfl

theorem splitF_succ_none {f s : ℕ} {lohi : Point × Point} {pts : List Point}
    {bkt : List T} {cap : ℕ} {per : Option Point}
    (h : splitDim lohi = none) :
    splitF (f + 1) (.leafNode s (some lohi) pts bkt cap per : KdTree T) =
      .leafNode s (some lohi) pts bkt cap per := by
  rw [splitF_succ, h]

theorem splitF_succ_some {f s : ℕ} {lohi : Point × Point} {pts : List Point}
    {bkt : List T} {cap : ℕ} {per : Option Point} {sd : ℕ}
    (h : splitDim lohi = some sd) :
    splitF (f + 1) (.leafNode s (some lohi) pts bkt cap per : KdTree T) =
      .stemNode s (some lohi)
        (drainFold f
          (lohi.1.getD sd 0 + (lohi.2.getD sd 0 - lohi.1.getD sd 0) / 2) sd
          (.leafNode 0 none [] [] cap per, .leafNode 0 none [] [] cap per)
          (drainSeq (pts.zip bkt))).1
        (drainFold f
          (lohi.1.getD sd 0 + (lohi.2.getD sd 0 - lohi.1.getD sd 0) / 2) sd
          (.leafNode 0 none [] [] cap per, .leafNode 0 none [] [] cap per)
          (drainSeq (pts.zip bkt))).2
        (lohi.1.getD sd 0 + (lohi.2.getD sd 0 - lohi.1.getD sd 0) / 2)
        sd per := by
  rw [splitF_succ, h]

/-- On a leaf whose bounds are a degenerate box, `split` is the identity (no
dimension has positive extent). -/
theorem splitF_noop (g s : ℕ) (x : Point) (pts : List Point) (bkt : List T)
    (cap : ℕ) (per : Option Point) :
    splitF g (.leafNode s (some (x, x)) pts bkt cap per : KdTree T) =
      .leafNode s (some (x, x)) pts bkt cap per := by
  match g with
  | 0 => rfl
  | f + 1 =>
    rw [splitF_succ, splitDim_none_of (fun j hj => le_refl _)]

theorem addToBucketF_leaf (fuel s : ℕ) (b : Option (Point × Point))
    (pts : List Point) (bkt : List T) (cap : ℕ) (per : Option Point)
    (p : Point) (data : T) :
    addToBucketF fuel (.leafNode s b pts bkt cap per : KdTree T) p data =
      if s + 1 > cap then
        (match fuel with
         | 0 => (.leafNode (s + 1) (extendBounds b p) (pts ++ [p])
             (bkt ++ [data]) cap per : KdTree T)
         | f + 1 => splitF f (.leafNode (s + 1) (extendBounds b p)
             (pts ++ [p]) (bkt ++ [data]) cap per))
      else
        .leafNode (s + 1) (extendBounds b p) (pts ++ [p]) (bkt ++ [data])
          cap per := by
  unfold addToBucketF
  rfl

theorem addToBucketF_fits {fuel s : ℕ} {b : Option (Point × Point)}
    {pts : List Point} {bkt : List T} {cap : ℕ} {per : Option Point}
    {p : Point} {data : T} (h : ¬ s + 1 > cap) :
    addToBucketF fuel (.leafNode s b pts bkt cap per : KdTree T) p data =
      .leafNode (s + 1) (extendBounds b p) (pts ++ [p]) (bkt ++ [data])
        cap per := by
  rw [addToBucketF_leaf, if_neg h]

theorem addToBucketF_over {f s : ℕ} {b : Option (Point × Point)}
    {pts : List Point} {bkt : List T} {cap : ℕ} {per : Option Point}
    {p : Point} {data : T} (h : s + 1 > cap) :
    addToBucketF (f + 1) (.leafNode s b pts bkt cap per : KdTree T) p data =
      splitF f (.leafNode (s + 1) (extendBounds b p) (pts ++ [p])
        (bkt ++ [data]) cap per) := by
  rw [addToBucketF_leaf, if_pos h]

/-- Adding to a leaf whose extended bounds are a degenerate box is a plain
append regardless of fuel or overflow: if the capacity is exceeded the
triggered `split` finds no dimension and leaves the bucket alone. -/
theorem addToBucketF_coinc {fuel s : ℕ} {b : Option (Point × Point)}
    {pts : List Point} {bkt : List T} {cap : ℕ} {per : Option Point}
    {p x : Point} {data : T} (hb : extendBounds b p = some (x, x)) :
    addToBucketF fuel (.leafNode s b pts bkt cap per : KdTree T) p data =
      .leafNode (s + 1) (some (x, x)) (pts ++ [p]) (bkt ++ [data])
        cap per := by
  rw [addToBucketF_leaf]
  by_cases h : s + 1 > cap
  · rw [if_pos h]
    match fuel with
    | 0 => rw [hb]
    | f + 1 =>
      simp only
      rw [hb, splitF_noop]
  · rw [if_neg h, hb]

/-! ## The drain order is a permutation -/

theorem swapRemainder_perm {α : Type _} :
    ∀ (l : List α), (swapRemainder l).Perm l.tail := by
  intro l
  match l with
  | [] => exact List.Perm.refl _
  | [a] => exact List.Perm.refl _
  | a :: b :: rest =>
    show (((b :: rest).getLastD b) :: (b :: rest).dropLast).Perm (b :: rest)
    have hne : (b :: rest) ≠ [] := by simp
    have hd : (b :: rest).getLastD b = (b :: rest).getLast hne := by
      rw [List.getLastD_eq_getLast?, List.getLast?_eq_getLast _ hne]
      rfl
    rw [hd]
    have h1 : ((b :: rest).dropLast ++ [(b :: rest).getLast hne]) = b :: rest :=
      List.dropLast_append_getLast hne
    have h2 := (List.perm_append_singleton ((b :: rest).getLast hne)
      ((b :: rest).dropLast)).symm
    have h3 : ((b :: rest).dropLast ++
        [(b :: rest).getLast hne]).Perm (b :: rest) := by
      rw [h1]
    exact h2.trans h3

theorem drainSeqF_perm {α : Type _} :
    ∀ (n : ℕ) (l : List α), l.length ≤ n → (drainSeqF n l).Perm l := by
  intro n
  induction n with
  | zero =>
    intro l h
    have : l = [] := List.eq_nil_of_length_eq_zero (Nat.le_zero.mp h)
    subst this
    exact List.Perm.refl _
  | succ n ih =>
    intro l h
    match l with
    | [] => exact List.Perm.refl _
    | a :: rest =>
      simp only [drainSeqF]
      have hlen : (swapRemainder (a :: rest)).length ≤ n := by
        rw [swapRemainder_length]
        simp only [List.length_cons] at h ⊢
        omega
      exact ((ih _ hlen).trans (swapRemainder_perm (a :: rest))).cons a

theorem drainSeq_perm {α : Type _} (l : List α) : (drainSeq l).Perm l :=
  drainSeqF_perm l.length l le_rfl

/-! ## The drain fold on well-behaved sides -/

theorem drainFold_nil (f : ℕ) (sv : ℚ) (sd : ℕ) (init : KdTree T × KdTree T) :
    drainFold f sv sd init [] = init := rfl

theorem drainFold_cons (f : ℕ) (sv : ℚ) (sd : ℕ) (init : KdTree T × KdTree T)
    (it : Point × T) (rest : List (Point × T)) :
    drainFold f sv sd init (it :: rest) =
      drainFold f sv sd
        (if it.1.getD sd 0 < sv then (addToBucketF f init.1 it.1 it.2, init.2)
         else (init.1, addToBucketF f init.2 it.1 it.2)) rest := rfl

/-- The drain of `split` when each side either fits the capacity or is
all-coincident: every drained pair is a plain append into its child (splits
triggered on an overflowing coincident child are no-ops), so the children
end as leaves holding exactly the routed pairs in drain order. -/
theorem drainFold_easy (f : ℕ) (sv : ℚ) (sd : ℕ) (cap : ℕ)
    (per : Option Point) :
    ∀ (items : List (Point × T)) (lpts rpts : List Point)
      (lbkt : List T) (rbkt : List T),
      lpts.length = lbkt.length → rpts.length = rbkt.length →
      (lpts.length +
          (items.filter (fun it => decide (it.1.getD sd 0 < sv))).length ≤ cap ∨
        allSame (lpts ++
          (items.filter (fun it => decide (it.1.getD sd 0 < sv))).map Prod.fst)) →
      (rpts.length +
          (items.filter (fun it => ! decide (it.1.getD sd 0 < sv))).length ≤ cap ∨
        allSame (rpts ++
          (items.filter (fun it => ! decide (it.1.getD sd 0 < sv))).map Prod.fst)) →
      drainFold f sv sd
        (.leafNode lpts.length (boundsOf lpts) lpts lbkt cap per,
         .leafNode rpts.length (boundsOf rpts) rpts rbkt cap per) items =
      (.leafNode
          (lpts.length +
            (items.filter (fun it => decide (it.1.getD sd 0 < sv))).length)
          (boundsOf (lpts ++
            (items.filter (fun it => decide (it.1.getD sd 0 < sv))).map Prod.fst))
          (lpts ++
            (items.filter (fun it => decide (it.1.getD sd 0 < sv))).map Prod.fst)
          (lbkt ++
            (items.filter (fun it => decide (it.1.getD sd 0 < sv))).map Prod.snd)
          cap per,
       .leafNode
          (rpts.length +
            (items.filter (fun it => ! decide (it.1.getD sd 0 < sv))).length)
          (boundsOf (rpts ++
            (items.filter (fun it => ! decide (it.1.getD sd 0 < sv))).map Prod.fst))
          (rpts ++
            (items.filter (fun it => ! decide (it.1.getD sd 0 < sv))).map Prod.fst)
          (rbkt ++
            (items.filter (fun it => ! decide (it.1.getD sd 0 < sv))).map Prod.snd)
          cap per) := by
  intro items
  induction items with
  | nil =>
    intro lpts rpts lbkt rbkt hl hr _ _
    simp [drainFold]
  | cons it rest ih =>
    intro lpts rpts lbkt rbkt hl hr hL hR
    by_cases hroute : it.1.getD sd 0 < sv
    · have hdec : decide (it.1.getD sd 0 < sv) = true := decide_eq_true hroute
      have hfL : (it :: rest).filter (fun x => decide (x.1.getD sd 0 < sv)) =
          it :: rest.filter (fun x => decide (x.1.getD sd 0 < sv)) :=
        List.filter_cons_of_pos hdec
      have hfR : (it :: rest).filter (fun x => ! decide (x.1.getD sd 0 < sv)) =
          rest.filter (fun x => ! decide (x.1.getD sd 0 < sv)) := by
        refine List.filter_cons_of_neg ?_
        show ¬ ((! decide (it.1.getD sd 0 < sv)) = true)
        rw [hdec]
        simp
      rw [hfL] at hL
      rw [hfR] at hR
      have hadd : addToBucketF f
          (.leafNode lpts.length (boundsOf lpts) lpts lbkt cap per : KdTree T)
          it.1 it.2 =
          .leafNode (lpts.length + 1) (boundsOf (lpts ++ [it.1]))
            (lpts ++ [it.1]) (lbkt ++ [it.2]) cap per := by
        by_cases hcap2 : lpts.length + 1 > cap
        · rcases hL with hle | hall
          · exfalso
            simp only [List.length_cons] at hle
            omega
          · have hall1 : allSame (lpts ++ [it.1]) := by
              refine allSame_sub hall ?_
              intro q hq
              rcases List.mem_append.mp hq with hq | hq
              · exact List.mem_append.mpr (Or.inl hq)
              · have hqe : q = it.1 := by simpa using hq
                subst hqe
                refine List.mem_append.mpr (Or.inr ?_)
                simp
            have hbnd : extendBounds (boundsOf lpts) it.1 =
                some (it.1, it.1) := by
              rw [← boundsOf_append]
              exact boundsOf_allSame hall1 (by simp)
            rw [addToBucketF_coinc hbnd, boundsOf_append, hbnd]
        · rw [addToBucketF_fits hcap2, boundsOf_append]
      rw [drainFold_cons, if_pos hroute, hadd]
      have hlen1 : lpts.length + 1 = (lpts ++ [it.1]).length := by simp
      rw [hlen1]
      have hL' : (lpts ++ [it.1]).length +
            (rest.filter (fun x => decide (x.1.getD sd 0 < sv))).length ≤ cap ∨
          allSame ((lpts ++ [it.1]) ++
            (rest.filter (fun x => decide (x.1.getD sd 0 < sv))).map Prod.fst) := by
        rcases hL with hle | hall
        · left
          have hx : (lpts ++ [it.1]).length = lpts.length + 1 := by simp
          rw [List.length_cons] at hle
          rw [hx]
          omega
        · right
          have heq : (lpts ++ [it.1]) ++
              (rest.filter (fun x => decide (x.1.getD sd 0 < sv))).map Prod.fst =
              lpts ++ ((it :: rest.filter
                (fun x => decide (x.1.getD sd 0 < sv))).map Prod.fst) := by
            simp [List.append_assoc]
          rw [heq]
          exact hall
      have hrec := ih (lpts ++ [it.1]) rpts (lbkt ++ [it.2]) rbkt
        (by simp [hl]) hr hL' hR
      rw [hrec, hfL, hfR]
      have e1 : (lpts ++ [it.1]) ++
          (rest.filter (fun x => decide (x.1.getD sd 0 < sv))).map Prod.fst =
          lpts ++ ((it :: rest.filter
            (fun x => decide (x.1.getD sd 0 < sv))).map Prod.fst) := by
        simp [List.append_assoc]
      have e2 : (lbkt ++ [it.2]) ++
          (rest.filter (fun x => decide (x.1.getD sd 0 < sv))).map Prod.snd =
          lbkt ++ ((it :: rest.filter
            (fun x => decide (x.1.getD sd 0 < sv))).map Prod.snd) := by
        simp [List.append_assoc]
      have e3 : (lpts ++ [it.1]).length +
          (rest.filter (fun x => decide (x.1.getD sd 0 < sv))).length =
          lpts.length + ((it :: rest.filter
            (fun x => decide (x.1.getD sd 0 < sv)))).length := by
        have hx : (lpts ++ [it.1]).length = lpts.length + 1 := by simp
        rw [hx, List.length_cons]
        omega
      rw [e1, e2, e3]
    · have hdec : decide (it.1.getD sd 0 < sv) = false :=
        decide_eq_false hroute
      have hfL : (it :: rest).filter (fun x => decide (x.1.getD sd 0 < sv)) =
          rest.filter (fun x => decide (x.1.getD sd 0 < sv)) := by
        refine List.filter_cons_of_neg ?_
        show ¬ (decide (it.1.getD sd 0 < sv) = true)
        rw [hdec]
        simp
      have hfR : (it :: rest).filter (fun x => ! decide (x.1.getD sd 0 < sv)) =
          it :: rest.filter (fun x => ! decide (x.1.getD sd 0 < sv)) := by
        refine List.filter_cons_of_pos ?_
        show ((! decide (it.1.getD sd 0 < sv)) = true)
        rw [hdec]
        simp
      rw [hfL] at hL
      rw [hfR] at hR
      have hadd : addToBucketF f
          (.leafNode rpts.length (boundsOf rpts) rpts rbkt cap per : KdTree T)
          it.1 it.2 =
          .leafNode (rpts.length + 1) (boundsOf (rpts ++ [it.1]))
            (rpts ++ [it.1]) (rbkt ++ [it.2]) cap per := by
        by_cases hcap2 : rpts.length + 1 > cap
        · rcases hR with hle | hall
          · exfalso
            simp only [List.length_cons] at hle
            omega
          · have hall1 : allSame (rpts ++ [it.1]) := by
              refine allSame_sub hall ?_
              intro q hq
              rcases List.mem_append.mp hq with hq | hq
              · exact List.mem_append.mpr (Or.inl hq)
              · have hqe : q = it.1 := by simpa using hq
                subst hqe
                refine List.mem_append.mpr (Or.inr ?_)
                simp
            have hbnd : extendBounds (boundsOf rpts) it.1 =
                some (it.1, it.1) := by
              rw [← boundsOf_append]
              exact boundsOf_allSame hall1 (by simp)
            rw [addToBucketF_coinc hbnd, boundsOf_append, hbnd]
        · rw [addToBucketF_fits hcap2, boundsOf_append]
      rw [drainFold_cons, if_neg hroute, hadd]
      have hlen1 : rpts.length + 1 = (rpts ++ [it.1]).length := by simp
      rw [hlen1]
      have hR' : (rpts ++ [it.1]).length +
            (rest.filter (fun x => ! decide (x.1.getD sd 0 < sv))).length ≤ cap ∨
          allSame ((rpts ++ [it.1]) ++
            (rest.filter (fun x => ! decide (x.1.getD sd 0 < sv))).map Prod.fst) := by
        rcases hR with hle | hall
        · left
          have hx : (rpts ++ [it.1]).length = rpts.length + 1 := by simp
          rw [List.length_cons] at hle
          rw [hx]
          omega
        · right
          have heq : (rpts ++ [it.1]) ++
              (rest.filter (fun x => ! decide (x.1.getD sd 0 < sv))).map Prod.fst =
              rpts ++ ((it :: rest.filter
                (fun x => ! decide (x.1.getD sd 0 < sv))).map Prod.fst) := by
            simp [List.append_assoc]
          rw [heq]
          exact hall
      have hrec := ih lpts (rpts ++ [it.1]) lbkt (rbkt ++ [it.2])
        hl (by simp [hr]) hL hR'
      rw [hrec, hfL, hfR]
      have e1 : (rpts ++ [it.1]) ++
          (rest.filter (fun x => ! decide (x.1.getD sd 0 < sv))).map Prod.fst =
          rpts ++ ((it :: rest.filter
            (fun x => ! decide (x.1.getD sd 0 < sv))).map Prod.fst) := by
        simp [List.append_assoc]
      have e2 : (rbkt ++ [it.2]) ++
          (rest.filter (fun x => ! decide (x.1.getD sd 0 < sv))).map Prod.snd =
          rbkt ++ ((it :: rest.filter
            (fun x => ! decide (x.1.getD sd 0 < sv))).map Prod.snd) := by
        simp [List.append_assoc]
      have e3 : (rpts ++ [it.1]).length +
          (rest.filter (fun x => ! decide (x.1.getD sd 0 < sv))).length =
          rpts.length + ((it :: rest.filter
            (fun x => ! decide (x.1.getD sd 0 < sv)))).length := by
        have hx : (rpts ++ [it.1]).length = rpts.length + 1 := by simp
        rw [hx, List.length_cons]
        omega
      rw [e1, e2, e3]

/-! ## The add-reachability invariant -/

/-- The invariant maintained by `add` starting from a constructor tree:
sizes count the stored pairs, every point has dimension `K`, every node's
bounds are the exact bounds of the points beneath it, a leaf exceeds its
capacity only when all its points coincide, and every stem has nonempty
children separated by its split plane (strictly less goes left, ties go
right). -/
def WFadd (K cap : ℕ) (per : Option Point) : KdTree T → Prop
  | .leafNode s b pts bkt capacity periodic =>
    capacity = cap ∧ periodic = per ∧ 0 < cap ∧
    s = pts.length ∧ pts.length = bkt.length ∧ ptsLen K pts ∧
    boundsSpec K pts b ∧ (pts.length ≤ cap ∨ allSame pts)
  | .stemNode s b l r sv sd periodic =>
    periodic = per ∧ s = l.size + r.size ∧
    WFadd K cap per l ∧ WFadd K cap per r ∧
    0 < l.size ∧ 0 < r.size ∧
    (∀ pr ∈ l.pairs, pr.1.getD sd 0 < sv) ∧
    (∀ pr ∈ r.pairs, ¬ pr.1.getD sd 0 < sv) ∧
    boundsSpec K ((l.pairs ++ r.pairs).map Prod.fst) b

theorem boundsOf_nil : boundsOf ([] : List Point) = none := rfl

theorem of_mem_zip {α β : Type _} :
    ∀ {l : List α} {m : List β} {a : α} {b : β},
      (a, b) ∈ l.zip m → a ∈ l ∧ b ∈ m := by
  intro l
  induction l with
  | nil => intro m a b h; simp at h
  | cons x t ih =>
    intro m a b h
    cases m with
    | nil => simp at h
    | cons y s =>
      rcases List.mem_cons.mp h with heq | h
      · rw [Prod.ext_iff] at heq
        obtain ⟨h1, h2⟩ := heq
        simp only at h1 h2
        subst h1
        subst h2
        exact ⟨by simp, by simp⟩
      · obtain ⟨h1, h2⟩ := ih h
        exact ⟨by simp [h1], by simp [h2]⟩

theorem filter_append_perm_own {α : Type _} (p : α → Bool) (l : List α) :
    (l.filter p ++ l.filter (fun x => ! p x)).Perm l := by
  induction l with
  | nil => simp
  | cons a t ih =>
    by_cases h : p a = true
    · rw [List.filter_cons_of_pos h, List.filter_cons_of_neg (by
        show ¬ ((! p a) = true)
        rw [h]
        simp)]
      rw [List.cons_append]
      exact ih.cons a
    · have hfa : p a = false := by
        cases hpa : p a
        · rfl
        · exact absurd hpa h
      rw [List.filter_cons_of_neg (by rw [hfa]; simp),
        List.filter_cons_of_pos (by rw [hfa]; rfl)]
      exact List.perm_middle.trans (ih.cons a)

/-- A child filled by a drain of pairs in any order: the resulting leaf is
well formed whenever it fits its capacity or is all-coincident. -/
theorem WFadd_drain_leaf {K cap : ℕ} {per : Option Point} (hcap : 0 < cap)
    (l : List (Point × T)) (hp : ∀ it ∈ l, it.1.length = K)
    (hc : l.length ≤ cap ∨ allSame (l.map Prod.fst)) :
    WFadd K cap per (.leafNode l.length (boundsOf (l.map Prod.fst))
      (l.map Prod.fst) (l.map Prod.snd) cap per : KdTree T) := by
  refine ⟨rfl, rfl, hcap, (List.length_map _ _).symm, by simp, ?_, ?_, ?_⟩
  · intro q hq
    obtain ⟨it, hit, rfl⟩ := List.mem_map.mp hq
    exact hp it hit
  · refine boundsOf_spec _ ?_
    intro q hq
    obtain ⟨it, hit, rfl⟩ := List.mem_map.mp hq
    exact hp it hit
  · rcases hc with h | h
    · exact Or.inl (by rw [List.length_map]; exact h)
    · exact Or.inr h

theorem drain_leaf_pairs {cap : ℕ} {per : Option Point}
    (l : List (Point × T)) :
    (KdTree.leafNode l.length (boundsOf (l.map Prod.fst)) (l.map Prod.fst)
      (l.map Prod.snd) cap per : KdTree T).pairs = l := by
  show (l.map Prod.fst).zip (l.map Prod.snd) = l
  exact zip_map_fst_snd l

/-- Assembling a real split: when a split dimension was chosen, each drain
side either fits the capacity or is all-coincident, and both sides are
nonempty, `split` produces a well-formed stem of the same size whose pairs
are a permutation of the drained leaf's pairs. -/
theorem splitF_assemble {K cap : ℕ} {per : Option Point} (f : ℕ)
    (lohi : Point × Point) (pts : List Point) (bkt : List T)
    (hcap : 0 < cap) (hb : boundsSpec K pts (some lohi)) (hlen : ptsLen K pts)
    (hsb : pts.length = bkt.length) {sd : ℕ} (hsd : splitDim lohi = some sd)
    (hcL : ((drainSeq (pts.zip bkt)).filter
        (fun it => decide (it.1.getD sd 0 <
          lohi.1.getD sd 0 + (lohi.2.getD sd 0 - lohi.1.getD sd 0) / 2))).length ≤ cap ∨
      allSame (((drainSeq (pts.zip bkt)).filter
        (fun it => decide (it.1.getD sd 0 <
          lohi.1.getD sd 0 + (lohi.2.getD sd 0 - lohi.1.getD sd 0) / 2))).map Prod.fst))
    (hcR : ((drainSeq (pts.zip bkt)).filter
        (fun it => ! decide (it.1.getD sd 0 <
          lohi.1.getD sd 0 + (lohi.2.getD sd 0 - lohi.1.getD sd 0) / 2))).length ≤ cap ∨
      allSame (((drainSeq (pts.zip bkt)).filter
        (fun it => ! decide (it.1.getD sd 0 <
          lohi.1.getD sd 0 + (lohi.2.getD sd 0 - lohi.1.getD sd 0) / 2))).map Prod.fst))
    (hneL : 0 < ((drainSeq (pts.zip bkt)).filter
        (fun it => decide (it.1.getD sd 0 <
          lohi.1.getD sd 0 + (lohi.2.getD sd 0 - lohi.1.getD sd 0) / 2))).length)
    (hneR : 0 < ((drainSeq (pts.zip bkt)).filter
        (fun it => ! decide (it.1.getD sd 0 <
          lohi.1.getD sd 0 + (lohi.2.getD sd 0 - lohi.1.getD sd 0) / 2))).length) :
    WFadd K cap per (splitF (f + 1)
      (.leafNode pts.length (some lohi) pts bkt cap per : KdTree T)) ∧
    (splitF (f + 1)
      (.leafNode pts.length (some lohi) pts bkt cap per : KdTree T)).size =
      pts.length ∧
    (splitF (f + 1)
      (.leafNode pts.length (some lohi) pts bkt cap per : KdTree T)).pairs.Perm
      (pts.zip bkt) := by
  rw [splitF_succ_some hsd]
  have hdrain := drainFold_easy f
    (lohi.1.getD sd 0 + (lohi.2.getD sd 0 - lohi.1.getD sd 0) / 2) sd cap per
    (drainSeq (pts.zip bkt)) [] [] [] [] rfl rfl
    (by simpa using hcL) (by simpa using hcR)
  simp only [List.length_nil, Nat.zero_add, List.nil_append, boundsOf_nil]
    at hdrain
  rw [hdrain]
  have hperm := drainSeq_perm (pts.zip bkt)
  have hsplitlen := filter_length_split
    (fun it => decide (it.1.getD sd 0 <
      lohi.1.getD sd 0 + (lohi.2.getD sd 0 - lohi.1.getD sd 0) / 2))
    (drainSeq (pts.zip bkt))
  have hlenitems : (drainSeq (pts.zip bkt)).length = pts.length := by
    rw [hperm.length_eq, List.length_zip]
    omega
  have hpairsPerm : (((drainSeq (pts.zip bkt)).filter
      (fun it => decide (it.1.getD sd 0 <
        lohi.1.getD sd 0 + (lohi.2.getD sd 0 - lohi.1.getD sd 0) / 2))) ++
      ((drainSeq (pts.zip bkt)).filter
      (fun it => ! decide (it.1.getD sd 0 <
        lohi.1.getD sd 0 + (lohi.2.getD sd 0 - lohi.1.getD sd 0) / 2)))).Perm
      (pts.zip bkt) :=
    (filter_append_perm_own _ _).trans hperm
  have hptsPerm : ((((drainSeq (pts.zip bkt)).filter
      (fun it => decide (it.1.getD sd 0 <
        lohi.1.getD sd 0 + (lohi.2.getD sd 0 - lohi.1.getD sd 0) / 2))) ++
      ((drainSeq (pts.zip bkt)).filter
      (fun it => ! decide (it.1.getD sd 0 <
        lohi.1.getD sd 0 + (lohi.2.getD sd 0 - lohi.1.getD sd 0) / 2)))).map
      Prod.fst).Perm pts := by
    have h1 := hpairsPerm.map Prod.fst
    rwa [List.map_fst_zip pts bkt (by omega)] at h1
  have hpL : ∀ it ∈ (drainSeq (pts.zip bkt)).filter
      (fun it => decide (it.1.getD sd 0 <
        lohi.1.getD sd 0 + (lohi.2.getD sd 0 - lohi.1.getD sd 0) / 2)),
      it.1.length = K := by
    intro it hit
    obtain ⟨q, d⟩ := it
    exact hlen q (of_mem_zip (hperm.subset (List.mem_filter.mp hit).1)).1
  have hpR : ∀ it ∈ (drainSeq (pts.zip bkt)).filter
      (fun it => ! decide (it.1.getD sd 0 <
        lohi.1.getD sd 0 + (lohi.2.getD sd 0 - lohi.1.getD sd 0) / 2)),
      it.1.length = K := by
    intro it hit
    obtain ⟨q, d⟩ := it
    exact hlen q (of_mem_zip (hperm.subset (List.mem_filter.mp hit).1)).1
  refine ⟨⟨rfl, ?_, ?_, ?_, ?_, ?_, ?_, ?_, ?_⟩, rfl, ?_⟩
  · simp only [KdTree.size]
    omega
  · exact WFadd_drain_leaf hcap _ hpL hcL
  · exact WFadd_drain_leaf hcap _ hpR hcR
  · simp only [KdTree.size]
    exact hneL
  · simp only [KdTree.size]
    exact hneR
  · intro pr hpr
    rw [drain_leaf_pairs] at hpr
    exact of_decide_eq_true (List.mem_filter.mp hpr).2
  · intro pr hpr
    rw [drain_leaf_pairs] at hpr
    have h2 := (List.mem_filter.mp hpr).2
    intro hcon
    rw [decide_eq_true hcon] at h2
    simp at h2
  · rw [drain_leaf_pairs, drain_leaf_pairs]
    exact boundsSpec_perm hptsPerm.symm hb
  · show ((KdTree.leafNode _ _ _ _ cap per : KdTree T).pairs ++
      (KdTree.leafNode _ _ _ _ cap per : KdTree T).pairs).Perm (pts.zip bkt)
    rw [drain_leaf_pairs, drain_leaf_pairs]
    exact hpairsPerm

/-- A split of a leaf with exact bounds holding at most `cap + 1` points:
either no dimension has positive extent (then all points coincide and the
leaf stays), or a real split occurs whose sides both attain the bounds and
hence both fit the capacity. -/
theorem splitF_exact {K cap : ℕ} {per : Option Point} (f : ℕ)
    (lohi : Point × Point) (pts : List Point) (bkt : List T)
    (hcap : 0 < cap) (hb : boundsSpec K pts (some lohi)) (hlen : ptsLen K pts)
    (hsb : pts.length = bkt.length) (hn : pts.length ≤ cap + 1) :
    WFadd K cap per (splitF (f + 1)
      (.leafNode pts.length (some lohi) pts bkt cap per : KdTree T)) ∧
    (splitF (f + 1)
      (.leafNode pts.length (some lohi) pts bkt cap per : KdTree T)).size =
      pts.length ∧
    (splitF (f + 1)
      (.leafNode pts.length (some lohi) pts bkt cap per : KdTree T)).pairs.Perm
      (pts.zip bkt) := by
  have hK : lohi.1.length = K := hb.1
  cases hsd : splitDim lohi with
  | none =>
    rw [splitF_succ_none hsd]
    have hpin := splitDim_none hsd
    have hall : allSame pts := by
      intro p hp q hq
      apply getD_ext (hlen p hp) (hlen q hq)
      intro i hi
      have h1 := hb.2.2.1 p hp i hi
      have h2 := hb.2.2.1 q hq i hi
      have h3 := hpin i (by omega)
      linarith [h1.1, h1.2, h2.1, h2.2]
    exact ⟨⟨rfl, rfl, hcap, rfl, hsb, hlen, hb, Or.inr hall⟩, rfl,
      List.Perm.refl _⟩
  | some sd =>
    obtain ⟨hsdK, hlth⟩ := splitDim_some hsd
    have hsv1 : lohi.1.getD sd 0 <
        lohi.1.getD sd 0 + (lohi.2.getD sd 0 - lohi.1.getD sd 0) / 2 := by
      linarith
    have hsv2 : lohi.1.getD sd 0 + (lohi.2.getD sd 0 - lohi.1.getD sd 0) / 2 ≤
        lohi.2.getD sd 0 := by
      linarith
    obtain ⟨⟨pl, hplm, hple⟩, ⟨ph, hphm, hphe⟩⟩ := hb.2.2.2 sd (by omega)
    obtain ⟨dl, hdl⟩ := mem_zip_left hsb hplm
    obtain ⟨dh, hdh⟩ := mem_zip_left hsb hphm
    have hperm := drainSeq_perm (pts.zip bkt)
    have hplf : (pl, dl) ∈ (drainSeq (pts.zip bkt)).filter
        (fun it => decide (it.1.getD sd 0 <
          lohi.1.getD sd 0 + (lohi.2.getD sd 0 - lohi.1.getD sd 0) / 2)) := by
      rw [List.mem_filter]
      refine ⟨hperm.mem_iff.mpr hdl, ?_⟩
      show decide (pl.getD sd 0 <
        lohi.1.getD sd 0 + (lohi.2.getD sd 0 - lohi.1.getD sd 0) / 2) = true
      exact decide_eq_true (by rw [hple]; exact hsv1)
    have hphf : (ph, dh) ∈ (drainSeq (pts.zip bkt)).filter
        (fun it => ! decide (it.1.getD sd 0 <
          lohi.1.getD sd 0 + (lohi.2.getD sd 0 - lohi.1.getD sd 0) / 2)) := by
      rw [List.mem_filter]
      refine ⟨hperm.mem_iff.mpr hdh, ?_⟩
      show (! decide (ph.getD sd 0 <
        lohi.1.getD sd 0 + (lohi.2.getD sd 0 - lohi.1.getD sd 0) / 2)) = true
      have hno : ¬ (ph.getD sd 0 <
          lohi.1.getD sd 0 + (lohi.2.getD sd 0 - lohi.1.getD sd 0) / 2) := by
        rw [hphe]
        linarith
      rw [decide_eq_false hno]
      rfl
    have hneL := List.length_pos.mpr (List.ne_nil_of_mem hplf)
    have hneR := List.length_pos.mpr (List.ne_nil_of_mem hphf)
    have hsplitlen := filter_length_split
      (fun it => decide (it.1.getD sd 0 <
        lohi.1.getD sd 0 + (lohi.2.getD sd 0 - lohi.1.getD sd 0) / 2))
      (drainSeq (pts.zip bkt))
    have hlenitems : (drainSeq (pts.zip bkt)).length = pts.length := by
      rw [hperm.length_eq, List.length_zip]
      omega
    exact splitF_assemble f lohi pts bkt hcap hb hlen hsb hsd
      (Or.inl (by omega)) (Or.inl (by omega)) hneL hneR

/-- A split whose drained points take only two values, strictly separated
by the split plane: each side is all-coincident and nonempty, so the split
assembles a well-formed stem. -/
theorem splitF_sepVals {K cap : ℕ} {per : Option Point} (f : ℕ)
    (lohi : Point × Point) (pts : List Point) (bkt : List T) (u v : Point)
    (hcap : 0 < cap) (hb : boundsSpec K pts (some lohi)) (hlen : ptsLen K pts)
    (hsb : pts.length = bkt.length) {sd : ℕ} (hsd : splitDim lohi = some sd)
    (hmem : ∀ q ∈ pts, q = u ∨ q = v) (huin : u ∈ pts) (hvin : v ∈ pts)
    (hru : u.getD sd 0 <
      lohi.1.getD sd 0 + (lohi.2.getD sd 0 - lohi.1.getD sd 0) / 2)
    (hrv : ¬ v.getD sd 0 <
      lohi.1.getD sd 0 + (lohi.2.getD sd 0 - lohi.1.getD sd 0) / 2) :
    WFadd K cap per (splitF (f + 1)
      (.leafNode pts.length (some lohi) pts bkt cap per : KdTree T)) ∧
    (splitF (f + 1)
      (.leafNode pts.length (some lohi) pts bkt cap per : KdTree T)).size =
      pts.length ∧
    (splitF (f + 1)
      (.leafNode pts.length (some lohi) pts bkt cap per : KdTree T)).pairs.Perm
      (pts.zip bkt) := by
  obtain ⟨du, hdu⟩ := mem_zip_left hsb huin
  obtain ⟨dv, hdv⟩ := mem_zip_left hsb hvin
  have hperm := drainSeq_perm (pts.zip bkt)
  have huf : (u, du) ∈ (drainSeq (pts.zip bkt)).filter
      (fun it => decide (it.1.getD sd 0 <
        lohi.1.getD sd 0 + (lohi.2.getD sd 0 - lohi.1.getD sd 0) / 2)) := by
    rw [List.mem_filter]
    exact ⟨hperm.mem_iff.mpr hdu, decide_eq_true hru⟩
  have hvf : (v, dv) ∈ (drainSeq (pts.zip bkt)).filter
      (fun it => ! decide (it.1.getD sd 0 <
        lohi.1.getD sd 0 + (lohi.2.getD sd 0 - lohi.1.getD sd 0) / 2)) := by
    rw [List.mem_filter]
    refine ⟨hperm.mem_iff.mpr hdv, ?_⟩
    show (! decide (v.getD sd 0 <
      lohi.1.getD sd 0 + (lohi.2.getD sd 0 - lohi.1.getD sd 0) / 2)) = true
    rw [decide_eq_false hrv]
    rfl
  have hLu : ∀ w ∈ ((drainSeq (pts.zip bkt)).filter
      (fun it => decide (it.1.getD sd 0 <
        lohi.1.getD sd 0 + (lohi.2.getD sd 0 - lohi.1.getD sd 0) / 2))).map
      Prod.fst, w = u := by
    intro w hw
    obtain ⟨it, hit, rfl⟩ := List.mem_map.mp hw
    have hmemit := List.mem_filter.mp hit
    have hit1 : it.1 ∈ pts := by
      obtain ⟨q, d⟩ := it
      exact (of_mem_zip (hperm.subset hmemit.1)).1
    rcases hmem it.1 hit1 with h | h
    · exact h
    · exfalso
      have hd := of_decide_eq_true hmemit.2
      rw [h] at hd
      exact hrv hd
  have hRv : ∀ w ∈ ((drainSeq (pts.zip bkt)).filter
      (fun it => ! decide (it.1.getD sd 0 <
        lohi.1.getD sd 0 + (lohi.2.getD sd 0 - lohi.1.getD sd 0) / 2))).map
      Prod.fst, w = v := by
    intro w hw
    obtain ⟨it, hit, rfl⟩ := List.mem_map.mp hw
    have hmemit := List.mem_filter.mp hit
    have hit1 : it.1 ∈ pts := by
      obtain ⟨q, d⟩ := it
      exact (of_mem_zip (hperm.subset hmemit.1)).1
    rcases hmem it.1 hit1 with h | h
    · exfalso
      have hd := hmemit.2
      rw [h] at hd
      rw [decide_eq_true hru] at hd
      simp at hd
    · exact h
  exact splitF_assemble f lohi pts bkt hcap hb hlen hsb hsd
    (Or.inr (fun p hp q hq => (hLu p hp).trans (hLu q hq).symm))
    (Or.inr (fun p hp q hq => (hRv p hp).trans (hRv q hq).symm))
    (List.length_pos.mpr (List.ne_nil_of_mem huf))
    (List.length_pos.mpr (List.ne_nil_of_mem hvf))

/-- A split of a leaf with exact bounds whose points take exactly two
distinct values: the chosen dimension separates them, each side is
all-coincident, and the split assembles a well-formed stem. -/
theorem splitF_twoVals {K cap : ℕ} {per : Option Point} (f : ℕ)
    (lohi : Point × Point) (pts : List Point) (bkt : List T) (a b : Point)
    (hcap : 0 < cap) (hb : boundsSpec K pts (some lohi)) (hlen : ptsLen K pts)
    (hsb : pts.length = bkt.length)
    (hmem : ∀ q ∈ pts, q = a ∨ q = b) (hain : a ∈ pts) (hbin : b ∈ pts)
    (hne : a ≠ b) :
    WFadd K cap per (splitF (f + 1)
      (.leafNode pts.length (some lohi) pts bkt cap per : KdTree T)) ∧
    (splitF (f + 1)
      (.leafNode pts.length (some lohi) pts bkt cap per : KdTree T)).size =
      pts.length ∧
    (splitF (f + 1)
      (.leafNode pts.length (some lohi) pts bkt cap per : KdTree T)).pairs.Perm
      (pts.zip bkt) := by
  have hK : lohi.1.length = K := hb.1
  cases hsd : splitDim lohi with
  | none =>
    exfalso
    have hpin := splitDim_none hsd
    have hall : a = b := by
      apply getD_ext (hlen a hain) (hlen b hbin)
      intro i hi
      have h1 := hb.2.2.1 a hain i hi
      have h2 := hb.2.2.1 b hbin i hi
      have h3 := hpin i (by omega)
      linarith [h1.1, h1.2, h2.1, h2.2]
    exact hne hall
  | some sd =>
    obtain ⟨hsdK, hlth⟩ := splitDim_some hsd
    obtain ⟨⟨pl, hplm, hple⟩, ⟨ph, hphm, hphe⟩⟩ := hb.2.2.2 sd (by omega)
    have hlo : lohi.1.getD sd 0 = a.getD sd 0 ∨
        lohi.1.getD sd 0 = b.getD sd 0 := by
      rcases hmem pl hplm with h | h
      · left; rw [← hple, h]
      · right; rw [← hple, h]
    have hhi : lohi.2.getD sd 0 = a.getD sd 0 ∨
        lohi.2.getD sd 0 = b.getD sd 0 := by
      rcases hmem ph hphm with h | h
      · left; rw [← hphe, h]
      · right; rw [← hphe, h]
    have hconta := hb.2.2.1 a hain sd (by omega)
    have hcontb := hb.2.2.1 b hbin sd (by omega)
    have hab : a.getD sd 0 ≠ b.getD sd 0 := by
      intro heq
      have h1 : lohi.1.getD sd 0 = a.getD sd 0 := by
        rcases hlo with h | h
        · exact h
        · rw [h, heq]
      have h2 : lohi.2.getD sd 0 = a.getD sd 0 := by
        rcases hhi with h | h
        · exact h
        · rw [h, heq]
      rw [h1, h2] at hlth
      exact lt_irrefl _ hlth
    rcases lt_or_gt_of_ne hab with hord | hord
    · have hloa : lohi.1.getD sd 0 = a.getD sd 0 := by
        rcases hlo with h | h
        · exact h
        · exfalso
          rw [h] at hconta
          linarith [hconta.1]
      have hhib : lohi.2.getD sd 0 = b.getD sd 0 := by
        rcases hhi with h | h
        · exfalso
          rw [h] at hcontb
          linarith [hcontb.2]
        · exact h
      have hra : a.getD sd 0 <
          lohi.1.getD sd 0 + (lohi.2.getD sd 0 - lohi.1.getD sd 0) / 2 := by
        rw [← hloa]
        linarith
      have hrb : ¬ b.getD sd 0 <
          lohi.1.getD sd 0 + (lohi.2.getD sd 0 - lohi.1.getD sd 0) / 2 := by
        rw [← hhib]
        intro hcon
        linarith
      exact splitF_sepVals f lohi pts bkt a b hcap hb hlen hsb hsd
        hmem hain hbin hra hrb
    · have hlob : lohi.1.getD sd 0 = b.getD sd 0 := by
        rcases hlo with h | h
        · exfalso
          rw [h] at hcontb
          linarith [hcontb.1]
        · exact h
      have hhia : lohi.2.getD sd 0 = a.getD sd 0 := by
        rcases hhi with h | h
        · exact h
        · exfalso
          rw [h] at hconta
          linarith [hconta.2]
      have hrb : b.getD sd 0 <
          lohi.1.getD sd 0 + (lohi.2.getD sd 0 - lohi.1.getD sd 0) / 2 := by
        rw [← hlob]
        linarith
      have hra : ¬ a.getD sd 0 <
          lohi.1.getD sd 0 + (lohi.2.getD sd 0 - lohi.1.getD sd 0) / 2 := by
        rw [← hhia]
        intro hcon
        linarith
      exact splitF_sepVals f lohi pts bkt b a hcap hb hlen hsb hsd
        (fun q hq => (hmem q hq).symm) hbin hain hrb hra

theorem zip_append_pair {α β : Type _} :
    ∀ {l : List α} {m : List β}, l.length = m.length → ∀ (a : α) (b : β),
      (l ++ [a]).zip (m ++ [b]) = l.zip m ++ [(a, b)] := by
  intro l
  induction l with
  | nil =>
    intro m hm a b
    cases m with
    | nil => rfl
    | cons y s => simp at hm
  | cons x t ih =>
    intro m hm a b
    cases m with
    | nil => simp at hm
    | cons y s =>
      simp only [List.cons_append, List.zip_cons_cons, List.cons.injEq]
      exact ⟨trivial, ih (by simpa using hm) a b⟩

/-- `add_to_bucket` on a well-formed leaf: the size grows by one, the new
pair is appended, and the result (leaf, or stem after a split) is again
well formed. -/
theorem addToBucketF_WFadd {K cap : ℕ} {per : Option Point} (g : ℕ)
    (s : ℕ) (b : Option (Point × Point)) (pts : List Point) (bkt : List T)
    (capv : ℕ) (perv : Option Point)
    (hwf : WFadd K cap per (.leafNode s b pts bkt capv perv : KdTree T))
    (p : Point) (hp : p.length = K) (data : T) :
    WFadd K cap per (addToBucketF (g + 2)
      (.leafNode s b pts bkt capv perv : KdTree T) p data) ∧
    (addToBucketF (g + 2)
      (.leafNode s b pts bkt capv perv : KdTree T) p data).size = s + 1 ∧
    (addToBucketF (g + 2)
      (.leafNode s b pts bkt capv perv : KdTree T) p data).pairs.Perm
      ((pts.zip bkt) ++ [(p, data)]) := by
  obtain ⟨rfl, rfl, hcap, hs, hsb, hlen, hb, hLF⟩ := hwf
  subst hs
  have hb' : boundsSpec K (pts ++ [p]) (extendBounds b p) :=
    extend_boundsSpec hb hp
  have hlen' : ptsLen K (pts ++ [p]) := by
    intro q hq
    rcases List.mem_append.mp hq with h | h
    · exact hlen q h
    · have hqe : q = p := by simpa using h
      subst hqe
      exact hp
  have hsb' : (pts ++ [p]).length = (bkt ++ [data]).length := by simp [hsb]
  by_cases hover : pts.length + 1 > capv
  · rw [addToBucketF_over hover]
    obtain ⟨lohi', hbs⟩ : ∃ lohi', extendBounds b p = some lohi' := by
      cases b with
      | none => exact ⟨(p, p), rfl⟩
      | some x => exact ⟨_, rfl⟩
    have hbx' : boundsSpec K (pts ++ [p]) (some lohi') := hbs ▸ hb'
    by_cases hsmall : pts.length ≤ capv
    · have h1 := @splitF_exact T K capv perv g lohi' (pts ++ [p])
        (bkt ++ [data]) hcap hbx' hlen' hsb' (by simp; omega)
      rw [hbs, show pts.length + 1 = (pts ++ [p]).length by simp]
      refine ⟨h1.1, h1.2.1, ?_⟩
      have h2 := h1.2.2
      rwa [zip_append_pair hsb] at h2
    · have hall : allSame pts := by
        rcases hLF with h | h
        · omega
        · exact h
      have hpts_ne : pts ≠ [] := by
        intro hnil
        rw [hnil] at hsmall
        simp at hsmall
      obtain ⟨x, hx⟩ := List.exists_mem_of_ne_nil pts hpts_ne
      by_cases hpx : p = x
      · subst hpx
        have hbx : b = some (p, p) := boundsSpec_allSame hb hall hx hp
        have hbex : extendBounds b p = some (p, p) := by
          rw [hbx]
          exact extendBounds_coinc p
        rw [hbex, splitF_noop]
        have hallp : ∀ q ∈ pts ++ [p], q = p := by
          intro q hq
          rcases List.mem_append.mp hq with h | h
          · exact hall q h p hx
          · simpa using h
        refine ⟨⟨rfl, rfl, hcap, by simp, hsb', hlen', ?_, Or.inr
          (fun q1 h1 q2 h2 => (hallp q1 h1).trans (hallp q2 h2).symm)⟩,
          rfl, ?_⟩
        · rw [← hbex]
          exact hb'
        · show ((pts ++ [p]).zip (bkt ++ [data])).Perm
            (pts.zip bkt ++ [(p, data)])
          rw [zip_append_pair hsb]
      · have hmem2 : ∀ q ∈ pts ++ [p], q = x ∨ q = p := by
          intro q hq
          rcases List.mem_append.mp hq with h | h
          · exact Or.inl (hall q h x hx)
          · exact Or.inr (by simpa using h)
        have h1 := @splitF_twoVals T K capv perv g lohi' (pts ++ [p])
          (bkt ++ [data]) x p hcap hbx' hlen' hsb' hmem2 (by simp [hx])
          (by simp) (fun hcon => hpx hcon.symm)
        rw [hbs, show pts.length + 1 = (pts ++ [p]).length by simp]
        refine ⟨h1.1, h1.2.1, ?_⟩
        have h2 := h1.2.2
        rwa [zip_append_pair hsb] at h2
  · rw [addToBucketF_fits hover]
    refine ⟨⟨rfl, rfl, hcap, by simp, hsb', hlen', hb',
      Or.inl (by simp; omega)⟩, rfl, ?_⟩
    show ((pts ++ [p]).zip (bkt ++ [data])).Perm (pts.zip bkt ++ [(p, data)])
    rw [zip_append_pair hsb]

/-- `add_unchecked` preserves the reachability invariant and appends the
new pair (up to permutation). -/
theorem addUnchecked_WFadd {K cap : ℕ} {per : Option Point} :
    ∀ (t : KdTree T), WFadd K cap per t → ∀ (p : Point), p.length = K →
      ∀ (data : T),
      WFadd K cap per (t.addUnchecked p data) ∧
      (t.addUnchecked p data).pairs.Perm (t.pairs ++ [(p, data)]) := by
  intro t
  induction t with
  | leafNode s b pts bkt capv perv =>
    intro hwf p hp data
    have h2 : 2 * pts.length + 8 = (2 * pts.length + 6) + 2 := by omega
    have hres := addToBucketF_WFadd (2 * pts.length + 6) s b pts bkt capv perv
      hwf p hp data
    simp only [KdTree.addUnchecked]
    rw [h2]
    exact ⟨hres.1, hres.2.2⟩
  | stemNode s b l r sv sd perv ihl ihr =>
    intro hwf p hp data
    obtain ⟨hper, hsum, hwl, hwr, hlpos, hrpos, hroutL, hroutR, hbounds⟩ := hwf
    simp only [KdTree.addUnchecked]
    by_cases hro : p.getD sd 0 < sv
    · rw [if_pos hro]
      obtain ⟨hwl', hplperm⟩ := ihl hwl p hp data
      have hperm2 : ((l.addUnchecked p data).pairs ++ r.pairs).Perm
          ((l.pairs ++ r.pairs) ++ [(p, data)]) := by
        refine (hplperm.append_right r.pairs).trans ?_
        rw [List.append_assoc, List.singleton_append]
        exact List.perm_middle.trans (List.perm_append_singleton _ _).symm
      refine ⟨⟨hper, ?_, hwl', hwr, ?_, hrpos, ?_, hroutR, ?_⟩, hperm2⟩
      · rw [addUnchecked_size]
        omega
      · rw [addUnchecked_size]
        omega
      · intro pr hpr
        rcases List.mem_append.mp (hplperm.subset hpr) with h | h
        · exact hroutL pr h
        · have hpr2 : pr = (p, data) := by simpa using h
          subst hpr2
          exact hro
      · have hmap := (hperm2.map Prod.fst).symm
        rw [List.map_append] at hmap
        refine boundsSpec_perm ?_ (extend_boundsSpec hbounds hp)
        simpa using hmap
    · rw [if_neg hro]
      obtain ⟨hwr', hprperm⟩ := ihr hwr p hp data
      have hperm2 : (l.pairs ++ (r.addUnchecked p data).pairs).Perm
          ((l.pairs ++ r.pairs) ++ [(p, data)]) := by
        refine (hprperm.append_left l.pairs).trans ?_
        rw [List.append_assoc]
      refine ⟨⟨hper, ?_, hwl, hwr', hlpos, ?_, hroutL, ?_, ?_⟩, hperm2⟩
      · rw [addUnchecked_size]
        omega
      · rw [addUnchecked_size]
        omega
      · intro pr hpr
        rcases List.mem_append.mp (hprperm.subset hpr) with h | h
        · exact hroutR pr h
        · have hpr2 : pr = (p, data) := by simpa using h
          subst hpr2
          exact hro
      · have hmap := (hperm2.map Prod.fst).symm
        rw [List.map_append] at hmap
        refine boundsSpec_perm ?_ (extend_boundsSpec hbounds hp)
        simpa using hmap

/-! ## The interleaved add/remove invariant -/

/-- Loose bounds: the stored box (if any) contains every current point
componentwise; `none` only before any insertion.  Removals never shrink the
box, so after removals the box may be stale but still contains the
remaining points. -/
def boundsLoose (K : ℕ) (pts : List Point) :
    Option (Point × Point) → Prop
  | none => pts = []
  | some lohi =>
    lohi.1.length = K ∧ lohi.2.length = K ∧
    ∀ q ∈ pts, ∀ i < K,
      lohi.1.getD i 0 ≤ q.getD i 0 ∧ q.getD i 0 ≤ lohi.2.getD i 0

theorem boundsSpec_to_loose {K : ℕ} {pts : List Point}
    {b : Option (Point × Point)} (h : boundsSpec K pts b) :
    boundsLoose K pts b := by
  cases b with
  | none => exact h
  | some lohi => exact ⟨h.1, h.2.1, h.2.2.1⟩

theorem boundsLoose_sub {K : ℕ} {pts pts' : List Point}
    {b : Option (Point × Point)} (h : boundsLoose K pts b)
    (hsub : ∀ q ∈ pts', q ∈ pts) : boundsLoose K pts' b := by
  cases b with
  | none =>
    simp only [boundsLoose] at h ⊢
    subst h
    exact List.eq_nil_iff_forall_not_mem.mpr
      (fun q hq => absurd (hsub q hq) (List.not_mem_nil q))
  | some lohi =>
    exact ⟨h.1, h.2.1, fun q hq i hi => h.2.2 q (hsub q hq) i hi⟩

theorem extend_boundsLoose {K : ℕ} {pts : List Point}
    {b : Option (Point × Point)} (h : boundsLoose K pts b) {p : Point}
    (hp : p.length = K) : boundsLoose K (pts ++ [p]) (extendBounds b p) := by
  cases b with
  | none =>
    simp only [boundsLoose] at h
    subst h
    refine ⟨hp, hp, ?_⟩
    intro q hq i hi
    have hqe : q = p := by simpa using hq
    subst hqe
    exact ⟨le_refl _, le_refl _⟩
  | some lohi =>
    obtain ⟨lo, hi⟩ := lohi
    obtain ⟨h1, h2, h3⟩ := h
    simp only at h1 h2
    have hlo : ∀ i < K,
        ((lo.zip p).map fun x => if x.2 < x.1 then x.2 else x.1).getD i 0 =
          if p.getD i 0 < lo.getD i 0 then p.getD i 0 else lo.getD i 0 := by
      intro i hik
      rw [zipMap_getD _ lo p i (by omega) (by omega)]
    have hhi : ∀ i < K,
        ((hi.zip p).map fun x => if x.2 > x.1 then x.2 else x.1).getD i 0 =
          if p.getD i 0 > hi.getD i 0 then p.getD i 0 else hi.getD i 0 := by
      intro i hik
      rw [zipMap_getD _ hi p i (by omega) (by omega)]
    refine ⟨?_, ?_, ?_⟩
    · simp only [extendBounds]
      rw [List.length_map, List.length_zip]
      omega
    · simp only [extendBounds]
      rw [List.length_map, List.length_zip]
      omega
    · intro q hq i hik
      rw [hlo i hik, hhi i hik]
      rcases List.mem_append.mp hq with hq | hq
      · have hc := h3 q hq i hik
        constructor
        · by_cases hcmp : p.getD i 0 < lo.getD i 0
          · rw [if_pos hcmp]; linarith [hc.1]
          · rw [if_neg hcmp]; exact hc.1
        · by_cases hcmp : p.getD i 0 > hi.getD i 0
          · rw [if_pos hcmp]; linarith [hc.2]
          · rw [if_neg hcmp]; exact hc.2
      · have hqe : q = p := by simpa using hq
        subst hqe
        constructor
        · by_cases hcmp : q.getD i 0 < lo.getD i 0
          · rw [if_pos hcmp]
          · rw [if_neg hcmp]; linarith [not_lt.mp hcmp]
        · by_cases hcmp : q.getD i 0 > hi.getD i 0
          · rw [if_pos hcmp]
          · rw [if_neg hcmp]; linarith [not_lt.mp hcmp]

/-- The invariant maintained by interleaved `add`s and `remove`s: sizes
count the stored pairs, points have dimension `K`, the bounds box (possibly
stale after removals) still contains every remaining point, and a leaf
exceeds its capacity only with all points coincident and a degenerate
bounds box at the common point. -/
def sizeLF (K cap : ℕ) : KdTree T → Prop
  | .leafNode s b pts bkt capacity _ =>
    capacity = cap ∧ 0 < cap ∧ s = pts.length ∧ pts.length = bkt.length ∧
    ptsLen K pts ∧ boundsLoose K pts b ∧
    (pts.length ≤ cap ∨ (allSame pts ∧ ∀ q ∈ pts, b = some (q, q)))
  | .stemNode s _ l r _ _ _ =>
    s = l.size + r.size ∧ sizeLF K cap l ∧ sizeLF K cap r

theorem coinc_boundsSpec {K : ℕ} {pts : List Point} (hall : allSame pts)
    {x : Point} (hx : x ∈ pts) (hxl : x.length = K) :
    boundsSpec K pts (some (x, x)) := by
  refine ⟨hxl, hxl, ?_, ?_⟩
  · intro q hq i hi
    have hqe : q = x := hall q hq x hx
    subst hqe
    exact ⟨le_refl _, le_refl _⟩
  · intro i hi
    exact ⟨⟨x, hx, rfl⟩, ⟨x, hx, rfl⟩⟩

/-- The add-only invariant implies the interleaved one. -/
theorem WFadd_sizeLF {K cap : ℕ} {per : Option Point} :
    ∀ (t : KdTree T), WFadd K cap per t → sizeLF K cap t := by
  intro t
  induction t with
  | leafNode s b pts bkt capv perv =>
    intro hwf
    obtain ⟨rfl, rfl, hcap, hs, hsb, hlen, hb, hLF⟩ := hwf
    refine ⟨rfl, hcap, hs, hsb, hlen, boundsSpec_to_loose hb, ?_⟩
    rcases hLF with h | h
    · exact Or.inl h
    · refine Or.inr ⟨h, ?_⟩
      intro q hq
      exact boundsSpec_allSame hb h hq (hlen q hq)
  | stemNode s b l r sv sd perv ihl ihr =>
    intro hwf
    exact ⟨hwf.2.1, ihl hwf.2.2.1, ihr hwf.2.2.2.1⟩

/-- The drain of `split` with at most `cap + 1` pairs in total: each child
either accumulates plain appends or, exactly at the final drained pair,
overflows and performs its own exact-bounds split; no pair is ever routed
into a stem, and the resulting children are well formed with sizes summing
to the drained total. -/
theorem drainFold_full {K cap : ℕ} {per : Option Point} (g : ℕ) (sv : ℚ)
    (sd : ℕ) (hcap : 0 < cap) :
    ∀ (items : List (Point × T)) (lpts rpts : List Point)
      (lbkt rbkt : List T),
      lpts.length = lbkt.length → rpts.length = rbkt.length →
      ptsLen K lpts → ptsLen K rpts → (∀ it ∈ items, it.1.length = K) →
      lpts.length ≤ cap → rpts.length ≤ cap →
      lpts.length + rpts.length + items.length ≤ cap + 1 →
      WFadd K cap per (drainFold (g + 2) sv sd
        (.leafNode lpts.length (boundsOf lpts) lpts lbkt cap per,
         .leafNode rpts.length (boundsOf rpts) rpts rbkt cap per) items).1 ∧
      WFadd K cap per (drainFold (g + 2) sv sd
        (.leafNode lpts.length (boundsOf lpts) lpts lbkt cap per,
         .leafNode rpts.length (boundsOf rpts) rpts rbkt cap per) items).2 ∧
      (drainFold (g + 2) sv sd
        (.leafNode lpts.length (boundsOf lpts) lpts lbkt cap per,
         .leafNode rpts.length (boundsOf rpts) rpts rbkt cap per)
         items).1.size +
      (drainFold (g + 2) sv sd
        (.leafNode lpts.length (boundsOf lpts) lpts lbkt cap per,
         .leafNode rpts.length (boundsOf rpts) rpts rbkt cap per)
         items).2.size =
        lpts.length + rpts.length + items.length := by
  intro items
  induction items with
  | nil =>
    intro lpts rpts lbkt rbkt hl hr hpl hpr _ hlc hrc _
    rw [drainFold_nil]
    refine ⟨⟨rfl, rfl, hcap, rfl, hl, hpl, boundsOf_spec _ hpl, Or.inl hlc⟩,
      ⟨rfl, rfl, hcap, rfl, hr, hpr, boundsOf_spec _ hpr, Or.inl hrc⟩, ?_⟩
    simp only [KdTree.size, List.length_nil]
    omega
  | cons it rest ih =>
    intro lpts rpts lbkt rbkt hl hr hpl hpr hpi hlc hrc hbud
    have hitK : it.1.length = K := hpi it (by simp)
    have hrestK : ∀ it2 ∈ rest, it2.1.length = K :=
      fun it2 h2 => hpi it2 (by simp [h2])
    rw [drainFold_cons]
    by_cases hroute : it.1.getD sd 0 < sv
    · rw [if_pos hroute]
      by_cases hfit : lpts.length + 1 ≤ cap
      · rw [addToBucketF_fits (by omega), ← boundsOf_append,
          show lpts.length + 1 = (lpts ++ [it.1]).length by simp]
        have hres := ih (lpts ++ [it.1]) rpts (lbkt ++ [it.2]) rbkt
          (by simp [hl]) hr
          (fun q hq => by
            rcases List.mem_append.mp hq with h | h
            · exact hpl q h
            · have hqe : q = it.1 := by simpa using h
              subst hqe
              exact hitK)
          hpr hrestK (by simpa using hfit) hrc
          (by
            simp only [List.length_append, List.length_cons,
              List.length_singleton, List.length_nil] at hbud ⊢
            omega)
        refine ⟨hres.1, hres.2.1, ?_⟩
        rw [hres.2.2]
        simp only [List.length_append, List.length_cons,
          List.length_singleton, List.length_nil]
        omega
      · have hlfull : lpts.length = cap := by omega
        have hrest0 : rest.length = 0 ∧ rpts.length = 0 := by
          simp only [List.length_cons] at hbud
          omega
        have hrestnil : rest = [] := List.eq_nil_of_length_eq_zero hrest0.1
        have hrptsnil : rpts = [] := List.eq_nil_of_length_eq_zero hrest0.2
        have hrbktnil : rbkt = [] := by
          refine List.eq_nil_of_length_eq_zero ?_
          rw [← hr]
          exact hrest0.2
        subst hrestnil
        subst hrptsnil
        subst hrbktnil
        rw [drainFold_nil]
        rw [addToBucketF_over (by omega)]
        have hplen' : ptsLen K (lpts ++ [it.1]) := by
          intro q hq
          rcases List.mem_append.mp hq with h | h
          · exact hpl q h
          · have hqe : q = it.1 := by simpa using h
            subst hqe
            exact hitK
        obtain ⟨lohi', hlohi⟩ :
            ∃ x, boundsOf (lpts ++ [it.1]) = some x := by
          rw [boundsOf_append]
          cases boundsOf lpts with
          | none => exact ⟨(it.1, it.1), rfl⟩
          | some z => exact ⟨_, rfl⟩
        rw [show extendBounds (boundsOf lpts) it.1 = some lohi' from by
          rw [← boundsOf_append]; exact hlohi]
        rw [show lpts.length + 1 = (lpts ++ [it.1]).length from by simp]
        have hsp := @splitF_exact T K cap per g lohi' (lpts ++ [it.1])
          (lbkt ++ [it.2]) hcap (hlohi ▸ boundsOf_spec _ hplen') hplen'
          (by simp [hl]) (by simp [hlfull])
        refine ⟨hsp.1, ⟨rfl, rfl, hcap, rfl, rfl,
          fun q hq => absurd hq (List.not_mem_nil q),
          boundsOf_spec _ (fun q hq => absurd hq (List.not_mem_nil q)),
          Or.inl (by simp)⟩, ?_⟩
        show (splitF (g + 1) (KdTree.leafNode (lpts ++ [it.1]).length
            (some lohi') (lpts ++ [it.1]) (lbkt ++ [it.2]) cap per :
            KdTree T)).size +
          (KdTree.leafNode ([] : List Point).length (boundsOf [])
            ([] : List Point) ([] : List T) cap per : KdTree T).size =
          lpts.length + ([] : List Point).length + [it].length
        rw [hsp.2.1]
        simp only [KdTree.size, List.length_append, List.length_cons,
          List.length_singleton, List.length_nil]
    · rw [if_neg hroute]
      by_cases hfit : rpts.length + 1 ≤ cap
      · rw [addToBucketF_fits (by omega), ← boundsOf_append,
          show rpts.length + 1 = (rpts ++ [it.1]).length by simp]
        have hres := ih lpts (rpts ++ [it.1]) lbkt (rbkt ++ [it.2])
          hl (by simp [hr]) hpl
          (fun q hq => by
            rcases List.mem_append.mp hq with h | h
            · exact hpr q h
            · have hqe : q = it.1 := by simpa using h
              subst hqe
              exact hitK)
          hrestK hlc (by simpa using hfit)
          (by
            simp only [List.length_append, List.length_cons,
              List.length_singleton, List.length_nil] at hbud ⊢
            omega)
        refine ⟨hres.1, hres.2.1, ?_⟩
        rw [hres.2.2]
        simp only [List.length_append, List.length_cons,
          List.length_singleton, List.length_nil]
        omega
      · have hrfull : rpts.length = cap := by omega
        have hrest0 : rest.length = 0 ∧ lpts.length = 0 := by
          simp only [List.length_cons] at hbud
          omega
        have hrestnil : rest = [] := List.eq_nil_of_length_eq_zero hrest0.1
        have hlptsnil : lpts = [] := List.eq_nil_of_length_eq_zero hrest0.2
        have hlbktnil : lbkt = [] := by
          refine List.eq_nil_of_length_eq_zero ?_
          rw [← hl]
          exact hrest0.2
        subst hrestnil
        subst hlptsnil
        subst hlbktnil
        rw [drainFold_nil]
        rw [addToBucketF_over (by omega)]
        have hplen' : ptsLen K (rpts ++ [it.1]) := by
          intro q hq
          rcases List.mem_append.mp hq with h | h
          · exact hpr q h
          · have hqe : q = it.1 := by simpa using h
            subst hqe
            exact hitK
        obtain ⟨lohi', hlohi⟩ :
            ∃ x, boundsOf (rpts ++ [it.1]) = some x := by
          rw [boundsOf_append]
          cases boundsOf rpts with
          | none => exact ⟨(it.1, it.1), rfl⟩
          | some z => exact ⟨_, rfl⟩
        rw [show extendBounds (boundsOf rpts) it.1 = some lohi' from by
          rw [← boundsOf_append]; exact hlohi]
        rw [show rpts.length + 1 = (rpts ++ [it.1]).length from by simp]
        have hsp := @splitF_exact T K cap per g lohi' (rpts ++ [it.1])
          (rbkt ++ [it.2]) hcap (hlohi ▸ boundsOf_spec _ hplen') hplen'
          (by simp [hr]) (by simp [hrfull])
        refine ⟨⟨rfl, rfl, hcap, rfl, rfl,
          fun q hq => absurd hq (List.not_mem_nil q),
          boundsOf_spec _ (fun q hq => absurd hq (List.not_mem_nil q)),
          Or.inl (by simp)⟩, hsp.1, ?_⟩
        show (KdTree.leafNode ([] : List Point).length (boundsOf [])
            ([] : List Point) ([] : List T) cap per : KdTree T).size +
          (splitF (g + 1) (KdTree.leafNode (rpts ++ [it.1]).length
            (some lohi') (rpts ++ [it.1]) (rbkt ++ [it.2]) cap per :
            KdTree T)).size =
          ([] : List Point).length + rpts.length + [it].length
        rw [hsp.2.1]
        simp only [KdTree.size, List.length_append, List.length_cons,
          List.length_singleton, List.length_nil]
        omega

/-- `add_unchecked` preserves the interleaved invariant, even on trees whose
bounds have become stale through removals. -/
theorem addUnchecked_sizeLF {K cap : ℕ} :
    ∀ (t : KdTree T), sizeLF K cap t → ∀ (p : Point), p.length = K →
      ∀ (data : T), sizeLF K cap (t.addUnchecked p data) := by
  intro t
  induction t with
  | stemNode s b l r sv sd perv ihl ihr =>
    intro hwf p hp data
    obtain ⟨hsum, hwl, hwr⟩ := hwf
    simp only [KdTree.addUnchecked]
    by_cases hro : p.getD sd 0 < sv
    · rw [if_pos hro]
      exact ⟨by rw [addUnchecked_size]; omega, ihl hwl p hp data, hwr⟩
    · rw [if_neg hro]
      exact ⟨by rw [addUnchecked_size]; omega, hwl, ihr hwr p hp data⟩
  | leafNode s b pts bkt capv perv =>
    intro hwf p hp data
    obtain ⟨rfl, hcap, hs, hsb, hplen, hbl, hLF⟩ := hwf
    subst hs
    simp only [KdTree.addUnchecked]
    have hplen' : ptsLen K (pts ++ [p]) := by
      intro q hq
      rcases List.mem_append.mp hq with h | h
      · exact hplen q h
      · have hqe : q = p := by simpa using h
        subst hqe
        exact hp
    have hsb' : (pts ++ [p]).length = (bkt ++ [data]).length := by simp [hsb]
    have hbl' : boundsLoose K (pts ++ [p]) (extendBounds b p) :=
      extend_boundsLoose hbl hp
    by_cases hover : pts.length + 1 > capv
    · have hfuel : 2 * pts.length + 8 = (2 * pts.length + 7) + 1 := by omega
      rw [hfuel, addToBucketF_over hover]
      obtain ⟨lohi', hbs⟩ : ∃ x, extendBounds b p = some x := by
        cases b with
        | none => exact ⟨(p, p), rfl⟩
        | some z => exact ⟨_, rfl⟩
      have hbl2 : boundsLoose K (pts ++ [p]) (some lohi') := hbs ▸ hbl'
      rw [hbs]
      have hfuel2 : 2 * pts.length + 7 = (2 * pts.length + 6) + 1 := by omega
      rw [hfuel2]
      cases hsd : splitDim lohi' with
      | none =>
        rw [splitF_succ_none hsd]
        have hKlo : lohi'.1.length = K := hbl2.1
        have hKhi : lohi'.2.length = K := hbl2.2.1
        have hpin := splitDim_none hsd
        have hpinned : ∀ q ∈ pts ++ [p], ∀ i < K,
            q.getD i 0 = lohi'.1.getD i 0 := by
          intro q hq i hi
          have hc := hbl2.2.2 q hq i hi
          have h3 := hpin i (by omega)
          exact le_antisymm (by linarith [hc.2]) hc.1
        have hall : allSame (pts ++ [p]) := by
          intro q1 h1 q2 h2
          apply getD_ext (hplen' q1 h1) (hplen' q2 h2)
          intro i hi
          rw [hpinned q1 h1 i hi, hpinned q2 h2 i hi]
        have hcoinc : ∀ q ∈ pts ++ [p], some lohi' = some (q, q) := by
          intro q hq
          have hq1 : lohi'.1 = q := by
            apply getD_ext hKlo (hplen' q hq)
            intro i hi
            exact (hpinned q hq i hi).symm
          have hq2 : lohi'.2 = q := by
            apply getD_ext hKhi (hplen' q hq)
            intro i hi
            have hc := hbl2.2.2 q hq i hi
            have h3 := hpin i (by omega)
            have h4 := hpinned q hq i hi
            exact le_antisymm (by linarith) hc.2
          rw [show lohi' = (q, q) from Prod.ext hq1 hq2]
        exact ⟨rfl, hcap, by simp, hsb', hplen', hbl2,
          Or.inr ⟨hall, hcoinc⟩⟩
      | some sd =>
        by_cases hsmall : pts.length ≤ capv
        · rw [splitF_succ_some hsd]
          have hfuel3 : 2 * pts.length + 6 = (2 * pts.length + 4) + 2 := by
            omega
          rw [hfuel3]
          have hitemsK : ∀ it2 ∈
              drainSeq ((pts ++ [p]).zip (bkt ++ [data])),
              it2.1.length = K := by
            intro it2 h2
            obtain ⟨q, d⟩ := it2
            exact hplen' q (of_mem_zip ((drainSeq_perm _).subset h2)).1
          have hfull := @drainFold_full T K capv perv (2 * pts.length + 4)
            (lohi'.1.getD sd 0 + (lohi'.2.getD sd 0 - lohi'.1.getD sd 0) / 2)
            sd hcap (drainSeq ((pts ++ [p]).zip (bkt ++ [data]))) [] [] [] []
            rfl rfl (fun q hq => absurd hq (List.not_mem_nil q))
            (fun q hq => absurd hq (List.not_mem_nil q)) hitemsK
            (by simp) (by simp)
            (by
              rw [drainSeq_length, List.length_zip]
              simp only [List.length_append, List.length_cons,
                List.length_singleton, List.length_nil]
              omega)
          simp only [List.length_nil, Nat.zero_add, List.nil_append,
            boundsOf_nil] at hfull
          refine ⟨?_, WFadd_sizeLF _ hfull.1, WFadd_sizeLF _ hfull.2.1⟩
          rw [hfull.2.2, drainSeq_length, List.length_zip]
          simp only [List.length_append, List.length_cons,
            List.length_singleton, List.length_nil]
          omega
        · have hLFr : allSame pts ∧ ∀ q ∈ pts, b = some (q, q) := by
            rcases hLF with h | h
            · omega
            · exact h
          obtain ⟨hall, hcoinc⟩ := hLFr
          have hne : pts ≠ [] := by
            intro hnil
            rw [hnil] at hsmall
            simp at hsmall
          obtain ⟨x, hx⟩ := List.exists_mem_of_ne_nil pts hne
          have hbx : b = some (x, x) := hcoinc x hx
          by_cases hpx : p = x
          · exfalso
            subst hpx
            have hbex : extendBounds b p = some (p, p) := by
              rw [hbx]
              exact extendBounds_coinc p
            have hl2 : lohi' = (p, p) :=
              Option.some.inj (hbs.symm.trans hbex)
            rw [hl2] at hsd
            rw [splitDim_none_of (fun j hj => le_refl _)] at hsd
            simp at hsd
          · have hbspec : boundsSpec K pts (some (x, x)) :=
              coinc_boundsSpec hall hx (hplen x hx)
            have hbspec' : boundsSpec K (pts ++ [p]) (some lohi') := by
              have hext := extend_boundsSpec hbspec hp
              rw [← hbx, hbs] at hext
              exact hext
            have hmem2 : ∀ q ∈ pts ++ [p], q = x ∨ q = p := by
              intro q hq
              rcases List.mem_append.mp hq with h | h
              · exact Or.inl (hall q h x hx)
              · exact Or.inr (by simpa using h)
            have h1 := @splitF_twoVals T K capv perv (2 * pts.length + 6)
              lohi' (pts ++ [p]) (bkt ++ [data]) x p hcap hbspec' hplen'
              hsb' hmem2 (by simp [hx]) (by simp)
              (fun hcon => hpx hcon.symm)
            rw [show pts.length + 1 = (pts ++ [p]).length by simp]
            exact WFadd_sizeLF _ h1.1
    · rw [addToBucketF_fits hover]
      exact ⟨rfl, hcap, by simp, hsb', hplen', hbl',
        Or.inl (by simp; omega)⟩

/-! ## Size accounting of `remove` -/

theorem toQPoint_length (p : RawPoint) : (toQPoint p).length = p.length := by
  simp [toQPoint]

theorem getLast?_mem_own {α : Type _} :
    ∀ {l : List α} {x : α}, l.getLast? = some x → x ∈ l := by
  intro l
  induction l with
  | nil => intro x h; simp at h
  | cons a t ih =>
    intro x h
    cases t with
    | nil =>
      rw [List.getLast?_singleton] at h
      have hax : a = x := Option.some.inj h
      subst hax
      simp
    | cons b s =>
      rw [List.getLast?_cons_cons] at h
      exact List.mem_cons.mpr (Or.inr (ih h))

theorem mem_swapRemoveAt {α : Type _} {l : List α} {i : ℕ} {q : α}
    (h : q ∈ swapRemoveAt l i) : q ∈ l := by
  unfold swapRemoveAt at h
  by_cases hi : i < l.length
  · rw [if_pos hi] at h
    cases hl : l.getLast? with
    | none =>
      rw [hl] at h
      exact h
    | some x =>
      rw [hl] at h
      have h3 : q ∈ l.set i x := (List.dropLast_sublist _).subset h
      rcases List.mem_or_eq_of_mem_set h3 with h4 | h4
      · exact h4
      · subst h4
        exact getLast?_mem_own hl
  · rw [if_neg hi] at h
    exact h

theorem removeScanF_succ [DecidableEq T] (p : Point) (data : T)
    (fuel sz i : ℕ) (pts : List Point) (bkt : List T) :
    removeScanF p data (fuel + 1) sz i pts bkt =
      if i < sz then
        if pts.get? i = some p ∧ bkt.get? i = some data then
          ((removeScanF p data fuel (sz - 1) i (swapRemoveAt pts i)
              (swapRemoveAt bkt i)).1 + 1,
           (removeScanF p data fuel (sz - 1) i (swapRemoveAt pts i)
              (swapRemoveAt bkt i)).2)
        else removeScanF p data fuel sz (i + 1) pts bkt
      else (0, pts, bkt) := rfl

/-- The positional scan of `remove`: the number removed plus the remaining
length recovers the original length, points and bucket stay in lockstep,
and every remaining point was already present. -/
theorem removeScanF_spec [DecidableEq T] (p : Point) (data : T) :
    ∀ (fuel sz i : ℕ) (pts : List Point) (bkt : List T),
      sz = pts.length → pts.length = bkt.length → i ≤ sz →
      sz - i < fuel →
      (removeScanF p data fuel sz i pts bkt).1 +
        (removeScanF p data fuel sz i pts bkt).2.1.length = pts.length ∧
      (removeScanF p data fuel sz i pts bkt).2.1.length =
        (removeScanF p data fuel sz i pts bkt).2.2.length ∧
      (∀ q ∈ (removeScanF p data fuel sz i pts bkt).2.1, q ∈ pts) := by
  intro fuel
  induction fuel with
  | zero =>
    intro sz i pts bkt h1 h2 h3 h4
    omega
  | succ fuel ih =>
    intro sz i pts bkt h1 h2 h3 h4
    rw [removeScanF_succ]
    by_cases hi : i < sz
    · rw [if_pos hi]
      by_cases hm : pts.get? i = some p ∧ bkt.get? i = some data
      · rw [if_pos hm]
        have hlen1 : (swapRemoveAt pts i).length = pts.length - 1 :=
          swapRemoveAt_length pts i (by omega)
        have hlen2 : (swapRemoveAt bkt i).length = bkt.length - 1 :=
          swapRemoveAt_length bkt i (by omega)
        have hrec := ih (sz - 1) i (swapRemoveAt pts i) (swapRemoveAt bkt i)
          (by omega) (by omega) (by omega) (by omega)
        refine ⟨?_, hrec.2.1, ?_⟩
        · show (removeScanF p data fuel (sz - 1) i (swapRemoveAt pts i)
              (swapRemoveAt bkt i)).1 + 1 +
            (removeScanF p data fuel (sz - 1) i (swapRemoveAt pts i)
              (swapRemoveAt bkt i)).2.1.length = pts.length
          have hx := hrec.1
          rw [hlen1] at hx
          omega
        · intro q hq
          exact mem_swapRemoveAt (hrec.2.2 q hq)
      · rw [if_neg hm]
        exact ih sz (i + 1) pts bkt h1 h2 (by omega) (by omega)
    · rw [if_neg hi]
      refine ⟨?_, h2, fun q hq => hq⟩
      show 0 + pts.length = pts.length
      omega

/-- `remove` preserves the interleaved invariant and decreases the size by
exactly the returned count. -/
theorem remove_sizeLF [DecidableEq T] {K cap : ℕ} :
    ∀ (t : KdTree T) (p : RawPoint) (data : T) (c : ℕ) (t' : KdTree T),
      sizeLF K cap t → t.remove p data = .ok (c, t') →
      sizeLF K cap t' ∧ t'.size + c = t.size := by
  intro t
  induction t with
  | leafNode s b pts bkt capv perv =>
    intro p data c t' hwf hrem
    obtain ⟨rfl, hcap, hs, hsb, hplen, hbl, hLF⟩ := hwf
    subst hs
    simp only [KdTree.remove] at hrem
    cases hcp : (KdTree.leafNode pts.length b pts bkt capv perv :
        KdTree T).checkPoint p with
    | error e =>
      rw [hcp] at hrem
      simp at hrem
    | ok u =>
      rw [hcp] at hrem
      have hspec := removeScanF_spec (toQPoint p) data
        (2 * pts.length + 1) pts.length 0 pts bkt rfl hsb (by omega)
        (by omega)
      simp only [Except.ok.injEq, Prod.mk.injEq] at hrem
      obtain ⟨hc, ht'⟩ := hrem
      subst hc
      subst ht'
      have h1 : (removeScan (toQPoint p) data pts.length 0 pts bkt).1 +
          (removeScan (toQPoint p) data pts.length 0 pts bkt).2.1.length =
          pts.length := hspec.1
      have h2 : (removeScan (toQPoint p) data pts.length 0 pts bkt).2.1.length =
          (removeScan (toQPoint p) data pts.length 0 pts bkt).2.2.length :=
        hspec.2.1
      have h3 : ∀ q ∈ (removeScan (toQPoint p) data pts.length 0 pts bkt).2.1,
          q ∈ pts := hspec.2.2
      constructor
      · refine ⟨rfl, hcap, ?_, h2, ?_, boundsLoose_sub hbl h3, ?_⟩
        · show pts.length - (removeScan (toQPoint p) data pts.length
            0 pts bkt).1 = (removeScan (toQPoint p) data pts.length
            0 pts bkt).2.1.length
          omega
        · intro q hq
          exact hplen q (h3 q hq)
        · rcases hLF with h | h
          · exact Or.inl (by omega)
          · exact Or.inr ⟨allSame_sub h.1 h3, fun q hq => h.2 q (h3 q hq)⟩
      · show pts.length - (removeScan (toQPoint p) data pts.length
          0 pts bkt).1 + (removeScan (toQPoint p) data pts.length
          0 pts bkt).1 = pts.length
        omega
  | stemNode s b l r sv sd perv ihl ihr =>
    intro p data c t' hwf hrem
    obtain ⟨hsum, hwl, hwr⟩ := hwf
    simp only [KdTree.remove] at hrem
    cases hcp : (KdTree.stemNode s b l r sv sd perv :
        KdTree T).checkPoint p with
    | error e =>
      rw [hcp] at hrem
      simp at hrem
    | ok u =>
      rw [hcp] at hrem
      cases hr : r.remove p data with
      | error e =>
        rw [hr] at hrem
        simp at hrem
      | ok rres =>
        rw [hr] at hrem
        cases hl2 : l.remove p data with
        | error e =>
          rw [hl2] at hrem
          simp at hrem
        | ok lres =>
          rw [hl2] at hrem
          simp only [Except.ok.injEq, Prod.mk.injEq] at hrem
          obtain ⟨hc, ht'⟩ := hrem
          subst hc
          subst ht'
          have hR := ihr p data rres.1 rres.2 hwr (by rw [hr])
          have hL := ihl p data lres.1 lres.2 hwl (by rw [hl2])
          refine ⟨⟨?_, hL.1, hR.1⟩, ?_⟩
          · show s - rres.1 - lres.1 = lres.2.size + rres.2.size
            omega
          · show s - rres.1 - lres.1 + (rres.1 + lres.1) = s
            omega

/-! ## Interleaved operation sequences (C4) -/

/-- One user-level operation on the tree. -/
inductive Op (T : Type) where
  | addOp : RawPoint → T → Op T
  | removeOp : RawPoint → T → Op T

/-- The point supplied with an operation. -/
def opPoint : Op T → RawPoint
  | .addOp p _ => p
  | .removeOp p _ => p

/-- Apply one operation, returning the new tree, the number of successful
adds (0 or 1), and the count returned by `remove` (0 on a failed call). -/
def applyOp [DecidableEq T] (t : KdTree T) : Op T → KdTree T × ℕ × ℕ
  | .addOp p data =>
    match t.add p data with
    | .ok t' => (t', 1, 0)
    | .error _ => (t, 0, 0)
  | .removeOp p data =>
    match t.remove p data with
    | .ok ct => (ct.2, 0, ct.1)
    | .error _ => (t, 0, 0)

/-- Apply a sequence of operations, accumulating the number of successful
adds and the sum of the `remove` counts. -/
def applyOps [DecidableEq T] : KdTree T → List (Op T) → KdTree T × ℕ × ℕ
  | t, [] => (t, 0, 0)
  | t, op :: rest =>
    let st := applyOp t op
    let rst := applyOps st.1 rest
    (rst.1, st.2.1 + rst.2.1, st.2.2 + rst.2.2)

theorem applyOps_invariant [DecidableEq T] {K cap : ℕ} :
    ∀ (ops : List (Op T)) (t : KdTree T), sizeLF K cap t →
      (∀ op ∈ ops, (opPoint op).length = K) →
      sizeLF K cap (applyOps t ops).1 ∧
      (applyOps t ops).1.size + (applyOps t ops).2.2 =
        t.size + (applyOps t ops).2.1 := by
  intro ops
  induction ops with
  | nil =>
    intro t hwf _
    exact ⟨hwf, by simp [applyOps]⟩
  | cons op rest ih =>
    intro t hwf hK
    have hstep : sizeLF K cap (applyOp t op).1 ∧
        (applyOp t op).1.size + (applyOp t op).2.2 =
          t.size + (applyOp t op).2.1 := by
      cases op with
      | addOp p data =>
        simp only [applyOp]
        cases hadd : t.add p data with
        | ok t2 =>
          have ht2 : t2 = t.addUnchecked (toQPoint p) data := by
            simp only [KdTree.add] at hadd
            cases hcp : t.checkPoint p with
            | error e =>
              rw [hcp] at hadd
              simp at hadd
            | ok u =>
              rw [hcp] at hadd
              simpa using hadd.symm
          subst ht2
          have hKp : (toQPoint p).length = K := by
            rw [toQPoint_length]
            exact hK (.addOp p data) (by simp)
          show sizeLF K cap (t.addUnchecked (toQPoint p) data) ∧
            (t.addUnchecked (toQPoint p) data).size + 0 = t.size + 1
          refine ⟨addUnchecked_sizeLF t hwf (toQPoint p) hKp data, ?_⟩
          rw [addUnchecked_size]
        | error e =>
          show sizeLF K cap t ∧ t.size + 0 = t.size + 0
          exact ⟨hwf, rfl⟩
      | removeOp p data =>
        simp only [applyOp]
        cases hrem : t.remove p data with
        | ok ct =>
          have hres := remove_sizeLF t p data ct.1 ct.2 hwf (by rw [hrem])
          show sizeLF K cap ct.2 ∧ ct.2.size + ct.1 = t.size + 0
          refine ⟨hres.1, ?_⟩
          have := hres.2
          omega
        | error e =>
          show sizeLF K cap t ∧ t.size + 0 = t.size + 0
          exact ⟨hwf, rfl⟩
    have hrest := ih (applyOp t op).1 hstep.1
      (fun o ho => hK o (by simp [ho]))
    simp only [applyOps]
    refine ⟨hrest.1, ?_⟩
    have h1 := hrest.2
    have h2 := hstep.2
    omega

/-- C4: size accounting.  Starting from a constructor tree, after any
interleaved sequence of `add` and `remove` operations (with the Rust
dimension discipline: every supplied point has the tree's dimension `K`),
the tree's `size()` plus the sum of all `remove` return counts equals the
number of successful `add`s — that is, `size()` is the number of
successful adds minus the total removed. -/
theorem C4_size_accounting {T : Type} [DecidableEq T] (K cap : ℕ)
    (t0 : KdTree T)
    (h0 : withPerNodeCapacity T cap = .ok t0 ∨
      ∃ L, periodicWithPerNodeCapacity T cap L = .ok t0)
    (ops : List (Op T)) (hK : ∀ op ∈ ops, (opPoint op).length = K) :
    (applyOps t0 ops).1.size + (applyOps t0 ops).2.2 =
      (applyOps t0 ops).2.1 := by
  have hcase : 0 < cap ∧ ∃ per, t0 = .leafNode 0 none [] [] cap per := by
    rcases h0 with h | ⟨L, h⟩
    · rw [withPerNodeCapacity] at h
      by_cases hc : cap = 0
      · rw [if_pos hc] at h
        exact absurd h (by simp)
      · rw [if_neg hc] at h
        exact ⟨Nat.pos_of_ne_zero hc, none, (Except.ok.inj h).symm⟩
    · rw [periodicWithPerNodeCapacity] at h
      by_cases hc : cap = 0
      · rw [if_pos hc] at h
        exact absurd h (by simp)
      · rw [if_neg hc] at h
        exact ⟨Nat.pos_of_ne_zero hc, some L, (Except.ok.inj h).symm⟩
  obtain ⟨hcap, per, ht0⟩ := hcase
  subst ht0
  have hwf0 : sizeLF K cap (.leafNode 0 none [] [] cap per : KdTree T) :=
    ⟨rfl, hcap, rfl, rfl,
      fun q hq => absurd hq (List.not_mem_nil q), rfl, Or.inl (by simp)⟩
  have hres := applyOps_invariant ops _ hwf0 hK
  have h2 := hres.2
  rw [show (KdTree.leafNode 0 none [] [] cap per : KdTree T).size = 0
    from rfl] at h2
  omega

/-- Witness for C4 at a concrete sequence: a periodic capacity-1 tree, two
adds (the second forcing a split) and one remove. -/
theorem C4_size_accounting_witness :
    (withPerNodeCapacity ℕ 1 =
        .ok (KdTree.leafNode 0 none [] [] 1 (some [7])) ∨
      ∃ L, periodicWithPerNodeCapacity ℕ 1 L =
        .ok (KdTree.leafNode 0 none [] [] 1 (some [7]))) ∧
    (∀ op ∈ [Op.addOp [Coord.val 0] 5, Op.addOp [Coord.val 1] 6,
        Op.removeOp [Coord.val 0] 5], (opPoint op).length = 1) ∧
    (applyOps (KdTree.leafNode 0 none [] [] 1 (some [7]))
        [Op.addOp [Coord.val 0] 5, Op.addOp [Coord.val 1] 6,
         Op.removeOp [Coord.val 0] 5]).1.size +
      (applyOps (KdTree.leafNode 0 none [] [] 1 (some [7]))
        [Op.addOp [Coord.val 0] 5, Op.addOp [Coord.val 1] 6,
         Op.removeOp [Coord.val 0] 5]).2.2 =
      (applyOps (KdTree.leafNode 0 none [] [] 1 (some [7]))
        [Op.addOp [Coord.val 0] 5, Op.addOp [Coord.val 1] 6,
         Op.removeOp [Coord.val 0] 5]).2.1 :=
  ⟨Or.inr ⟨[7], by with_unfolding_all decide⟩,
    by with_unfolding_all decide,
    C4_size_accounting 1 1 (KdTree.leafNode 0 none [] [] 1 (some [7]))
      (Or.inr ⟨[7], by with_unfolding_all decide⟩)
      [Op.addOp [Coord.val 0] 5, Op.addOp [Coord.val 1] 6,
       Op.removeOp [Coord.val 0] 5]
      (by with_unfolding_all decide)⟩

/-! ## Sequences of adds (C3, C5) -/

/-- Apply one `add`, keeping the tree unchanged when validation fails (a
failed call is not a successful add). -/
def applyAdd (t : KdTree T) (pd : RawPoint × T) : KdTree T :=
  match t.add pd.1 pd.2 with
  | .ok t' => t'
  | .error _ => t

/-- Apply a sequence of `add` calls. -/
def applyAdds (t : KdTree T) (l : List (RawPoint × T)) : KdTree T :=
  l.foldl applyAdd t

/-- The split invariant of the spec: beneath every stem, the left child's
points lie strictly below the split value in the split dimension and the
right child's do not (ties right). -/
def splitOrdered : KdTree T → Prop
  | .leafNode _ _ _ _ _ _ => True
  | .stemNode _ _ l r sv sd _ =>
    (∀ pr ∈ l.pairs, pr.1.getD sd 0 < sv) ∧
    (∀ pr ∈ r.pairs, ¬ pr.1.getD sd 0 < sv) ∧
    splitOrdered l ∧ splitOrdered r

theorem WFadd_splitOrdered {K cap : ℕ} {per : Option Point} :
    ∀ (t : KdTree T), WFadd K cap per t → splitOrdered t := by
  intro t
  induction t with
  | leafNode s b pts bkt capv perv => intro _; trivial
  | stemNode s b l r sv sd perv ihl ihr =>
    intro hwf
    obtain ⟨_, _, hwl, hwr, _, _, hroutL, hroutR, _⟩ := hwf
    exact ⟨hroutL, hroutR, ihl hwl, ihr hwr⟩

/-- Every leaf exceeding its capacity holds only coincident points. -/
def leafOverflowCoincident : KdTree T → Prop
  | .leafNode _ _ pts _ capacity _ => pts.length ≤ capacity ∨ allSame pts
  | .stemNode _ _ l r _ _ _ =>
    leafOverflowCoincident l ∧ leafOverflowCoincident r

theorem WFadd_leafOverflowCoincident {K cap : ℕ} {per : Option Point} :
    ∀ (t : KdTree T), WFadd K cap per t → leafOverflowCoincident t := by
  intro t
  induction t with
  | leafNode s b pts bkt capv perv =>
    intro hwf
    obtain ⟨rfl, _, _, _, _, _, _, hLF⟩ := hwf
    exact hLF
  | stemNode s b l r sv sd perv ihl ihr =>
    intro hwf
    exact ⟨ihl hwf.2.2.1, ihr hwf.2.2.2.1⟩

theorem applyAdd_WFadd {K cap : ℕ} {per : Option Point} {t : KdTree T}
    (hwf : WFadd K cap per t) {pd : RawPoint × T} (hK : pd.1.length = K) :
    WFadd K cap per (applyAdd t pd) := by
  unfold applyAdd
  cases hadd : t.add pd.1 pd.2 with
  | ok t2 =>
    have ht2 : t2 = t.addUnchecked (toQPoint pd.1) pd.2 := by
      simp only [KdTree.add] at hadd
      cases hcp : t.checkPoint pd.1 with
      | error e =>
        rw [hcp] at hadd
        simp at hadd
      | ok u =>
        rw [hcp] at hadd
        simpa using hadd.symm
    subst ht2
    exact (addUnchecked_WFadd t hwf (toQPoint pd.1)
      (by rw [toQPoint_length]; exact hK) pd.2).1
  | error e => exact hwf

theorem applyAdds_WFadd {K cap : ℕ} {per : Option Point} :
    ∀ (l : List (RawPoint × T)) (t : KdTree T), WFadd K cap per t →
      (∀ pd ∈ l, pd.1.length = K) → WFadd K cap per (applyAdds t l) := by
  intro l
  induction l with
  | nil => intro t hwf _; exact hwf
  | cons pd rest ih =>
    intro t hwf hK
    show WFadd K cap per (applyAdds (applyAdd t pd) rest)
    exact ih _ (applyAdd_WFadd hwf (hK pd (by simp)))
      (fun q hq => hK q (by simp [hq]))

theorem constructor_WFadd {T : Type} {K cap : ℕ} {t0 : KdTree T}
    {per : Option Point}
    (h0 : t0 = .leafNode 0 none [] [] cap per) (hcap : 0 < cap) :
    WFadd K cap per t0 := by
  subst h0
  exact ⟨rfl, rfl, hcap, rfl, rfl,
    fun q hq => absurd hq (List.not_mem_nil q), rfl, Or.inl (by simp)⟩

theorem constructor_cases {T : Type} {cap : ℕ} {t0 : KdTree T}
    (h0 : withPerNodeCapacity T cap = .ok t0 ∨
      ∃ L, periodicWithPerNodeCapacity T cap L = .ok t0) :
    0 < cap ∧ ∃ per, t0 = .leafNode 0 none [] [] cap per := by
  rcases h0 with h | ⟨L, h⟩
  · rw [withPerNodeCapacity] at h
    by_cases hc : cap = 0
    · rw [if_pos hc] at h
      simp at h
    · rw [if_neg hc] at h
      exact ⟨Nat.pos_of_ne_zero hc, none, (Except.ok.inj h).symm⟩
  · rw [periodicWithPerNodeCapacity] at h
    by_cases hc : cap = 0
    · rw [if_pos hc] at h
      simp at h
    · rw [if_neg hc] at h
      exact ⟨Nat.pos_of_ne_zero hc, some L, (Except.ok.inj h).symm⟩

/-- C3: split invariant.  After any sequence of `add` calls on a
constructor tree whose supplied points all have the tree's dimension `K`,
every stem separates the points beneath it by its split plane: strictly
less than the split value (in the split dimension) on the left, greater or
equal on the right. -/
theorem C3_split_invariant {T : Type} (K cap : ℕ) (t0 : KdTree T)
    (h0 : withPerNodeCapacity T cap = .ok t0 ∨
      ∃ L, periodicWithPerNodeCapacity T cap L = .ok t0)
    (l : List (RawPoint × T)) (hK : ∀ pd ∈ l, pd.1.length = K) :
    splitOrdered (applyAdds t0 l) := by
  obtain ⟨hcap, per, ht0⟩ := constructor_cases h0
  exact WFadd_splitOrdered _
    (applyAdds_WFadd l t0 (constructor_WFadd ht0 hcap) hK)

/-- Witness for C3: capacity 1, two distinct one-dimensional points, which
forces a split. -/
theorem C3_split_invariant_witness :
    (withPerNodeCapacity ℕ 1 =
        .ok (KdTree.leafNode 0 none [] [] 1 none) ∨
      ∃ L, periodicWithPerNodeCapacity ℕ 1 L =
        .ok (KdTree.leafNode 0 none [] [] 1 none)) ∧
    (∀ pd ∈ [(([Coord.val 0] : RawPoint), 0), (([Coord.val 1] : RawPoint), 1)],
      pd.1.length = 1) ∧
    splitOrdered (applyAdds (KdTree.leafNode 0 none [] [] 1 none)
      [(([Coord.val 0] : RawPoint), 0), (([Coord.val 1] : RawPoint), 1)]) :=
  ⟨Or.inl (by with_unfolding_all decide), by with_unfolding_all decide,
    C3_split_invariant 1 1 (KdTree.leafNode 0 none [] [] 1 none)
      (Or.inl (by with_unfolding_all decide))
      [(([Coord.val 0] : RawPoint), 0), (([Coord.val 1] : RawPoint), 1)]
      (by with_unfolding_all decide)⟩

/-- Whether every leaf respects its capacity (executable form, for the C5
counterexample). -/
def leafCapsOK : KdTree T → Bool
  | .leafNode _ _ pts _ capacity _ => decide (pts.length ≤ capacity)
  | .stemNode _ _ l r _ _ _ => leafCapsOK l && leafCapsOK r

/-- C5 counterexample: two adds of the same point into a capacity-1 tree
leave a leaf holding 2 pairs — `split` finds no dimension of positive
extent for coincident points and leaves the bucket in place, so the claim
that no leaf ever exceeds its capacity after `add` returns is false. -/
theorem C5_counterexample_coincident_overflow :
    leafCapsOK (applyAdds (KdTree.leafNode 0 none [] [] 1 none : KdTree ℕ)
      [(([Coord.val 5] : RawPoint), 0), (([Coord.val 5] : RawPoint), 1)]) =
      false := by
  with_unfolding_all decide

/-- C5 (amended): after any sequence of `add` calls on a constructor tree
(points of dimension `K`), a leaf may hold more pairs than its capacity
only when all its points coincide; every other leaf respects its
capacity. -/
theorem C5_leaf_threshold_amended {T : Type} (K cap : ℕ) (t0 : KdTree T)
    (h0 : withPerNodeCapacity T cap = .ok t0 ∨
      ∃ L, periodicWithPerNodeCapacity T cap L = .ok t0)
    (l : List (RawPoint × T)) (hK : ∀ pd ∈ l, pd.1.length = K) :
    leafOverflowCoincident (applyAdds t0 l) := by
  obtain ⟨hcap, per, ht0⟩ := constructor_cases h0
  exact WFadd_leafOverflowCoincident _
    (applyAdds_WFadd l t0 (constructor_WFadd ht0 hcap) hK)

/-- Witness for the amended C5 at the counterexample input itself. -/
theorem C5_leaf_threshold_amended_witness :
    (withPerNodeCapacity ℕ 1 =
        .ok (KdTree.leafNode 0 none [] [] 1 none) ∨
      ∃ L, periodicWithPerNodeCapacity ℕ 1 L =
        .ok (KdTree.leafNode 0 none [] [] 1 none)) ∧
    (∀ pd ∈ [(([Coord.val 5] : RawPoint), 0), (([Coord.val 5] : RawPoint), 1)],
      pd.1.length = 1) ∧
    leafOverflowCoincident (applyAdds (KdTree.leafNode 0 none [] [] 1 none)
      [(([Coord.val 5] : RawPoint), 0), (([Coord.val 5] : RawPoint), 1)]) :=
  ⟨Or.inl (by with_unfolding_all decide), by with_unfolding_all decide,
    C5_leaf_threshold_amended 1 1 (KdTree.leafNode 0 none [] [] 1 none)
      (Or.inl (by with_unfolding_all decide))
      [(([Coord.val 5] : RawPoint), 0), (([Coord.val 5] : RawPoint), 1)]
      (by with_unfolding_all decide)⟩

/-! ## Query correctness machinery (C1, C8) -/

theorem getDistance_none (q p : Point) (d : Met) :
    getDistance q p d none = d q p := rfl

/-- The score `get_distance` assigns to a stored pair in non-periodic
mode. -/
def scoreOf (d : Met) (q : Point) (pr : Point × T) : ℚ × T := (d q pr.1, pr.2)

/-- The brute-force scored list of a list of stored pairs. -/
def scoresOf (d : Met) (q : Point) (l : List (Point × T)) : List (ℚ × T) :=
  l.map (scoreOf d q)

theorem scoresOf_append (d : Met) (q : Point) (l m : List (Point × T)) :
    scoresOf d q (l ++ m) = scoresOf d q l ++ scoresOf d q m :=
  List.map_append _ l m

/-- All stored pairs beneath the subtrees of a pending set. -/
def pendingPairs : List (WithTop ℚ × KdTree T) → List (Point × T)
  | [] => []
  | e :: rest => e.2.pairs ++ pendingPairs rest

theorem pendingPairs_perm {l l' : List (WithTop ℚ × KdTree T)}
    (h : l.Perm l') : (pendingPairs l).Perm (pendingPairs l') := by
  induction h with
  | nil => exact List.Perm.refl _
  | cons e h ih => exact ih.append_left e.2.pairs
  | swap a b x =>
    show (b.2.pairs ++ (a.2.pairs ++ pendingPairs x)).Perm
      (a.2.pairs ++ (b.2.pairs ++ pendingPairs x))
    rw [← List.append_assoc, ← List.append_assoc]
    exact (List.perm_append_comm.append_right (pendingPairs x))
  | trans h1 h2 ih1 ih2 => exact ih1.trans ih2

theorem WFadd_pairs_length {K cap : ℕ} {per : Option Point} :
    ∀ (t : KdTree T), WFadd K cap per t → t.pairs.length = t.size := by
  intro t
  induction t with
  | leafNode s b pts bkt capv perv =>
    intro hwf
    obtain ⟨rfl, rfl, _, hs, hsb, _, _, _⟩ := hwf
    show (pts.zip bkt).length = s
    rw [List.length_zip]
    omega
  | stemNode s b l r sv sd perv ihl ihr =>
    intro hwf
    show (l.pairs ++ r.pairs).length = s
    rw [List.length_append, ihl hwf.2.2.1, ihr hwf.2.2.2.1, hwf.2.1]

theorem WFadd_periodic {K cap : ℕ} {per : Option Point} {t : KdTree T}
    (hwf : WFadd K cap per t) : t.periodic = per := by
  cases t with
  | leafNode s b pts bkt capv perv => exact hwf.2.1
  | stemNode s b l r sv sd perv => exact hwf.1

theorem WFadd_pairs_ptsLen {K cap : ℕ} {per : Option Point} :
    ∀ (t : KdTree T), WFadd K cap per t → ∀ pr ∈ t.pairs, pr.1.length = K := by
  intro t
  induction t with
  | leafNode s b pts bkt capv perv =>
    intro hwf pr hpr
    obtain ⟨rfl, rfl, _, _, _, hlen, _, _⟩ := hwf
    obtain ⟨q2, d2⟩ := pr
    exact hlen q2 (of_mem_zip hpr).1
  | stemNode s b l r sv sd perv ihl ihr =>
    intro hwf pr hpr
    rcases List.mem_append.mp hpr with h | h
    · exact ihl hwf.2.2.1 pr h
    · exact ihr hwf.2.2.2.1 pr h

theorem WFadd_boundsSpec_pairs {K cap : ℕ} {per : Option Point}
    {t : KdTree T} (hwf : WFadd K cap per t) :
    boundsSpec K (t.pairs.map Prod.fst) t.bounds := by
  cases t with
  | leafNode s b pts bkt capv perv =>
    obtain ⟨rfl, rfl, _, hs, hsb, _, hb, _⟩ := hwf
    show boundsSpec K (((pts.zip bkt).map Prod.fst)) b
    rw [List.map_fst_zip pts bkt (by omega)]
    exact hb
  | stemNode s b l r sv sd perv => exact hwf.2.2.2.2.2.2.2.2

theorem WFadd_bounds_some {K cap : ℕ} {per : Option Point} {t : KdTree T}
    (hwf : WFadd K cap per t) (hpos : 0 < t.size) :
    ∃ lohi, t.bounds = some lohi := by
  cases hb : t.bounds with
  | some lohi => exact ⟨lohi, rfl⟩
  | none =>
    exfalso
    have hbs := WFadd_boundsSpec_pairs hwf
    rw [hb] at hbs
    have hnil : t.pairs.map Prod.fst = [] := hbs
    have hlen := WFadd_pairs_length t hwf
    rw [← List.length_map t.pairs Prod.fst, hnil] at hlen
    simp at hlen
    omega

/-- With the prune-soundness of the metric (the axis-aligned box distance
never exceeds the distance to a point inside the box), the bound stored
with a pending subtree is below the score of every pair beneath it. -/
theorem entry_bound {K cap : ℕ} {per : Option Point} {q : Point} {d : Met}
    (hprune : ∀ (lo hi p : Point), lo.length = K → hi.length = K →
      p.length = K → (∀ i < K, lo.getD i 0 ≤ p.getD i 0 ∧
        p.getD i 0 ≤ hi.getD i 0) →
      d q (clampToBounds q lo hi) ≤ d q p)
    {C : KdTree T} (hwf : WFadd K cap per C) (hpos : 0 < C.size) :
    ∀ pr ∈ C.pairs, distanceToSpace q C.bounds d ≤ ((d q pr.1 : ℚ) : WithTop ℚ) := by
  intro pr hpr
  obtain ⟨lohi, hlohi⟩ := WFadd_bounds_some hwf hpos
  have hbs := WFadd_boundsSpec_pairs hwf
  rw [hlohi] at hbs ⊢
  obtain ⟨h1, h2, h3, _⟩ := hbs
  show ((d q (clampToBounds q lohi.1 lohi.2) : ℚ) : WithTop ℚ) ≤ _
  have hcont := h3 pr.1 (List.mem_map.mpr ⟨pr, hpr, rfl⟩)
  have hKpr : pr.1.length = K := WFadd_pairs_ptsLen C hwf pr hpr
  exact_mod_cast hprune lohi.1 lohi.2 pr.1 h1 h2 hKpr hcont

theorem perm_pp_shuffle {α : Type _} (A P L : List α) :
    ((A ++ P) ++ L).Perm (P ++ (L ++ A)) := by
  refine (List.perm_append_comm.append_right L).trans ?_
  rw [List.append_assoc]
  exact List.perm_append_comm.append_left P

/-- `populate_pending` with an infinite `max_dist` (the `nearest` loops):
no sibling is ever pruned, so the pending set plus the reached leaf hold
exactly the pairs of the old pending set plus the descended subtree. -/
theorem populatePending_top {K cap : ℕ} {per : Option Point} (q : Point)
    (d : Met) :
    ∀ (t : KdTree T), WFadd K cap per t → 0 < t.size →
      ∀ (pending : List (WithTop ℚ × KdTree T)),
        (∀ e ∈ pending, WFadd K cap per e.2 ∧ 0 < e.2.size) →
        (∀ e ∈ (populatePending q ⊤ d pending t).1,
          WFadd K cap per e.2 ∧ 0 < e.2.size) ∧
        WFadd K cap per (populatePending q ⊤ d pending t).2 ∧
        0 < (populatePending q ⊤ d pending t).2.size ∧
        (pendingPairs (populatePending q ⊤ d pending t).1 ++
          (populatePending q ⊤ d pending t).2.pairs).Perm
          (pendingPairs pending ++ t.pairs) := by
  intro t
  induction t with
  | leafNode s b pts bkt capv perv =>
    intro hwf hpos pending hpend
    exact ⟨hpend, hwf, hpos, List.Perm.refl _⟩
  | stemNode s b lch rch sv sd perv ihl ihr =>
    intro hwf hpos pending hpend
    obtain ⟨hper, hsum, hwl, hwr, hlpos, hrpos, _, _, _⟩ := hwf
    by_cases hb : q.getD sd 0 < sv
    · have heq : populatePending q ⊤ d pending
          (.stemNode s b lch rch sv sd perv : KdTree T) =
          populatePending q ⊤ d
            ((distanceToSpace q rch.bounds d, rch) :: pending) lch := by
        simp only [populatePending]
        rw [if_pos hb, if_pos le_top]
      rw [heq]
      have hih := ihl hwl hlpos
        ((distanceToSpace q rch.bounds d, rch) :: pending)
        (by
          intro e he
          rcases List.mem_cons.mp he with rfl | he
          · exact ⟨hwr, hrpos⟩
          · exact hpend e he)
      refine ⟨hih.1, hih.2.1, hih.2.2.1, ?_⟩
      refine hih.2.2.2.trans ?_
      show ((rch.pairs ++ pendingPairs pending) ++ lch.pairs).Perm
        (pendingPairs pending ++ (lch.pairs ++ rch.pairs))
      exact perm_pp_shuffle rch.pairs (pendingPairs pending) lch.pairs
    · have heq : populatePending q ⊤ d pending
          (.stemNode s b lch rch sv sd perv : KdTree T) =
          populatePending q ⊤ d
            ((distanceToSpace q lch.bounds d, lch) :: pending) rch := by
        simp only [populatePending]
        rw [if_neg hb, if_pos le_top]
      rw [heq]
      have hih := ihr hwr hrpos
        ((distanceToSpace q lch.bounds d, lch) :: pending)
        (by
          intro e he
          rcases List.mem_cons.mp he with rfl | he
          · exact ⟨hwl, hlpos⟩
          · exact hpend e he)
      refine ⟨hih.1, hih.2.1, hih.2.2.1, ?_⟩
      refine hih.2.2.2.trans ?_
      show ((lch.pairs ++ pendingPairs pending) ++ rch.pairs).Perm
        (pendingPairs pending ++ (lch.pairs ++ rch.pairs))
      refine (perm_pp_shuffle lch.pairs (pendingPairs pending)
        rch.pairs).trans ?_
      exact List.perm_append_comm.append_left (pendingPairs pending)

/-- `populate_pending` with a finite `max_dist` and a prune-sound metric:
the pruned siblings hold only pairs scored strictly beyond `max_dist`, and
every kept pending entry is keyed below the scores of its pairs. -/
theorem populatePending_prune {K cap : ℕ} {per : Option Point} (q : Point)
    (d : Met) (md : WithTop ℚ)
    (hprune : ∀ (lo hi p : Point), lo.length = K → hi.length = K →
      p.length = K → (∀ i < K, lo.getD i 0 ≤ p.getD i 0 ∧
        p.getD i 0 ≤ hi.getD i 0) →
      d q (clampToBounds q lo hi) ≤ d q p) :
    ∀ (t : KdTree T), WFadd K cap per t → 0 < t.size →
      ∀ (pending : List (WithTop ℚ × KdTree T)),
        (∀ e ∈ pending, WFadd K cap per e.2 ∧ 0 < e.2.size ∧
          ∀ pr ∈ e.2.pairs, e.1 ≤ ((d q pr.1 : ℚ) : WithTop ℚ)) →
        (∀ e ∈ (populatePending q md d pending t).1,
          WFadd K cap per e.2 ∧ 0 < e.2.size ∧
          ∀ pr ∈ e.2.pairs, e.1 ≤ ((d q pr.1 : ℚ) : WithTop ℚ)) ∧
        WFadd K cap per (populatePending q md d pending t).2 ∧
        0 < (populatePending q md d pending t).2.size ∧
        ∃ dropped : List (Point × T),
          (pendingPairs (populatePending q md d pending t).1 ++
            (populatePending q md d pending t).2.pairs ++ dropped).Perm
            (pendingPairs pending ++ t.pairs) ∧
          ∀ pr ∈ dropped, md < ((d q pr.1 : ℚ) : WithTop ℚ) := by
  intro t
  induction t with
  | leafNode s b pts bkt capv perv =>
    intro hwf hpos pending hpend
    refine ⟨hpend, hwf, hpos, [], ?_, fun pr hpr => absurd hpr
      (List.not_mem_nil pr)⟩
    rw [List.append_nil]
    exact List.Perm.refl _
  | stemNode s b lch rch sv sd perv ihl ihr =>
    intro hwf hpos pending hpend
    obtain ⟨hper, hsum, hwl, hwr, hlpos, hrpos, _, _, _⟩ := hwf
    by_cases hb : q.getD sd 0 < sv
    · by_cases hc : distanceToSpace q rch.bounds d ≤ md
      · have heq : populatePending q md d pending
            (.stemNode s b lch rch sv sd perv : KdTree T) =
            populatePending q md d
              ((distanceToSpace q rch.bounds d, rch) :: pending) lch := by
          simp only [populatePending]
          rw [if_pos hb, if_pos hc]
        rw [heq]
        have hih := ihl hwl hlpos
          ((distanceToSpace q rch.bounds d, rch) :: pending)
          (by
            intro e he
            rcases List.mem_cons.mp he with rfl | he
            · exact ⟨hwr, hrpos, entry_bound hprune hwr hrpos⟩
            · exact hpend e he)
        obtain ⟨hp1, hp2, hp3, dropped, hperm, hdrop⟩ := hih
        refine ⟨hp1, hp2, hp3, dropped, ?_, hdrop⟩
        refine hperm.trans ?_
        show ((rch.pairs ++ pendingPairs pending) ++ lch.pairs).Perm
          (pendingPairs pending ++ (lch.pairs ++ rch.pairs))
        exact perm_pp_shuffle rch.pairs (pendingPairs pending) lch.pairs
      · have heq : populatePending q md d pending
            (.stemNode s b lch rch sv sd perv : KdTree T) =
            populatePending q md d pending lch := by
          simp only [populatePending]
          rw [if_pos hb, if_neg hc]
        rw [heq]
        have hih := ihl hwl hlpos pending hpend
        obtain ⟨hp1, hp2, hp3, dropped, hperm, hdrop⟩ := hih
        refine ⟨hp1, hp2, hp3, dropped ++ rch.pairs, ?_, ?_⟩
        · rw [← List.append_assoc]
          refine ((hperm.append_right rch.pairs).trans ?_)
          show ((pendingPairs pending ++ lch.pairs) ++ rch.pairs).Perm
            (pendingPairs pending ++ (lch.pairs ++ rch.pairs))
          rw [List.append_assoc]
        · intro pr hpr
          rcases List.mem_append.mp hpr with h | h
          · exact hdrop pr h
          · exact lt_of_lt_of_le (not_le.mp hc)
              (entry_bound hprune hwr hrpos pr h)
    · by_cases hc : distanceToSpace q lch.bounds d ≤ md
      · have heq : populatePending q md d pending
            (.stemNode s b lch rch sv sd perv : KdTree T) =
            populatePending q md d
              ((distanceToSpace q lch.bounds d, lch) :: pending) rch := by
          simp only [populatePending]
          rw [if_neg hb, if_pos hc]
        rw [heq]
        have hih := ihr hwr hrpos
          ((distanceToSpace q lch.bounds d, lch) :: pending)
          (by
            intro e he
            rcases List.mem_cons.mp he with rfl | he
            · exact ⟨hwl, hlpos, entry_bound hprune hwl hlpos⟩
            · exact hpend e he)
        obtain ⟨hp1, hp2, hp3, dropped, hperm, hdrop⟩ := hih
        refine ⟨hp1, hp2, hp3, dropped, ?_, hdrop⟩
        refine hperm.trans ?_
        show ((lch.pairs ++ pendingPairs pending) ++ rch.pairs).Perm
          (pendingPairs pending ++ (lch.pairs ++ rch.pairs))
        refine (perm_pp_shuffle lch.pairs (pendingPairs pending)
          rch.pairs).trans ?_
        exact List.perm_append_comm.append_left (pendingPairs pending)
      · have heq : populatePending q md d pending
            (.stemNode s b lch rch sv sd perv : KdTree T) =
            populatePending q md d pending rch := by
          simp only [populatePending]
          rw [if_neg hb, if_neg hc]
        rw [heq]
        have hih := ihr hwr hrpos pending hpend
        obtain ⟨hp1, hp2, hp3, dropped, hperm, hdrop⟩ := hih
        refine ⟨hp1, hp2, hp3, dropped ++ lch.pairs, ?_, ?_⟩
        · rw [← List.append_assoc]
          refine ((hperm.append_right lch.pairs).trans ?_)
          show ((pendingPairs pending ++ rch.pairs) ++ lch.pairs).Perm
            (pendingPairs pending ++ (lch.pairs ++ rch.pairs))
          rw [List.append_assoc]
          refine List.Perm.append_left (pendingPairs pending) ?_
          exact List.perm_append_comm
        · intro pr hpr
          rcases List.mem_append.mp hpr with h | h
          · exact hdrop pr h
          · exact lt_of_lt_of_le (not_le.mp hc)
              (entry_bound hprune hwl hlpos pr h)

instance : IsTotal (ℚ × T) (fun a b => a.1 ≤ b.1) :=
  ⟨fun a b => le_total a.1 b.1⟩

instance : IsTrans (ℚ × T) (fun a b => a.1 ≤ b.1) :=
  ⟨fun a b c hab hbc => le_trans hab hbc⟩

theorem mem_pendingPairs {pr : Point × T} :
    ∀ {l : List (WithTop ℚ × KdTree T)}, pr ∈ pendingPairs l →
      ∃ e ∈ l, pr ∈ e.2.pairs := by
  intro l
  induction l with
  | nil => intro h; exact absurd h (List.not_mem_nil pr)
  | cons e rest ih =>
    intro h
    rw [show pendingPairs (e :: rest) = e.2.pairs ++ pendingPairs rest
      from rfl] at h
    rcases List.mem_append.mp h with h | h
    · exact ⟨e, List.mem_cons_self e rest, h⟩
    · obtain ⟨f, hf, hfp⟩ := ih h
      exact ⟨f, List.mem_cons_of_mem e hf, hfp⟩

/-- The leaf fold of `nearest_step` while the evaluated heap cannot fill up:
every pair within `max_dist` is pushed (no replacement ever fires), so the
result is the filtered scored list, reversed, in front of the accumulator. -/
theorem leafFold_eq (q : Point) (num : ℕ) (md : WithTop ℚ) (d : Met) :
    ∀ (l : List (Point × T)) (ev : List (ℚ × T)), ev.length + l.length ≤ num →
      l.foldl (fun (ev : List (ℚ × T)) (pb : Point × T) =>
        let dist := getDistance q pb.1 d (none : Option Point)
        if (dist : WithTop ℚ) ≤ md then
          if ev.length < num then (dist, pb.2) :: ev
          else replaceTop (dist, pb.2) ev
        else ev) ev =
      ((scoresOf d q l).filter
        (fun x => decide (((x.1 : ℚ) : WithTop ℚ) ≤ md))).reverse ++ ev := by
  intro l
  induction l with
  | nil => intro ev h; simp [scoresOf]
  | cons pb rest ih =>
    intro ev h
    have hlen : (pb :: rest).length = rest.length + 1 := by simp
    have hstep : (let dist := getDistance q pb.1 d (none : Option Point)
        if (dist : WithTop ℚ) ≤ md then
          if ev.length < num then (dist, pb.2) :: ev
          else replaceTop (dist, pb.2) ev
        else ev) =
        if ((d q pb.1 : ℚ) : WithTop ℚ) ≤ md then
          (if ev.length < num then (d q pb.1, pb.2) :: ev
           else replaceTop (d q pb.1, pb.2) ev)
        else ev := rfl
    rw [List.foldl_cons, hstep]
    by_cases hd : ((d q pb.1 : ℚ) : WithTop ℚ) ≤ md
    · rw [if_pos hd, if_pos (by rw [hlen] at h; omega)]
      rw [show scoresOf d q (pb :: rest) =
        scoreOf d q pb :: scoresOf d q rest from rfl,
        @List.filter_cons_of_pos _ (fun x => decide (((x.1 : ℚ) :
          WithTop ℚ) ≤ md)) (scoreOf d q pb) (scoresOf d q rest)
          (decide_eq_true hd), List.reverse_cons,
        List.append_assoc, List.singleton_append]
      exact ih ((d q pb.1, pb.2) :: ev) (by rw [hlen] at h; simp; omega)
    · rw [if_neg hd]
      rw [show scoresOf d q (pb :: rest) =
        scoreOf d q pb :: scoresOf d q rest from rfl,
        @List.filter_cons_of_neg _ (fun x => decide (((x.1 : ℚ) :
          WithTop ℚ) ≤ md)) (scoreOf d q pb) (scoresOf d q rest)
          (fun hc => hd (of_decide_eq_true hc))]
      exact ih ev (by rw [hlen] at h; omega)

/-- The leaf-processing of `nearest_step` in non-periodic mode while the
evaluated heap cannot fill up, as an exact list equation. -/
theorem nearestStepLeaf_eq (q : Point) (num : ℕ) (md : WithTop ℚ) (d : Met)
    (pts : List Point) (bkt : List T) (ev : List (ℚ × T))
    (h : ev.length + (pts.zip bkt).length ≤ num) :
    nearestStepLeaf none q num md d pts bkt ev =
      ((scoresOf d q (pts.zip bkt)).filter
        (fun x => decide (((x.1 : ℚ) : WithTop ℚ) ≤ md))).reverse ++ ev := by
  unfold nearestStepLeaf
  exact leafFold_eq q num md d (pts.zip bkt) ev h

theorem perm_step_assemble {α : Type _} (ev Fk Fd X D S PP : List α)
    (hS : (Fk ++ Fd).Perm S)
    (hX : ((X ++ S) ++ D).Perm PP) :
    (((Fk.reverse ++ ev) ++ X) ++ (D ++ Fd)).Perm (ev ++ PP) := by
  refine List.Perm.trans ?_ (hX.append_left ev)
  refine List.Perm.trans
    ((((List.reverse_perm Fk).append_right ev).append_right X).append_right
      (D ++ Fd)) ?_
  refine List.Perm.trans ((perm_pp_shuffle Fk ev X).append_right (D ++ Fd)) ?_
  rw [List.append_assoc]
  refine List.Perm.append_left ev ?_
  rw [List.append_assoc, List.append_assoc]
  refine List.Perm.append_left X ?_
  refine List.Perm.trans (List.Perm.append_left Fk List.perm_append_comm) ?_
  rw [← List.append_assoc]
  exact hS.append_right D

/-- One `nearest_step` with an infinite `max_dist` on a well-formed pending
set: entries stay well formed, and the evaluated heap together with the
pairs still pending holds exactly what it held before the step. -/
theorem nearestStep_run_top {K cap : ℕ} (q : Point) (d : Met) (num : ℕ)
    (pending : List (WithTop ℚ × KdTree T)) (evaluated : List (ℚ × T))
    (hpend : ∀ e ∈ pending, WFadd K cap (none : Option Point) e.2 ∧
      0 < e.2.size)
    (hne : pending ≠ [])
    (hlen : evaluated.length + (pendingPairs pending).length ≤ num) :
    (∀ e ∈ (nearestStep none q num ⊤ d pending evaluated).1,
      WFadd K cap (none : Option Point) e.2 ∧ 0 < e.2.size) ∧
    ((nearestStep none q num ⊤ d pending evaluated).2 ++
      scoresOf d q
        (pendingPairs (nearestStep none q num ⊤ d pending evaluated).1)).Perm
      (evaluated ++ scoresOf d q (pendingPairs pending)) := by
  unfold nearestStep
  cases hp : popFirstMinBy (fun x => x.1) pending with
  | none => exact absurd (popFirstMinBy_none hp) hne
  | some xr =>
    obtain ⟨top, rest⟩ := xr
    have hperm := popFirstMinBy_perm hp
    have htop := hpend top (hperm.mem_iff.mpr (List.mem_cons_self top rest))
    have hrest : ∀ e ∈ rest, WFadd K cap (none : Option Point) e.2 ∧
        0 < e.2.size :=
      fun e he => hpend e (hperm.mem_iff.mpr (List.mem_cons_of_mem top he))
    have hpp := populatePending_top q d top.2 htop.1 htop.2 rest hrest
    obtain ⟨hE, hWFleaf, hposleaf, hperm0⟩ := hpp
    have hppperm : (pendingPairs pending).Perm
        (top.2.pairs ++ pendingPairs rest) := pendingPairs_perm hperm
    rcases hleaf : (populatePending q ⊤ d rest top.2).2 with
      ⟨s2, b2, pts2, bkt2, cap2, per2⟩ | ⟨s2, b2, l2, r2, sv2, sd2, per2⟩
    · simp only [hleaf]
      rw [hleaf] at hperm0
      have hpairs2 : (KdTree.leafNode s2 b2 pts2 bkt2 cap2 per2 :
          KdTree T).pairs = pts2.zip bkt2 := rfl
      rw [hpairs2] at hperm0
      have hlenleaf : evaluated.length + (pts2.zip bkt2).length ≤ num := by
        have h1 := hperm0.length_eq
        have h2 := hppperm.length_eq
        simp only [List.length_append] at h1 h2
        omega
      refine ⟨hE, ?_⟩
      rw [nearestStepLeaf_eq q num ⊤ d pts2 bkt2 evaluated hlenleaf]
      rw [List.filter_eq_self.mpr (fun x _ => decide_eq_true le_top)]
      have hS : ((scoresOf d q (pts2.zip bkt2)) ++
          ([] : List (ℚ × T))).Perm (scoresOf d q (pts2.zip bkt2)) := by
        rw [List.append_nil]
      have hX : ((scoresOf d q
            (pendingPairs (populatePending q ⊤ d rest top.2).1) ++
          scoresOf d q (pts2.zip bkt2)) ++ ([] : List (ℚ × T))).Perm
          (scoresOf d q (pendingPairs pending)) := by
        rw [List.append_nil, ← scoresOf_append]
        exact (hperm0.map (scoreOf d q)).trans
          ((List.perm_append_comm.trans hppperm.symm).map (scoreOf d q))
      have := perm_step_assemble evaluated (scoresOf d q (pts2.zip bkt2))
        ([] : List (ℚ × T))
        (scoresOf d q (pendingPairs (populatePending q ⊤ d rest top.2).1))
        ([] : List (ℚ × T)) (scoresOf d q (pts2.zip bkt2))
        (scoresOf d q (pendingPairs pending)) hS hX
      rw [List.append_nil, List.append_nil] at this
      exact this
    · exfalso
      have hil := populatePending_isLeaf q ⊤ d top.2 rest
      rw [hleaf] at hil
      simp [KdTree.isLeaf] at hil

/-- One `nearest_step` with a finite `max_dist` and a prune-sound metric:
entries keep their lower-bound keys, every element discarded by pruning or
by the `max_dist` filter is scored strictly beyond `max_dist`, and every
element kept was either already held or lies within `max_dist`. -/
theorem nearestStep_run_prune {K cap : ℕ} {q : Point} {d : Met}
    (hprune : ∀ (lo hi p : Point), lo.length = K → hi.length = K →
      p.length = K → (∀ i < K, lo.getD i 0 ≤ p.getD i 0 ∧
        p.getD i 0 ≤ hi.getD i 0) →
      d q (clampToBounds q lo hi) ≤ d q p)
    (num : ℕ) (md : WithTop ℚ)
    (pending : List (WithTop ℚ × KdTree T)) (evaluated : List (ℚ × T))
    (hpend : ∀ e ∈ pending, WFadd K cap (none : Option Point) e.2 ∧
      0 < e.2.size ∧ ∀ pr ∈ e.2.pairs, e.1 ≤ ((d q pr.1 : ℚ) : WithTop ℚ))
    (hne : pending ≠ [])
    (hlen : evaluated.length + (pendingPairs pending).length ≤ num) :
    (∀ e ∈ (nearestStep none q num md d pending evaluated).1,
      WFadd K cap (none : Option Point) e.2 ∧ 0 < e.2.size ∧
      ∀ pr ∈ e.2.pairs, e.1 ≤ ((d q pr.1 : ℚ) : WithTop ℚ)) ∧
    ∃ dropped : List (ℚ × T),
      ((nearestStep none q num md d pending evaluated).2 ++
        scoresOf d q
          (pendingPairs (nearestStep none q num md d pending evaluated).1) ++
        dropped).Perm (evaluated ++ scoresOf d q (pendingPairs pending)) ∧
      (∀ x ∈ dropped, md < ((x.1 : ℚ) : WithTop ℚ)) ∧
      (∀ x ∈ (nearestStep none q num md d pending evaluated).2,
        x ∈ evaluated ∨ ((x.1 : ℚ) : WithTop ℚ) ≤ md) := by
  unfold nearestStep
  cases hp : popFirstMinBy (fun x => x.1) pending with
  | none => exact absurd (popFirstMinBy_none hp) hne
  | some xr =>
    obtain ⟨top, rest⟩ := xr
    have hperm := popFirstMinBy_perm hp
    have htop := hpend top (hperm.mem_iff.mpr (List.mem_cons_self top rest))
    have hrest : ∀ e ∈ rest, WFadd K cap (none : Option Point) e.2 ∧
        0 < e.2.size ∧ ∀ pr ∈ e.2.pairs, e.1 ≤ ((d q pr.1 : ℚ) : WithTop ℚ) :=
      fun e he => hpend e (hperm.mem_iff.mpr (List.mem_cons_of_mem top he))
    have hpp := populatePending_prune q d md hprune top.2 htop.1 htop.2.1
      rest hrest
    obtain ⟨hE, hWFleaf, hposleaf, dropped0, hperm0, hdrop0⟩ := hpp
    have hppperm : (pendingPairs pending).Perm
        (top.2.pairs ++ pendingPairs rest) := pendingPairs_perm hperm
    rcases hleaf : (populatePending q md d rest top.2).2 with
      ⟨s2, b2, pts2, bkt2, cap2, per2⟩ | ⟨s2, b2, l2, r2, sv2, sd2, per2⟩
    · simp only [hleaf]
      rw [hleaf] at hperm0
      have hpairs2 : (KdTree.leafNode s2 b2 pts2 bkt2 cap2 per2 :
          KdTree T).pairs = pts2.zip bkt2 := rfl
      rw [hpairs2] at hperm0
      have hlenleaf : evaluated.length + (pts2.zip bkt2).length ≤ num := by
        have h1 := hperm0.length_eq
        have h2 := hppperm.length_eq
        simp only [List.length_append] at h1 h2
        omega
      refine ⟨hE, ?_⟩
      refine ⟨scoresOf d q dropped0 ++ ((scoresOf d q (pts2.zip bkt2)).filter
        (fun x => ! decide (((x.1 : ℚ) : WithTop ℚ) ≤ md))), ?_, ?_, ?_⟩
      · rw [nearestStepLeaf_eq q num md d pts2 bkt2 evaluated hlenleaf]
        refine perm_step_assemble evaluated _ _ _ _
          (scoresOf d q (pts2.zip bkt2))
          (scoresOf d q (pendingPairs pending))
          (List.filter_append_perm _ _) ?_
        rw [← scoresOf_append, ← scoresOf_append]
        exact (hperm0.map (scoreOf d q)).trans
          ((List.perm_append_comm.trans hppperm.symm).map (scoreOf d q))
      · intro x hx
        rcases List.mem_append.mp hx with hx | hx
        · obtain ⟨pr, hpr, rfl⟩ := List.mem_map.mp hx
          exact hdrop0 pr hpr
        · have := (List.mem_filter.mp hx).2
          simp only [Bool.not_eq_eq_eq_not, Bool.not_true,
            decide_eq_false_iff_not] at this
          exact not_le.mp this
      · intro x hx
        rw [nearestStepLeaf_eq q num md d pts2 bkt2 evaluated hlenleaf] at hx
        rcases List.mem_append.mp hx with hx | hx
        · right
          have := (List.mem_filter.mp (List.mem_reverse.mp hx)).2
          exact of_decide_eq_true this
        · exact Or.inl hx
    · exfalso
      have hil := populatePending_isLeaf q md d top.2 rest
      rw [hleaf] at hil
      simp [KdTree.isLeaf] at hil

theorem pendingPairs_pos {pending : List (WithTop ℚ × KdTree T)}
    (hpend : ∀ e ∈ pending, 0 < e.2.pairs.length)
    (hne : pending ≠ []) : 0 < (pendingPairs pending).length := by
  cases pending with
  | nil => exact absurd rfl hne
  | cons e rest =>
    have he := hpend e (List.mem_cons_self e rest)
    rw [show pendingPairs (e :: rest) = e.2.pairs ++ pendingPairs rest
      from rfl, List.length_append]
    omega

/-- The total evaluated list accumulated by running the pending set to
exhaustion with an infinite `max_dist` (proof scaffolding: the common core
of the `nearest` loop at full capacity and of `NearestIter`). -/
def fullE (d : Met) (q : Point) :
    ℕ → List (WithTop ℚ × KdTree T) → List (ℚ × T) → List (ℚ × T)
  | 0, _, ev => ev
  | fuel + 1, pending, ev =>
    match popFirstMinBy (fun x => x.1) pending with
    | none => ev
    | some (top, rest) =>
      match (populatePending q ⊤ d rest top.2).2 with
      | .leafNode _ _ pts bkt _ _ =>
        fullE d q fuel (populatePending q ⊤ d rest top.2).1
          ((scoresOf d q (pts.zip bkt)).reverse ++ ev)
      | _ => fullE d q fuel (populatePending q ⊤ d rest top.2).1 ev

theorem popPopulate_weight (q : Point) (md : WithTop ℚ) (d : Met)
    {pending : List (WithTop ℚ × KdTree T)} {top : WithTop ℚ × KdTree T}
    {rest : List (WithTop ℚ × KdTree T)}
    (hp : popFirstMinBy (fun x => x.1) pending = some (top, rest)) :
    pendingWeight (populatePending q md d rest top.2).1 <
      pendingWeight pending := by
  have hwp : pendingWeight pending = top.2.numNodes + pendingWeight rest := by
    rw [pendingWeight_perm (popFirstMinBy_perm hp)]
    simp
  have h1 := populatePending_weight q md d top.2 rest
  have h2 := KdTree.numNodes_pos (populatePending q md d rest top.2).2
  omega

theorem fullE_irrel (d : Met) (q : Point) :
    ∀ (f : ℕ), ∀ (g : ℕ) (pending : List (WithTop ℚ × KdTree T))
      (ev : List (ℚ × T)), pendingWeight pending < f →
      pendingWeight pending < g →
      fullE d q f pending ev = fullE d q g pending ev := by
  intro f
  induction f with
  | zero => intro g pending ev h _; omega
  | succ f ih =>
    intro g pending ev hf hg
    cases g with
    | zero => omega
    | succ g =>
      cases hp : popFirstMinBy (fun x => x.1) pending with
      | none =>
        simp only [fullE, hp]
      | some xr =>
        obtain ⟨top, rest⟩ := xr
        have hw := popPopulate_weight q ⊤ d hp
        rcases hleaf : (populatePending q ⊤ d rest top.2).2 with
          ⟨s2, b2, pts2, bkt2, cap2, per2⟩ |
          ⟨s2, b2, l2, r2, sv2, sd2, per2⟩ <;>
          simp only [fullE, hp, hleaf] <;>
          exact ih g _ _ (by omega) (by omega)

theorem fullE_factor (d : Met) (q : Point) :
    ∀ (f : ℕ) (pending : List (WithTop ℚ × KdTree T)) (ev : List (ℚ × T)),
      pendingWeight pending < f →
      fullE d q f pending ev = fullE d q f pending [] ++ ev := by
  intro f
  induction f with
  | zero => intro pending ev h; omega
  | succ f ih =>
    intro pending ev hf
    cases hp : popFirstMinBy (fun x => x.1) pending with
    | none => simp only [fullE, hp, List.nil_append]
    | some xr =>
      obtain ⟨top, rest⟩ := xr
      have hw := popPopulate_weight q ⊤ d hp
      rcases hleaf : (populatePending q ⊤ d rest top.2).2 with
        ⟨s2, b2, pts2, bkt2, cap2, per2⟩ |
        ⟨s2, b2, l2, r2, sv2, sd2, per2⟩
      · simp only [fullE, hp, hleaf]
        rw [ih _ _ (by omega),
          ih _ ((scoresOf d q (pts2.zip bkt2)).reverse ++ []) (by omega),
          List.append_nil, List.append_assoc]
      · simp only [fullE, hp, hleaf]
        exact ih _ _ (by omega)

theorem perm_top_assemble {α : Type _} (ev S X PP : List α)
    (hX : (X ++ S).Perm PP) :
    ((S.reverse ++ ev) ++ X).Perm (ev ++ PP) := by
  refine List.Perm.trans
    (((List.reverse_perm S).append_right ev).append_right X) ?_
  exact (perm_pp_shuffle S ev X).trans (hX.append_left ev)

/-- Running the pending set to exhaustion evaluates exactly the pairs
beneath it, in some order. -/
theorem fullE_perm {K cap : ℕ} (q : Point) (d : Met) :
    ∀ (fuel : ℕ) (pending : List (WithTop ℚ × KdTree T))
      (ev : List (ℚ × T)),
      (∀ e ∈ pending, WFadd K cap (none : Option Point) e.2 ∧
        0 < e.2.size) →
      pendingWeight pending < fuel →
      (fullE d q fuel pending ev).Perm
        (ev ++ scoresOf d q (pendingPairs pending)) := by
  intro fuel
  induction fuel with
  | zero => intro pending ev _ h; omega
  | succ fuel ih =>
    intro pending ev hpend hw
    cases hp : popFirstMinBy (fun x => x.1) pending with
    | none =>
      have hnil : pending = [] := popFirstMinBy_none hp
      subst hnil
      simp only [fullE, hp]
      rw [show pendingPairs ([] : List (WithTop ℚ × KdTree T)) = [] from rfl]
      rw [show scoresOf d q [] = [] from rfl, List.append_nil]
    | some xr =>
      obtain ⟨top, rest⟩ := xr
      have hperm := popFirstMinBy_perm hp
      have htop := hpend top (hperm.mem_iff.mpr (List.mem_cons_self top rest))
      have hrest : ∀ e ∈ rest, WFadd K cap (none : Option Point) e.2 ∧
          0 < e.2.size :=
        fun e he => hpend e (hperm.mem_iff.mpr (List.mem_cons_of_mem top he))
      have hpp := populatePending_top q d top.2 htop.1 htop.2 rest hrest
      obtain ⟨hE, hWFleaf, hposleaf, hperm0⟩ := hpp
      have hppperm : (pendingPairs pending).Perm
          (top.2.pairs ++ pendingPairs rest) := pendingPairs_perm hperm
      have hwn := popPopulate_weight q ⊤ d hp
      rcases hleaf : (populatePending q ⊤ d rest top.2).2 with
        ⟨s2, b2, pts2, bkt2, cap2, per2⟩ |
        ⟨s2, b2, l2, r2, sv2, sd2, per2⟩
      · rw [hleaf] at hperm0
        have hpairs2 : (KdTree.leafNode s2 b2 pts2 bkt2 cap2 per2 :
            KdTree T).pairs = pts2.zip bkt2 := rfl
        rw [hpairs2] at hperm0
        simp only [fullE, hp, hleaf]
        refine (ih _ _ hE (by omega)).trans ?_
        refine perm_top_assemble ev (scoresOf d q (pts2.zip bkt2)) _ _ ?_
        rw [← scoresOf_append]
        exact (hperm0.map (scoreOf d q)).trans
          ((List.perm_append_comm.trans hppperm.symm).map (scoreOf d q))
      · exfalso
        have hil := populatePending_isLeaf q ⊤ d top.2 rest
        rw [hleaf] at hil
        simp [KdTree.isLeaf] at hil

/-- While the evaluated heap cannot fill up, the `nearest` loop is the plain
run to exhaustion: the guard never stops early and the heap never rejects. -/
theorem nearestLoop_eq_fullE {K cap : ℕ} (q : Point) (d : Met) (num : ℕ) :
    ∀ (fuel : ℕ) (pending : List (WithTop ℚ × KdTree T))
      (ev : List (ℚ × T)),
      (∀ e ∈ pending, WFadd K cap (none : Option Point) e.2 ∧
        0 < e.2.size) →
      pendingWeight pending < fuel →
      ev.length + (pendingPairs pending).length = num →
      nearestLoop none q num d fuel pending ev = fullE d q fuel pending ev := by
  intro fuel
  induction fuel with
  | zero => intro pending ev _ h _; omega
  | succ fuel ih =>
    intro pending ev hpend hw hlen
    by_cases hne : pending = []
    · subst hne
      have h1 : nearestLoop (none : Option Point) q num d (fuel + 1) [] ev =
          ev := by
        simp [nearestLoop]
      have h2 : fullE d q (fuel + 1) ([] : List (WithTop ℚ × KdTree T)) ev =
          ev := by
        simp only [fullE, popFirstMinBy]
      rw [h1, h2]
    · have hemp : pending.isEmpty = false := by
        cases pending with
        | nil => exact absurd rfl hne
        | cons a b => rfl
      have hpplen : 0 < (pendingPairs pending).length :=
        pendingPairs_pos (fun e he => by
          rw [WFadd_pairs_length e.2 (hpend e he).1]
          exact (hpend e he).2) hne
      have hcond : pending.isEmpty = false ∧ (ev.length < num ∨
          peekMinKey pending ≤ (peekMaxDist ev : WithTop ℚ)) :=
        ⟨hemp, Or.inl (by omega)⟩
      have hL : nearestLoop (none : Option Point) q num d (fuel + 1)
          pending ev =
          nearestLoop none q num d fuel
            (nearestStep none q num ⊤ d pending ev).1
            (nearestStep none q num ⊤ d pending ev).2 := by
        simp only [nearestLoop]
        rw [if_pos hcond]
      rw [hL]
      cases hp : popFirstMinBy (fun x => x.1) pending with
      | none => exact absurd (popFirstMinBy_none hp) hne
      | some xr =>
        obtain ⟨top, rest⟩ := xr
        have hperm := popFirstMinBy_perm hp
        have htop := hpend top
          (hperm.mem_iff.mpr (List.mem_cons_self top rest))
        have hrest : ∀ e ∈ rest, WFadd K cap (none : Option Point) e.2 ∧
            0 < e.2.size :=
          fun e he => hpend e
            (hperm.mem_iff.mpr (List.mem_cons_of_mem top he))
        have hpp := populatePending_top q d top.2 htop.1 htop.2 rest hrest
        obtain ⟨hE, hWFleaf, hposleaf, hperm0⟩ := hpp
        have hppperm : (pendingPairs pending).Perm
            (top.2.pairs ++ pendingPairs rest) := pendingPairs_perm hperm
        have hwn := popPopulate_weight q ⊤ d hp
        rcases hleaf : (populatePending q ⊤ d rest top.2).2 with
          ⟨s2, b2, pts2, bkt2, cap2, per2⟩ |
          ⟨s2, b2, l2, r2, sv2, sd2, per2⟩
        · rw [hleaf] at hperm0
          have hpairs2 : (KdTree.leafNode s2 b2 pts2 bkt2 cap2 per2 :
              KdTree T).pairs = pts2.zip bkt2 := rfl
          rw [hpairs2] at hperm0
          have hstepeq : nearestStep (none : Option Point) q num ⊤ d
              pending ev =
              ((populatePending q ⊤ d rest top.2).1,
                nearestStepLeaf none q num ⊤ d pts2 bkt2 ev) := by
            unfold nearestStep
            rw [hp]
            simp only [hleaf]
          have hlenleaf : ev.length + (pts2.zip bkt2).length ≤ num := by
            have h1 := hperm0.length_eq
            have h2 := hppperm.length_eq
            simp only [List.length_append] at h1 h2
            omega
          have hfeq : fullE d q (fuel + 1) pending ev =
              fullE d q fuel (populatePending q ⊤ d rest top.2).1
                ((scoresOf d q (pts2.zip bkt2)).reverse ++ ev) := by
            simp only [fullE, hp, hleaf]
          have hL2 : nearestLoop (none : Option Point) q num d fuel
              (nearestStep none q num ⊤ d pending ev).1
              (nearestStep none q num ⊤ d pending ev).2 =
              nearestLoop none q num d fuel
                (populatePending q ⊤ d rest top.2).1
                (nearestStepLeaf none q num ⊤ d pts2 bkt2 ev) := by
            rw [hstepeq]
          rw [hL2, hfeq]
          have hlf : nearestStepLeaf (none : Option Point) q num ⊤ d pts2
              bkt2 ev = (scoresOf d q (pts2.zip bkt2)).reverse ++ ev := by
            rw [nearestStepLeaf_eq q num ⊤ d pts2 bkt2 ev hlenleaf]
            rw [List.filter_eq_self.mpr (fun x _ => decide_eq_true le_top)]
          rw [hlf]
          refine ih _ _ hE (by omega) ?_
          have h1 := hperm0.length_eq
          have h2 := hppperm.length_eq
          simp only [List.length_append] at h1 h2
          simp only [List.length_append, List.length_reverse, scoresOf,
            List.length_map]
          omega
        · exfalso
          have hil := populatePending_isLeaf q ⊤ d top.2 rest
          rw [hleaf] at hil
          simp [KdTree.isLeaf] at hil

/-- The `within_impl` loop with a prune-sound metric: it returns, in some
order, results within the radius; everything else it discarded is scored
strictly beyond the radius. -/
theorem withinLoop_run {K cap : ℕ} {q : Point} {d : Met}
    (hprune : ∀ (lo hi p : Point), lo.length = K → hi.length = K →
      p.length = K → (∀ i < K, lo.getD i 0 ≤ p.getD i 0 ∧
        p.getD i 0 ≤ hi.getD i 0) →
      d q (clampToBounds q lo hi) ≤ d q p)
    (radius : ℚ) (num : ℕ) :
    ∀ (fuel : ℕ) (pending : List (WithTop ℚ × KdTree T))
      (ev : List (ℚ × T)),
      (∀ e ∈ pending, WFadd K cap (none : Option Point) e.2 ∧
        0 < e.2.size ∧
        ∀ pr ∈ e.2.pairs, e.1 ≤ ((d q pr.1 : ℚ) : WithTop ℚ)) →
      pendingWeight pending < fuel →
      ev.length + (pendingPairs pending).length ≤ num →
      (∀ x ∈ ev, x.1 ≤ radius) →
      ∃ dropped : List (ℚ × T),
        ((withinLoop none q num radius d fuel pending ev) ++ dropped).Perm
          (ev ++ scoresOf d q (pendingPairs pending)) ∧
        (∀ x ∈ dropped, radius < x.1) ∧
        (∀ x ∈ withinLoop none q num radius d fuel pending ev,
          x.1 ≤ radius) := by
  intro fuel
  induction fuel with
  | zero => intro pending ev _ h _ _; omega
  | succ fuel ih =>
    intro pending ev hpend hw hlen hev
    by_cases hcond : pending.isEmpty = false ∧
        peekMinKey pending ≤ ((radius : ℚ) : WithTop ℚ)
    · have hne : pending ≠ [] := by
        intro hc
        rw [hc] at hcond
        exact absurd hcond.1 (by simp)
      have hL : withinLoop (none : Option Point) q num radius d (fuel + 1)
          pending ev =
          withinLoop none q num radius d fuel
            (nearestStep none q num ((radius : ℚ) : WithTop ℚ) d pending
              ev).1
            (nearestStep none q num ((radius : ℚ) : WithTop ℚ) d pending
              ev).2 := by
        simp only [withinLoop]
        rw [if_pos hcond]
      have hstep := @nearestStep_run_prune T K cap q d hprune num
        ((radius : ℚ) : WithTop ℚ) pending ev hpend hne hlen
      obtain ⟨hE, dropped1, hperm1, hdrop1, hkept1⟩ := hstep
      have hwn := nearestStep_weight (none : Option Point) q num
        ((radius : ℚ) : WithTop ℚ) d ev hne
      have hev2 : ∀ x ∈ (nearestStep none q num ((radius : ℚ) : WithTop ℚ)
          d pending ev).2, x.1 ≤ radius := by
        intro x hx
        rcases hkept1 x hx with h | h
        · exact hev x h
        · exact_mod_cast h
      have hlen2 : (nearestStep none q num ((radius : ℚ) : WithTop ℚ) d
            pending ev).2.length +
          (pendingPairs (nearestStep none q num ((radius : ℚ) : WithTop ℚ)
            d pending ev).1).length ≤ num := by
        have h1 := hperm1.length_eq
        simp only [List.length_append, scoresOf, List.length_map] at h1
        omega
      obtain ⟨dropped2, hperm2, hdrop2, hkept2⟩ := ih _ _ hE (by omega)
        hlen2 hev2
      refine ⟨dropped2 ++ dropped1, ?_, ?_, ?_⟩
      · rw [hL, ← List.append_assoc]
        exact (hperm2.append_right dropped1).trans hperm1
      · intro x hx
        rcases List.mem_append.mp hx with h | h
        · exact hdrop2 x h
        · exact_mod_cast hdrop1 x h
      · rw [hL]
        exact hkept2
    · have hL : withinLoop (none : Option Point) q num radius d (fuel + 1)
          pending ev = ev := by
        simp only [withinLoop]
        rw [if_neg hcond]
      refine ⟨scoresOf d q (pendingPairs pending), ?_, ?_, ?_⟩
      · rw [hL]
      · intro x hx
        obtain ⟨pr, hpr, rfl⟩ := List.mem_map.mp hx
        obtain ⟨e, he, hpe⟩ := mem_pendingPairs hpr
        have hne : pending ≠ [] := by
          intro hc
          rw [hc] at he
          exact absurd he (List.not_mem_nil e)
        have hemp : pending.isEmpty = false := by
          cases pending with
          | nil => exact absurd rfl hne
          | cons a b => rfl
        have hpeek : ¬ peekMinKey pending ≤ ((radius : ℚ) : WithTop ℚ) :=
          fun hc => hcond ⟨hemp, hc⟩
        cases hp : popFirstMinBy (fun x => x.1) pending with
        | none => exact absurd (popFirstMinBy_none hp) hne
        | some xr =>
          obtain ⟨m, r⟩ := xr
          have hpk : peekMinKey pending = m.1 := by
            simp [peekMinKey, hp]
          have hmin := popFirstMinBy_min hp e he
          have hbound := (hpend e he).2.2 pr hpe
          have : ((radius : ℚ) : WithTop ℚ) <
              (((d q pr.1 : ℚ)) : WithTop ℚ) := by
            rw [hpk] at hpeek
            calc ((radius : ℚ) : WithTop ℚ) < m.1 := not_le.mp hpeek
              _ ≤ e.1 := hmin
              _ ≤ _ := hbound
          exact_mod_cast this
      · rw [hL]
        exact hev

/-- Repeatedly popping the first minimal element (proof scaffolding: the
consumption order of the evaluated heap). -/
def popAllMin {α β : Type _} [LinearOrder β] (key : α → β) :
    ℕ → List α → List α
  | 0, _ => []
  | n + 1, l =>
    match popFirstMinBy key l with
    | none => []
    | some (x, rest) => x :: popAllMin key n rest

/-- Popping the first minimal element takes the head of the stable
insertion sort. -/
theorem popFirstMinBy_sort {α β : Type _} [LinearOrder β] (key : α → β) :
    ∀ {l : List α} {x : α} {rest : List α},
      popFirstMinBy key l = some (x, rest) →
      l.insertionSort (fun a b => key a ≤ key b) =
        x :: rest.insertionSort (fun a b => key a ≤ key b) := by
  intro l
  induction l with
  | nil => intro x rest h; simp [popFirstMinBy] at h
  | cons a tl ih =>
    intro x rest h
    simp only [popFirstMinBy] at h
    cases htl : popFirstMinBy key tl with
    | none =>
      rw [htl] at h
      simp only [Option.some.injEq, Prod.mk.injEq] at h
      obtain ⟨rfl, rfl⟩ := h
      have hnil : tl = [] := popFirstMinBy_none htl
      subst hnil
      rfl
    | some mr =>
      obtain ⟨m, r⟩ := mr
      rw [htl] at h
      have hs := ih htl
      by_cases hk : key m < key a
      · simp only [hk, if_true, Option.some.injEq, Prod.mk.injEq] at h
        obtain ⟨rfl, rfl⟩ := h
        rw [show (a :: tl).insertionSort (fun a b => key a ≤ key b) =
          List.orderedInsert (fun a b => key a ≤ key b) a
            (tl.insertionSort (fun a b => key a ≤ key b)) from rfl, hs,
          show (a :: r).insertionSort (fun a b => key a ≤ key b) =
          List.orderedInsert (fun a b => key a ≤ key b) a
            (r.insertionSort (fun a b => key a ≤ key b)) from rfl]
        rw [show List.orderedInsert (fun a b => key a ≤ key b) a
          (m :: r.insertionSort (fun a b => key a ≤ key b)) =
          if key a ≤ key m then
            a :: m :: r.insertionSort (fun a b => key a ≤ key b)
          else m :: List.orderedInsert (fun a b => key a ≤ key b) a
            (r.insertionSort (fun a b => key a ≤ key b)) from rfl]
        rw [if_neg (not_le.mpr hk)]
      · simp only [hk, if_false, Option.some.injEq, Prod.mk.injEq] at h
        obtain ⟨rfl, rfl⟩ := h
        rw [show (a :: tl).insertionSort (fun a b => key a ≤ key b) =
          List.orderedInsert (fun a b => key a ≤ key b) a
            (tl.insertionSort (fun a b => key a ≤ key b)) from rfl, hs]
        rw [show List.orderedInsert (fun a b => key a ≤ key b) a
          (m :: r.insertionSort (fun a b => key a ≤ key b)) =
          if key a ≤ key m then
            a :: m :: r.insertionSort (fun a b => key a ≤ key b)
          else m :: List.orderedInsert (fun a b => key a ≤ key b) a
            (r.insertionSort (fun a b => key a ≤ key b)) from rfl]
        rw [if_pos (not_lt.mp hk)]

/-- Consuming a list by repeatedly popping the first minimal element yields
the stable ascending sort. -/
theorem popAllMin_eq_sort {α β : Type _} [LinearOrder β] (key : α → β) :
    ∀ (n : ℕ) (l : List α),
      popAllMin key n l =
        (l.insertionSort (fun a b => key a ≤ key b)).take n := by
  intro n
  induction n with
  | zero => intro l; simp [popAllMin]
  | succ n ih =>
    intro l
    cases hp : popFirstMinBy key l with
    | none =>
      have hnil : l = [] := popFirstMinBy_none hp
      subst hnil
      rfl
    | some xr =>
      obtain ⟨x, rest⟩ := xr
      rw [show popAllMin key (n + 1) l = x :: popAllMin key n rest from by
        simp [popAllMin, hp]]
      rw [popFirstMinBy_sort key hp, List.take_succ_cons, ih rest]

/-- The squared-Euclidean metric is nonnegative. -/
theorem squaredEuclidean_nonneg (a b : Point) : 0 ≤ squaredEuclidean a b := by
  apply List.sum_nonneg
  intro x hx
  obtain ⟨ab, _, rfl⟩ := List.mem_map.mp hx
  exact sq_nonneg _

/-- Prune-soundness of the squared-Euclidean metric: the distance to the
per-axis clamp of the query into a box is at most the distance to any point
of the box. -/
theorem squaredEuclidean_prune :
    ∀ (q lo hi p : Point), q.length = lo.length → lo.length = hi.length →
      hi.length = p.length →
      (∀ i < p.length, lo.getD i 0 ≤ p.getD i 0 ∧
        p.getD i 0 ≤ hi.getD i 0) →
      squaredEuclidean q (clampToBounds q lo hi) ≤ squaredEuclidean q p := by
  intro q
  induction q with
  | nil =>
    intro lo hi p h1 h2 h3 hc
    show squaredEuclidean [] (clampToBounds [] lo hi) ≤ squaredEuclidean [] p
    rw [show squaredEuclidean [] (clampToBounds [] lo hi) = 0 from rfl,
      show squaredEuclidean [] p = 0 from rfl]
  | cons x q' ih =>
    intro lo hi p h1 h2 h3 hc
    cases lo with
    | nil => simp at h1
    | cons a lo' =>
      cases hi with
      | nil => simp at h2
      | cons b hi' =>
        cases p with
        | nil => simp at h3
        | cons c p' =>
          have hhead := hc 0 (by simp)
          simp only [List.getD_cons_zero] at hhead
          have htail : ∀ i < p'.length, lo'.getD i 0 ≤ p'.getD i 0 ∧
              p'.getD i 0 ≤ hi'.getD i 0 := by
            intro i hi2
            have := hc (i + 1) (by simp; omega)
            simpa [List.getD_cons_succ] using this
          have hih := ih lo' hi' p' (by simpa using h1) (by simpa using h2)
            (by simpa using h3) htail
          have hhead2 : (x - (if x < a then a else if x > b then b
              else x)) ^ 2 ≤ (x - c) ^ 2 := by
            rcases lt_or_le x a with hxa | hxa
            · rw [if_pos hxa]
              nlinarith [mul_nonneg (sub_nonneg.mpr hhead.1)
                (show (0 : ℚ) ≤ a + c - 2 * x by linarith)]
            · rw [if_neg (not_lt.mpr hxa)]
              rcases lt_or_le b x with hbx | hbx
              · rw [if_pos hbx]
                nlinarith [mul_nonneg (sub_nonneg.mpr hhead.2)
                  (show (0 : ℚ) ≤ 2 * x - b - c by linarith)]
              · rw [if_neg (not_lt.mpr hbx)]
                simpa using sq_nonneg (x - c)
          show (x - (if x < a then a else if x > b then b else x)) ^ 2 +
              squaredEuclidean q' (clampToBounds q' lo' hi') ≤
            (x - c) ^ 2 + squaredEuclidean q' p'
          exact add_le_add hhead2 hih

/-- The canonical run to exhaustion (proof scaffolding). -/
def fullRun (d : Met) (q : Point)
    (pending : List (WithTop ℚ × KdTree T)) : List (ℚ × T) :=
  fullE d q (pendingWeight pending + 1) pending []

theorem fullE_eq_fullRun (d : Met) (q : Point) {f : ℕ}
    {pending : List (WithTop ℚ × KdTree T)} (ev : List (ℚ × T))
    (h : pendingWeight pending < f) :
    fullE d q f pending ev = fullRun d q pending ++ ev := by
  rw [fullE_factor d q f pending ev h,
    fullE_irrel d q f (pendingWeight pending + 1) pending [] h (by omega)]
  rfl

theorem fullRun_nil (d : Met) (q : Point) :
    fullRun d q ([] : List (WithTop ℚ × KdTree T)) = [] := by
  simp only [fullRun, fullE, popFirstMinBy]

/-- Fully consuming `NearestIter` (proof scaffolding: repeated `next`). -/
def iterToList (d : Met) : ℕ → NearestIter T → List (ℚ × T)
  | 0, _ => []
  | n + 1, it =>
    match it.next d with
    | none => []
    | some (x, it') => x :: iterToList d n it'

theorem pushFold_eq (q : Point) (d : Met) :
    ∀ (l : List (Point × T)) (ev : List (ℚ × T)),
      l.foldl (fun (ev : List (ℚ × T)) (pb : Point × T) =>
        (getDistance q pb.1 d (none : Option Point), pb.2) :: ev) ev =
      (scoresOf d q l).reverse ++ ev := by
  intro l
  induction l with
  | nil => intro ev; simp [scoresOf]
  | cons pb rest ih =>
    intro ev
    rw [List.foldl_cons]
    rw [show scoresOf d q (pb :: rest) =
      scoreOf d q pb :: scoresOf d q rest from rfl, List.reverse_cons,
      List.append_assoc, List.singleton_append]
    exact ih _

/-- The advancing loop of `NearestIter::next` with a prune-sound metric:
it preserves the total run to exhaustion, keeps the pending entries well
formed and bounded, and stops only with an empty pending set or with the
smallest pending bound strictly above the smallest evaluated distance. -/
theorem iterAdvance_run {K cap : ℕ} {q : Point} {d : Met}
    (hprune : ∀ (lo hi p : Point), lo.length = K → hi.length = K →
      p.length = K → (∀ i < K, lo.getD i 0 ≤ p.getD i 0 ∧
        p.getD i 0 ≤ hi.getD i 0) →
      d q (clampToBounds q lo hi) ≤ d q p) :
    ∀ (fuel : ℕ) (pending : List (WithTop ℚ × KdTree T))
      (ev : List (ℚ × T)),
      (∀ e ∈ pending, WFadd K cap (none : Option Point) e.2 ∧
        0 < e.2.size ∧
        ∀ pr ∈ e.2.pairs, e.1 ≤ ((d q pr.1 : ℚ) : WithTop ℚ)) →
      pendingWeight pending < fuel →
      ∃ pending' ev',
        iterAdvance d fuel (⟨q, pending, ev, none⟩ : NearestIter T) =
          ⟨q, pending', ev', none⟩ ∧
        (∀ e ∈ pending', WFadd K cap (none : Option Point) e.2 ∧
          0 < e.2.size ∧
          ∀ pr ∈ e.2.pairs, e.1 ≤ ((d q pr.1 : ℚ) : WithTop ℚ)) ∧
        fullRun d q pending' ++ ev' = fullRun d q pending ++ ev ∧
        (pending' = [] ∨ ¬ peekMinKey pending' ≤ evalMinKey ev') := by
  intro fuel
  induction fuel with
  | zero => intro pending ev _ h; omega
  | succ fuel ih =>
    intro pending ev hpend hw
    by_cases hcond : pending.isEmpty = false ∧
        peekMinKey pending ≤ evalMinKey ev
    · have hne : pending ≠ [] := by
        intro hc
        rw [hc] at hcond
        exact absurd hcond.1 (by simp)
      cases hp : popFirstMinBy (fun x => x.1) pending with
      | none => exact absurd (popFirstMinBy_none hp) hne
      | some xr =>
        obtain ⟨top, rest⟩ := xr
        have hperm := popFirstMinBy_perm hp
        have htop := hpend top
          (hperm.mem_iff.mpr (List.mem_cons_self top rest))
        have hrest : ∀ e ∈ rest, WFadd K cap (none : Option Point) e.2 ∧
            0 < e.2.size ∧
            ∀ pr ∈ e.2.pairs, e.1 ≤ ((d q pr.1 : ℚ) : WithTop ℚ) :=
          fun e he => hpend e
            (hperm.mem_iff.mpr (List.mem_cons_of_mem top he))
        have hpp := populatePending_prune q d ⊤ hprune top.2 htop.1
          htop.2.1 rest hrest
        obtain ⟨hE, hWFleaf, hposleaf, dropped0, hperm0, hdrop0⟩ := hpp
        have hwn := popPopulate_weight q ⊤ d hp
        rcases hleaf : (populatePending q ⊤ d rest top.2).2 with
          ⟨s2, b2, pts2, bkt2, cap2, per2⟩ |
          ⟨s2, b2, l2, r2, sv2, sd2, per2⟩
        · have heq : iterAdvance d (fuel + 1)
              (⟨q, pending, ev, none⟩ : NearestIter T) =
              iterAdvance d fuel
                ⟨q, (populatePending q ⊤ d rest top.2).1,
                  (scoresOf d q (pts2.zip bkt2)).reverse ++ ev, none⟩ := by
            simp only [iterAdvance]
            rw [if_pos hcond]
            simp only [hp, hleaf]
            rw [pushFold_eq]
          obtain ⟨pending', ev', heq2, hE2, htot2, hstop2⟩ :=
            ih (populatePending q ⊤ d rest top.2).1
              ((scoresOf d q (pts2.zip bkt2)).reverse ++ ev) hE (by omega)
          refine ⟨pending', ev', ?_, hE2, ?_, hstop2⟩
          · rw [heq, heq2]
          · rw [htot2]
            have hfr : fullRun d q pending =
                fullRun d q (populatePending q ⊤ d rest top.2).1 ++
                  (scoresOf d q (pts2.zip bkt2)).reverse := by
              rw [show fullRun d q pending =
                fullE d q (pendingWeight pending + 1) pending [] from rfl]
              have hstep : fullE d q (pendingWeight pending + 1) pending [] =
                  fullE d q (pendingWeight pending)
                    (populatePending q ⊤ d rest top.2).1
                    ((scoresOf d q (pts2.zip bkt2)).reverse ++ []) := by
                simp only [fullE, hp, hleaf]
              rw [hstep, List.append_nil]
              exact fullE_eq_fullRun d q _ hwn
            rw [hfr, List.append_assoc]
        · exfalso
          have hil := populatePending_isLeaf q ⊤ d top.2 rest
          rw [hleaf] at hil
          simp [KdTree.isLeaf] at hil
    · have heq : iterAdvance d (fuel + 1)
          (⟨q, pending, ev, none⟩ : NearestIter T) =
          ⟨q, pending, ev, none⟩ := by
        simp only [iterAdvance]
        rw [if_neg hcond]
      refine ⟨pending, ev, heq, hpend, rfl, ?_⟩
      by_cases hnil : pending = []
      · exact Or.inl hnil
      · right
        intro hc
        have hemp : pending.isEmpty = false := by
          cases pending with
          | nil => exact absurd rfl hnil
          | cons a b => rfl
        exact hcond ⟨hemp, hc⟩

theorem popFirstMinBy_append_of_lt {α β : Type _} [LinearOrder β]
    (key : α → β) :
    ∀ (F : List α) {E : List α} {x : α} {rest : List α},
      popFirstMinBy key E = some (x, rest) →
      (∀ y ∈ F, key x < key y) →
      popFirstMinBy key (F ++ E) = some (x, F ++ rest) := by
  intro F
  induction F with
  | nil => intro E x rest h _; simpa using h
  | cons f F' ih =>
    intro E x rest h hlt
    have hih := ih h (fun y hy => hlt y (List.mem_cons_of_mem f hy))
    show popFirstMinBy key (f :: (F' ++ E)) = some (x, (f :: F') ++ rest)
    simp only [popFirstMinBy, hih]
    rw [if_pos (hlt f (List.mem_cons_self f F'))]
    rfl

/-- Fully consuming the iterator pops, in order, the minima of the total
run to exhaustion. -/
theorem iterConsume {K cap : ℕ} {q : Point} {d : Met}
    (hprune : ∀ (lo hi p : Point), lo.length = K → hi.length = K →
      p.length = K → (∀ i < K, lo.getD i 0 ≤ p.getD i 0 ∧
        p.getD i 0 ≤ hi.getD i 0) →
      d q (clampToBounds q lo hi) ≤ d q p) :
    ∀ (n : ℕ) (pending : List (WithTop ℚ × KdTree T))
      (ev : List (ℚ × T)),
      (∀ e ∈ pending, WFadd K cap (none : Option Point) e.2 ∧
        0 < e.2.size ∧
        ∀ pr ∈ e.2.pairs, e.1 ≤ ((d q pr.1 : ℚ) : WithTop ℚ)) →
      iterToList d n (⟨q, pending, ev, none⟩ : NearestIter T) =
        popAllMin (fun x => x.1) n (fullRun d q pending ++ ev) := by
  intro n
  induction n with
  | zero => intro pending ev _; rfl
  | succ n ih =>
    intro pending ev hpend
    obtain ⟨pending', ev', heq, hE', htot, hstop⟩ :=
      iterAdvance_run hprune (pendingWeight pending + 1) pending ev hpend
        (by omega)
    cases hpe : popFirstMinBy (fun x => x.1) ev' with
    | none =>
      have hevnil : ev' = [] := popFirstMinBy_none hpe
      have hpnil : pending' = [] := by
        rcases hstop with h | h
        · exact h
        · exfalso
          refine h ?_
          rw [hevnil]
          rw [show evalMinKey ([] : List (ℚ × T)) = ⊤ from rfl]
          exact le_top
      have hLnil : fullRun d q pending ++ ev = [] := by
        rw [← htot, hpnil, hevnil, fullRun_nil, List.append_nil]
      have hnext : NearestIter.next d
          (⟨q, pending, ev, none⟩ : NearestIter T) = none := by
        simp only [NearestIter.next, heq, hpe]
      rw [show iterToList d (n + 1)
        (⟨q, pending, ev, none⟩ : NearestIter T) =
        match NearestIter.next d (⟨q, pending, ev, none⟩ : NearestIter T)
          with
        | none => []
        | some (x, it') => x :: iterToList d n it' from rfl, hnext]
      rw [hLnil]
      rfl
    | some xr =>
      obtain ⟨x, rest⟩ := xr
      have hnext : NearestIter.next d
          (⟨q, pending, ev, none⟩ : NearestIter T) =
          some (x, ⟨q, pending', rest, none⟩) := by
        simp only [NearestIter.next, heq, hpe]
      have hLpop : popFirstMinBy (fun x => x.1)
          (fullRun d q pending' ++ ev') =
          some (x, fullRun d q pending' ++ rest) := by
        by_cases hpnil : pending' = []
        · rw [hpnil, fullRun_nil, List.nil_append, List.nil_append]
          exact hpe
        · have hB : ¬ peekMinKey pending' ≤ evalMinKey ev' := by
            rcases hstop with h | h
            · exact absurd h hpnil
            · exact h
          have hevk : evalMinKey ev' = ((x.1 : ℚ) : WithTop ℚ) := by
            simp [evalMinKey, hpe]
          refine popFirstMinBy_append_of_lt (fun (x : ℚ × T) => x.1) _
            hpe ?_
          intro y hy
          have hperm := @fullE_perm T K cap q d
            (pendingWeight pending' + 1) pending' []
            (fun e he => ⟨(hE' e he).1, (hE' e he).2.1⟩) (by omega)
          have hy2 : y ∈ scoresOf d q (pendingPairs pending') := by
            have := hperm.mem_iff.mp hy
            simpa using this
          obtain ⟨pr, hpr, rfl⟩ := List.mem_map.mp hy2
          obtain ⟨e, he, hpe2⟩ := mem_pendingPairs hpr
          cases hp2 : popFirstMinBy (fun x => x.1) pending' with
          | none => exact absurd (popFirstMinBy_none hp2) hpnil
          | some mr =>
            obtain ⟨m, r⟩ := mr
            have hpk : peekMinKey pending' = m.1 := by
              simp [peekMinKey, hp2]
            have hmin := popFirstMinBy_min hp2 e he
            have hbound := (hE' e he).2.2 pr hpe2
            have hxlt : ((x.1 : ℚ) : WithTop ℚ) <
                ((d q pr.1 : ℚ) : WithTop ℚ) := by
              rw [hpk] at hB
              rw [hevk] at hB
              calc ((x.1 : ℚ) : WithTop ℚ) < m.1 := not_le.mp hB
                _ ≤ e.1 := hmin
                _ ≤ _ := hbound
            exact_mod_cast hxlt
      have hL1 : iterToList d (n + 1)
          (⟨q, pending, ev, none⟩ : NearestIter T) =
          x :: iterToList d n (⟨q, pending', rest, none⟩ : NearestIter T) := by
        simp [iterToList, hnext]
      have hpop : popAllMin (fun (x : ℚ × T) => x.1) (n + 1)
          (fullRun d q pending' ++ ev') =
          x :: popAllMin (fun (x : ℚ × T) => x.1) n
            (fullRun d q pending' ++ rest) := by
        simp [popAllMin, hLpop]
      rw [hL1, ih pending' rest hE', ← htot, hpop]

theorem constructor_none {T : Type} {cap : ℕ} {t0 : KdTree T}
    (h0 : withPerNodeCapacity T cap = .ok t0) :
    0 < cap ∧ t0 = .leafNode 0 none [] [] cap none := by
  rw [withPerNodeCapacity] at h0
  by_cases hc : cap = 0
  · rw [if_pos hc] at h0
    exact absurd h0 (by simp)
  · rw [if_neg hc] at h0
    exact ⟨Nat.pos_of_ne_zero hc, (Except.ok.inj h0).symm⟩

theorem add_ok_shape {t : KdTree T} {p : RawPoint} {data : T}
    {t' : KdTree T} (h : t.add p data = .ok t') :
    t' = t.addUnchecked (toQPoint p) data := by
  unfold KdTree.add at h
  cases hc : t.checkPoint p with
  | error e =>
    rw [hc] at h
    exact absurd h (by simp)
  | ok u =>
    rw [hc] at h
    exact (Except.ok.inj h).symm

/-- A tree of size zero after a sequence of adds never changed: every
successful add increments the size. -/
theorem applyAdds_size_zero :
    ∀ (l : List (RawPoint × T)) (t : KdTree T),
      (applyAdds t l).size = 0 → applyAdds t l = t := by
  intro l
  induction l with
  | nil => intro t _; rfl
  | cons pd rest ih =>
    intro t h
    have h2 : applyAdds t (pd :: rest) = applyAdds (applyAdd t pd) rest :=
      rfl
    rw [h2] at h ⊢
    have h3 := ih (applyAdd t pd) h
    rw [h3] at h ⊢
    unfold applyAdd at h ⊢
    cases hc : t.add pd.1 pd.2 with
    | error e => rfl
    | ok t' =>
      rw [hc] at h
      exfalso
      have hsh := add_ok_shape hc
      have hsz : t'.size = 0 := h
      rw [hsh, addUnchecked_size] at hsz
      omega

theorem fullRun_perm {K cap : ℕ} {q : Point} {d : Met} {t : KdTree T}
    (hwf : WFadd K cap (none : Option Point) t) (hpos : 0 < t.size) :
    (fullRun d q [((0 : WithTop ℚ), t)]).Perm (scoresOf d q t.pairs) := by
  have hpend0 : ∀ e ∈ [((0 : WithTop ℚ), t)],
      WFadd K cap (none : Option Point) e.2 ∧ 0 < e.2.size := by
    intro e he
    rw [List.mem_singleton] at he
    subst he
    exact ⟨hwf, hpos⟩
  refine (@fullE_perm T K cap q d
    (pendingWeight [((0 : WithTop ℚ), t)] + 1) [((0 : WithTop ℚ), t)] []
    hpend0 (by omega)).trans ?_
  rw [List.nil_append,
    show pendingPairs [((0 : WithTop ℚ), t)] = t.pairs ++ [] from rfl,
    List.append_nil]

/-- `nearest` with the requested count at least the tree size on a nonempty
well-formed non-periodic tree: the exact returned value. -/
theorem nearest_size_explicit {K cap : ℕ} {t : KdTree T}
    (hwf : WFadd K cap (none : Option Point) t)
    {point : RawPoint} (hfin : point.all Coord.isFinite = true)
    (d : Met) {num : ℕ} (hnum : t.size ≤ num) (hz : t.size ≠ 0) :
    t.nearest point num d =
      .ok ((sortByDist (fullRun d (toQPoint point)
        [((0 : WithTop ℚ), t)])).take t.size) := by
  have hchk : t.checkPoint point = .ok () :=
    checkPoint_ok_of_nonperiodic (WFadd_periodic hwf) hfin
  have hper : t.periodic = none := WFadd_periodic hwf
  have hmin : min num t.size = t.size := min_eq_right hnum
  have hpend0 : ∀ e ∈ [((0 : WithTop ℚ), t)],
      WFadd K cap (none : Option Point) e.2 ∧ 0 < e.2.size := by
    intro e he
    rw [List.mem_singleton] at he
    subst he
    exact ⟨hwf, show 0 < t.size by omega⟩
  have hw0 : pendingWeight [((0 : WithTop ℚ), t)] < t.numNodes + 1 := by
    simp [pendingWeight]
  have hlen0 : ([] : List (ℚ × T)).length +
      (pendingPairs [((0 : WithTop ℚ), t)]).length = t.size := by
    rw [show pendingPairs [((0 : WithTop ℚ), t)] = t.pairs ++ [] from rfl,
      List.append_nil, WFadd_pairs_length t hwf]
    simp
  have hloop : nearestLoop (none : Option Point) (toQPoint point) t.size d
      (t.numNodes + 1) [((0 : WithTop ℚ), t)] [] =
      fullRun d (toQPoint point) [((0 : WithTop ℚ), t)] := by
    rw [@nearestLoop_eq_fullE T K cap (toQPoint point) d t.size
      (t.numNodes + 1) [((0 : WithTop ℚ), t)] [] hpend0 hw0 hlen0]
    rw [fullE_eq_fullRun d (toQPoint point) [] hw0, List.append_nil]
  simp only [KdTree.nearest, hchk]
  rw [hper, hmin, if_neg hz, hloop]

/-- `nearest` on an empty well-formed non-periodic tree returns the empty
list for every requested count. -/
theorem nearest_empty_size {K cap : ℕ} {t : KdTree T}
    (hwf : WFadd K cap (none : Option Point) t)
    {point : RawPoint} (hfin : point.all Coord.isFinite = true)
    (d : Met) (num : ℕ) (hz : t.size = 0) :
    t.nearest point num d = .ok [] := by
  simp only [KdTree.nearest,
    checkPoint_ok_of_nonperiodic (WFadd_periodic hwf) hfin]
  rw [hz]
  simp

/-- `nearest` at a count at least the size: an ascending permutation of the
brute-force scored list, of length the tree size. -/
theorem nearest_atLeast_size {K cap : ℕ} {t : KdTree T}
    (hwf : WFadd K cap (none : Option Point) t)
    {point : RawPoint} (hfin : point.all Coord.isFinite = true)
    (d : Met) {num : ℕ} (hnum : t.size ≤ num) :
    ∃ res, t.nearest point num d = .ok res ∧
      res.Perm (scoresOf d (toQPoint point) t.pairs) ∧
      res.Sorted (fun a b => a.1 ≤ b.1) ∧
      res.length = t.size := by
  by_cases hz : t.size = 0
  · have hpnil : t.pairs = [] := List.length_eq_zero.mp
      (by rw [WFadd_pairs_length t hwf]; exact hz)
    refine ⟨[], nearest_empty_size hwf hfin d num hz, ?_, List.sorted_nil,
      by simp [hz]⟩
    rw [hpnil]
    exact List.Perm.nil
  · have hL := fullRun_perm (q := toQPoint point) (d := d) hwf (by omega)
    have hlen : (sortByDist (fullRun d (toQPoint point)
        [((0 : WithTop ℚ), t)])).length = t.size := by
      rw [sortByDist, List.length_insertionSort, hL.length_eq]
      rw [show (scoresOf d (toQPoint point) t.pairs).length =
        t.pairs.length from List.length_map _ _, WFadd_pairs_length t hwf]
    have htake : (sortByDist (fullRun d (toQPoint point)
        [((0 : WithTop ℚ), t)])).take t.size =
        sortByDist (fullRun d (toQPoint point) [((0 : WithTop ℚ), t)]) :=
      List.take_of_length_le (le_of_eq hlen)
    refine ⟨_, nearest_size_explicit hwf hfin d hnum hz, ?_, ?_, ?_⟩
    · rw [htake]
      exact (List.perm_insertionSort _ _).trans hL
    · rw [htake]
      exact List.sorted_insertionSort _ _
    · rw [htake, hlen]

/-- `within` on a well-formed non-periodic tree with a prune-sound
nonnegative metric: an ascending permutation of the brute-force filtered
scored list. -/
theorem within_run {K cap : ℕ} {t : KdTree T}
    (hwf : WFadd K cap (none : Option Point) t)
    {point : RawPoint} (hfin : point.all Coord.isFinite = true)
    {d : Met}
    (hprune : ∀ (lo hi p : Point), lo.length = K → hi.length = K →
      p.length = K → (∀ i < K, lo.getD i 0 ≤ p.getD i 0 ∧
        p.getD i 0 ≤ hi.getD i 0) →
      d (toQPoint point) (clampToBounds (toQPoint point) lo hi) ≤
        d (toQPoint point) p)
    (hnonneg : ∀ p : Point, 0 ≤ d (toQPoint point) p)
    (radius : ℚ) :
    ∃ res, t.within point radius d = .ok res ∧
      res.Perm ((scoresOf d (toQPoint point) t.pairs).filter
        (fun x => decide (x.1 ≤ radius))) ∧
      res.Sorted (fun a b => a.1 ≤ b.1) := by
  by_cases hz : t.size = 0
  · have hW : t.within point radius d = .ok [] := by
      unfold KdTree.within
      rw [if_pos hz]
    have hpnil : t.pairs = [] := List.length_eq_zero.mp
      (by rw [WFadd_pairs_length t hwf]; exact hz)
    refine ⟨[], hW, ?_, List.sorted_nil⟩
    rw [hpnil]
    exact List.Perm.nil
  · have hchk := checkPoint_ok_of_nonperiodic (WFadd_periodic hwf) hfin
    have hper := WFadd_periodic hwf
    have hpend0 : ∀ e ∈ [((0 : WithTop ℚ), t)],
        WFadd K cap (none : Option Point) e.2 ∧ 0 < e.2.size ∧
        ∀ pr ∈ e.2.pairs,
          e.1 ≤ ((d (toQPoint point) pr.1 : ℚ) : WithTop ℚ) := by
      intro e he
      rw [List.mem_singleton] at he
      subst he
      refine ⟨hwf, show 0 < t.size by omega, ?_⟩
      intro pr hpr
      show (0 : WithTop ℚ) ≤ ((d (toQPoint point) pr.1 : ℚ) : WithTop ℚ)
      exact_mod_cast hnonneg pr.1
    have hlen0 : ([] : List (ℚ × T)).length +
        (pendingPairs [((0 : WithTop ℚ), t)]).length ≤ t.size := by
      rw [show pendingPairs [((0 : WithTop ℚ), t)] = t.pairs ++ [] from rfl,
        List.append_nil, WFadd_pairs_length t hwf]
      simp
    obtain ⟨dropped, hperm, hdrop, hkept⟩ := @withinLoop_run T K cap
      (toQPoint point) d hprune radius t.size (t.numNodes + 1)
      [((0 : WithTop ℚ), t)] [] hpend0 (by simp [pendingWeight]) hlen0
      (fun x hx => absurd hx (List.not_mem_nil x))
    have himpl : t.withinImpl point radius d =
        .ok (withinLoop (none : Option Point) (toQPoint point) t.size
          radius d (t.numNodes + 1) [((0 : WithTop ℚ), t)] []) := by
      simp only [KdTree.withinImpl, hchk, hper]
    have hperm2 : ((withinLoop (none : Option Point) (toQPoint point)
        t.size radius d (t.numNodes + 1) [((0 : WithTop ℚ), t)] []) ++
        dropped).Perm (scoresOf d (toQPoint point) t.pairs) := by
      refine hperm.trans ?_
      rw [List.nil_append,
        show pendingPairs [((0 : WithTop ℚ), t)] = t.pairs ++ [] from rfl,
        List.append_nil]
    have hWperm : (withinLoop (none : Option Point) (toQPoint point)
        t.size radius d (t.numNodes + 1)
        [((0 : WithTop ℚ), t)] []).Perm
        ((scoresOf d (toQPoint point) t.pairs).filter
          (fun x => decide (x.1 ≤ radius))) := by
      have hfil := hperm2.filter (fun x => decide (x.1 ≤ radius))
      rw [List.filter_append,
        List.filter_eq_self.mpr (fun x hx => decide_eq_true (hkept x hx)),
        List.filter_eq_nil_iff.mpr (fun x hx => by
          simp only [decide_eq_true_eq]
          exact not_le.mpr (hdrop x hx)),
        List.append_nil] at hfil
      exact hfil
    refine ⟨_, ?_, (List.perm_insertionSort _ _).trans hWperm,
      List.sorted_insertionSort _ _⟩
    unfold KdTree.within
    rw [if_neg hz, himpl]
    rfl

theorem squaredEuclidean_prune_hyp (K : ℕ) (q : Point) (hq : q.length = K) :
    ∀ (lo hi p : Point), lo.length = K → hi.length = K → p.length = K →
      (∀ i < K, lo.getD i 0 ≤ p.getD i 0 ∧ p.getD i 0 ≤ hi.getD i 0) →
      squaredEuclidean q (clampToBounds q lo hi) ≤ squaredEuclidean q p := by
  intro lo hi p h1 h2 h3 h4
  exact squaredEuclidean_prune q lo hi p (by rw [hq, h1]) (by rw [h1, h2])
    (by rw [h2, h3]) (fun i hp2 => h4 i (by rw [← h3]; exact hp2))

/-- C1: on a non-periodic tree built by any sequence of adds, for a finite
query point and a prune-sound nonnegative metric, `nearest` at the tree size
returns an ascending reordering of the brute-force scored list of all stored
pairs, and `within` returns an ascending reordering of its subset within the
radius. -/
theorem C1_nonperiodic_query_correctness {T : Type} (K cap : ℕ)
    (t0 : KdTree T) (h0 : withPerNodeCapacity T cap = .ok t0)
    (l : List (RawPoint × T)) (hK : ∀ pd ∈ l, pd.1.length = K)
    (point : RawPoint) (hfin : point.all Coord.isFinite = true) (d : Met)
    (hprune : ∀ (lo hi p : Point), lo.length = K → hi.length = K →
      p.length = K → (∀ i < K, lo.getD i 0 ≤ p.getD i 0 ∧
        p.getD i 0 ≤ hi.getD i 0) →
      d (toQPoint point) (clampToBounds (toQPoint point) lo hi) ≤
        d (toQPoint point) p)
    (hnonneg : ∀ p : Point, 0 ≤ d (toQPoint point) p)
    (radius : ℚ) :
    (∃ res, (applyAdds t0 l).nearest point (applyAdds t0 l).size d =
        .ok res ∧
      res.Perm (scoresOf d (toQPoint point) (applyAdds t0 l).pairs) ∧
      res.Sorted (fun a b => a.1 ≤ b.1)) ∧
    (∃ res, (applyAdds t0 l).within point radius d = .ok res ∧
      res.Perm ((scoresOf d (toQPoint point)
        (applyAdds t0 l).pairs).filter (fun x => decide (x.1 ≤ radius))) ∧
      res.Sorted (fun a b => a.1 ≤ b.1)) := by
  obtain ⟨hcap, ht0⟩ := constructor_none h0
  have hwf : WFadd K cap (none : Option Point) (applyAdds t0 l) :=
    applyAdds_WFadd l t0 (constructor_WFadd ht0 hcap) hK
  constructor
  · obtain ⟨res, h1, h2, h3, _⟩ := nearest_atLeast_size hwf hfin d le_rfl
    exact ⟨res, h1, h2, h3⟩
  · exact within_run hwf hfin hprune hnonneg radius

/-- Witness for C1: capacity 1 (so a split occurs), points 5 and 6, query 2,
radius 10, squared-Euclidean metric. -/
theorem C1_nonperiodic_query_correctness_witness :
    (withPerNodeCapacity ℕ 1 = .ok (KdTree.leafNode 0 none [] [] 1 none)) ∧
    (∀ pd ∈ [(([Coord.val 5] : RawPoint), 0), (([Coord.val 6] : RawPoint), 1)],
      pd.1.length = 1) ∧
    (([Coord.val 2] : RawPoint).all Coord.isFinite = true) ∧
    ((∃ res, (applyAdds (KdTree.leafNode 0 none [] [] 1 none)
        [(([Coord.val 5] : RawPoint), 0),
          (([Coord.val 6] : RawPoint), 1)]).nearest [Coord.val 2]
        (applyAdds (KdTree.leafNode 0 none [] [] 1 none)
          [(([Coord.val 5] : RawPoint), 0),
            (([Coord.val 6] : RawPoint), 1)]).size squaredEuclidean =
          .ok res ∧
      res.Perm (scoresOf squaredEuclidean (toQPoint [Coord.val 2])
        (applyAdds (KdTree.leafNode 0 none [] [] 1 none)
          [(([Coord.val 5] : RawPoint), 0),
            (([Coord.val 6] : RawPoint), 1)]).pairs) ∧
      res.Sorted (fun a b => a.1 ≤ b.1)) ∧
    (∃ res, (applyAdds (KdTree.leafNode 0 none [] [] 1 none)
        [(([Coord.val 5] : RawPoint), 0),
          (([Coord.val 6] : RawPoint), 1)]).within [Coord.val 2] 10
        squaredEuclidean = .ok res ∧
      res.Perm ((scoresOf squaredEuclidean (toQPoint [Coord.val 2])
        (applyAdds (KdTree.leafNode 0 none [] [] 1 none)
          [(([Coord.val 5] : RawPoint), 0),
            (([Coord.val 6] : RawPoint), 1)]).pairs).filter
        (fun x => decide (x.1 ≤ 10))) ∧
      res.Sorted (fun a b => a.1 ≤ b.1))) :=
  ⟨by with_unfolding_all decide, by with_unfolding_all decide,
    by with_unfolding_all decide,
    C1_nonperiodic_query_correctness 1 1
      (KdTree.leafNode 0 none [] [] 1 none)
      (by with_unfolding_all decide)
      [(([Coord.val 5] : RawPoint), 0), (([Coord.val 6] : RawPoint), 1)]
      (by with_unfolding_all decide)
      [Coord.val 2] (by with_unfolding_all decide) squaredEuclidean
      (squaredEuclidean_prune_hyp 1 (toQPoint [Coord.val 2]) rfl)
      (fun p => squaredEuclidean_nonneg _ p) 10⟩

/-! ## Mode-agnostic query accounting (C8 and the amended C9) -/

/-- The size counters agree with the stored pair counts at every node (a
consequence of the interleaved invariant, in either periodic mode). -/
def pairsCT : KdTree T → Prop
  | .leafNode s _ pts bkt _ _ => s = pts.length ∧ pts.length = bkt.length
  | .stemNode s _ l r _ _ _ => s = l.size + r.size ∧ pairsCT l ∧ pairsCT r

theorem sizeLF_pairsCT {K cap : ℕ} :
    ∀ (t : KdTree T), sizeLF K cap t → pairsCT t := by
  intro t
  induction t with
  | leafNode s b pts bkt capv perv =>
    intro h
    exact ⟨h.2.2.1, h.2.2.2.1⟩
  | stemNode s b l r sv sd perv ihl ihr =>
    intro h
    exact ⟨h.1, ihl h.2.1, ihr h.2.2⟩

theorem pairsCT_length : ∀ (t : KdTree T), pairsCT t →
    t.pairs.length = t.size := by
  intro t
  induction t with
  | leafNode s b pts bkt capv perv =>
    intro h
    obtain ⟨h1, h2⟩ := h
    show (pts.zip bkt).length = s
    rw [List.length_zip]
    omega
  | stemNode s b l r sv sd perv ihl ihr =>
    intro h
    show (l.pairs ++ r.pairs).length = s
    rw [List.length_append, ihl h.2.1, ihr h.2.2, h.1]

/-- `populate_pending` keeps the counter agreement of every pending entry
and of the reached node, for any `max_dist` and either periodic mode. -/
theorem populatePending_count (q : Point) (md : WithTop ℚ) (d : Met) :
    ∀ (t : KdTree T) (pending : List (WithTop ℚ × KdTree T)),
      pairsCT t → (∀ e ∈ pending, pairsCT e.2) →
      (∀ e ∈ (populatePending q md d pending t).1, pairsCT e.2) ∧
      pairsCT (populatePending q md d pending t).2 := by
  intro t
  induction t with
  | leafNode s b pts bkt capv perv =>
    intro pending hct hpend
    exact ⟨hpend, hct⟩
  | stemNode s b lch rch sv sd perv ihl ihr =>
    intro pending hct hpend
    obtain ⟨hsum, hctl, hctr⟩ := hct
    by_cases hb : q.getD sd 0 < sv
    · by_cases hc : distanceToSpace q rch.bounds d ≤ md
      · have heq : populatePending q md d pending
            (.stemNode s b lch rch sv sd perv : KdTree T) =
            populatePending q md d
              ((distanceToSpace q rch.bounds d, rch) :: pending) lch := by
          simp only [populatePending]
          rw [if_pos hb, if_pos hc]
        rw [heq]
        refine ihl _ hctl ?_
        intro e he
        rcases List.mem_cons.mp he with rfl | he
        · exact hctr
        · exact hpend e he
      · have heq : populatePending q md d pending
            (.stemNode s b lch rch sv sd perv : KdTree T) =
            populatePending q md d pending lch := by
          simp only [populatePending]
          rw [if_pos hb, if_neg hc]
        rw [heq]
        exact ihl _ hctl hpend
    · by_cases hc : distanceToSpace q lch.bounds d ≤ md
      · have heq : populatePending q md d pending
            (.stemNode s b lch rch sv sd perv : KdTree T) =
            populatePending q md d
              ((distanceToSpace q lch.bounds d, lch) :: pending) rch := by
          simp only [populatePending]
          rw [if_neg hb, if_pos hc]
        rw [heq]
        refine ihr _ hctr ?_
        intro e he
        rcases List.mem_cons.mp he with rfl | he
        · exact hctl
        · exact hpend e he
      · have heq : populatePending q md d pending
            (.stemNode s b lch rch sv sd perv : KdTree T) =
            populatePending q md d pending rch := by
          simp only [populatePending]
          rw [if_neg hb, if_neg hc]
        rw [heq]
        exact ihr _ hctr hpend

/-- With an infinite `max_dist` no sibling is pruned, for any metric and
either periodic mode: the pending set plus the reached node hold exactly the
pairs held before the descent. -/
theorem populatePending_top_perm (q : Point) (d : Met) :
    ∀ (t : KdTree T) (pending : List (WithTop ℚ × KdTree T)),
      (pendingPairs (populatePending q ⊤ d pending t).1 ++
        (populatePending q ⊤ d pending t).2.pairs).Perm
        (pendingPairs pending ++ t.pairs) := by
  intro t
  induction t with
  | leafNode s b pts bkt capv perv =>
    intro pending
    exact List.Perm.refl _
  | stemNode s b lch rch sv sd perv ihl ihr =>
    intro pending
    by_cases hb : q.getD sd 0 < sv
    · have heq : populatePending q ⊤ d pending
          (.stemNode s b lch rch sv sd perv : KdTree T) =
          populatePending q ⊤ d
            ((distanceToSpace q rch.bounds d, rch) :: pending) lch := by
        simp only [populatePending]
        rw [if_pos hb, if_pos le_top]
      rw [heq]
      refine (ihl _).trans ?_
      show ((rch.pairs ++ pendingPairs pending) ++ lch.pairs).Perm
        (pendingPairs pending ++ (lch.pairs ++ rch.pairs))
      exact perm_pp_shuffle rch.pairs (pendingPairs pending) lch.pairs
    · have heq : populatePending q ⊤ d pending
          (.stemNode s b lch rch sv sd perv : KdTree T) =
          populatePending q ⊤ d
            ((distanceToSpace q lch.bounds d, lch) :: pending) rch := by
        simp only [populatePending]
        rw [if_neg hb, if_pos le_top]
      rw [heq]
      refine (ihr _).trans ?_
      show ((lch.pairs ++ pendingPairs pending) ++ rch.pairs).Perm
        (pendingPairs pending ++ (lch.pairs ++ rch.pairs))
      refine (perm_pp_shuffle lch.pairs (pendingPairs pending)
        rch.pairs).trans ?_
      exact List.perm_append_comm.append_left (pendingPairs pending)

/-- The score `get_distance` assigns to a stored pair, in either periodic
mode. -/
def gscoreOf (d : Met) (per : Option Point) (q : Point) (pr : Point × T) :
    ℚ × T :=
  (getDistance q pr.1 d per, pr.2)

/-- The brute-force scored list, in either periodic mode. -/
def gscoresOf (d : Met) (per : Option Point) (q : Point)
    (l : List (Point × T)) : List (ℚ × T) :=
  l.map (gscoreOf d per q)

theorem gscoresOf_append (d : Met) (per : Option Point) (q : Point)
    (l m : List (Point × T)) :
    gscoresOf d per q (l ++ m) = gscoresOf d per q l ++ gscoresOf d per q m :=
  List.map_append _ l m

/-- The leaf fold of `nearest_step` with an infinite `max_dist` while the
evaluated heap cannot fill up, in either periodic mode. -/
theorem leafFoldTop_eq (per : Option Point) (q : Point) (num : ℕ) (d : Met) :
    ∀ (l : List (Point × T)) (ev : List (ℚ × T)), ev.length + l.length ≤ num →
      l.foldl (fun (ev : List (ℚ × T)) (pb : Point × T) =>
        let dist := getDistance q pb.1 d per
        if (dist : WithTop ℚ) ≤ (⊤ : WithTop ℚ) then
          if ev.length < num then (dist, pb.2) :: ev
          else replaceTop (dist, pb.2) ev
        else ev) ev =
      (gscoresOf d per q l).reverse ++ ev := by
  intro l
  induction l with
  | nil => intro ev h; simp [gscoresOf]
  | cons pb rest ih =>
    intro ev h
    have hlen : (pb :: rest).length = rest.length + 1 := by simp
    have hstep : (let dist := getDistance q pb.1 d per
        if (dist : WithTop ℚ) ≤ (⊤ : WithTop ℚ) then
          if ev.length < num then (dist, pb.2) :: ev
          else replaceTop (dist, pb.2) ev
        else ev) =
        if ((getDistance q pb.1 d per : ℚ) : WithTop ℚ) ≤ (⊤ : WithTop ℚ)
        then
          (if ev.length < num then (getDistance q pb.1 d per, pb.2) :: ev
           else replaceTop (getDistance q pb.1 d per, pb.2) ev)
        else ev := rfl
    rw [List.foldl_cons, hstep, if_pos le_top,
      if_pos (show ev.length < num by rw [hlen] at h; omega)]
    rw [show gscoresOf d per q (pb :: rest) =
      gscoreOf d per q pb :: gscoresOf d per q rest from rfl,
      List.reverse_cons, List.append_assoc, List.singleton_append]
    exact ih ((getDistance q pb.1 d per, pb.2) :: ev)
      (by rw [hlen] at h; simp; omega)

theorem nearestStepLeafTop_eq (per : Option Point) (q : Point) (num : ℕ)
    (d : Met) (pts : List Point) (bkt : List T) (ev : List (ℚ × T))
    (h : ev.length + (pts.zip bkt).length ≤ num) :
    nearestStepLeaf per q num ⊤ d pts bkt ev =
      (gscoresOf d per q (pts.zip bkt)).reverse ++ ev := by
  unfold nearestStepLeaf
  exact leafFoldTop_eq per q num d (pts.zip bkt) ev h

/-- One `nearest_step` with an infinite `max_dist`, in either periodic
mode and for an arbitrary metric: counters stay consistent and the
evaluated heap together with the still-pending pairs holds exactly what it
held before the step. -/
theorem nearestStepTop_run (per : Option Point) (q : Point) (d : Met)
    (num : ℕ) (pending : List (WithTop ℚ × KdTree T)) (ev : List (ℚ × T))
    (hpend : ∀ e ∈ pending, pairsCT e.2) (hne : pending ≠ [])
    (hlen : ev.length + (pendingPairs pending).length ≤ num) :
    (∀ e ∈ (nearestStep per q num ⊤ d pending ev).1, pairsCT e.2) ∧
    ((nearestStep per q num ⊤ d pending ev).2 ++
      gscoresOf d per q
        (pendingPairs (nearestStep per q num ⊤ d pending ev).1)).Perm
      (ev ++ gscoresOf d per q (pendingPairs pending)) := by
  unfold nearestStep
  cases hp : popFirstMinBy (fun x => x.1) pending with
  | none => exact absurd (popFirstMinBy_none hp) hne
  | some xr =>
    obtain ⟨top, rest⟩ := xr
    have hperm := popFirstMinBy_perm hp
    have htop := hpend top (hperm.mem_iff.mpr (List.mem_cons_self top rest))
    have hrest : ∀ e ∈ rest, pairsCT e.2 :=
      fun e he => hpend e (hperm.mem_iff.mpr (List.mem_cons_of_mem top he))
    have hpp := populatePending_count q ⊤ d top.2 rest htop hrest
    have hperm0 := populatePending_top_perm q d top.2 rest
    have hppperm : (pendingPairs pending).Perm
        (top.2.pairs ++ pendingPairs rest) := pendingPairs_perm hperm
    rcases hleaf : (populatePending q ⊤ d rest top.2).2 with
      ⟨s2, b2, pts2, bkt2, cap2, per2⟩ | ⟨s2, b2, l2, r2, sv2, sd2, per2⟩
    · simp only [hleaf]
      rw [hleaf] at hperm0
      have hpairs2 : (KdTree.leafNode s2 b2 pts2 bkt2 cap2 per2 :
          KdTree T).pairs = pts2.zip bkt2 := rfl
      rw [hpairs2] at hperm0
      have hlenleaf : ev.length + (pts2.zip bkt2).length ≤ num := by
        have h1 := hperm0.length_eq
        have h2 := hppperm.length_eq
        simp only [List.length_append] at h1 h2
        omega
      refine ⟨hpp.1, ?_⟩
      rw [nearestStepLeafTop_eq per q num d pts2 bkt2 ev hlenleaf]
      refine perm_top_assemble ev (gscoresOf d per q (pts2.zip bkt2)) _ _ ?_
      rw [← gscoresOf_append]
      exact (hperm0.map (gscoreOf d per q)).trans
        ((List.perm_append_comm.trans hppperm.symm).map (gscoreOf d per q))
    · exfalso
      have hil := populatePending_isLeaf q ⊤ d top.2 rest
      rw [hleaf] at hil
      simp [KdTree.isLeaf] at hil

/-- The `nearest` loop at a count at least the total pair count, in either
periodic mode and for an arbitrary metric: it evaluates exactly the pairs
beneath the pending set, in some order. -/
theorem nearestLoopTop_run (per : Option Point) (q : Point) (d : Met)
    (num : ℕ) :
    ∀ (fuel : ℕ) (pending : List (WithTop ℚ × KdTree T))
      (ev : List (ℚ × T)),
      (∀ e ∈ pending, pairsCT e.2) →
      pendingWeight pending < fuel →
      ev.length + (pendingPairs pending).length = num →
      (nearestLoop per q num d fuel pending ev).Perm
        (ev ++ gscoresOf d per q (pendingPairs pending)) := by
  intro fuel
  induction fuel with
  | zero => intro pending ev _ h _; omega
  | succ fuel ih =>
    intro pending ev hpend hw hlen
    by_cases hcond : pending.isEmpty = false ∧ (ev.length < num ∨
        peekMinKey pending ≤ (peekMaxDist ev : WithTop ℚ))
    · have hne : pending ≠ [] := ne_nil_of_isEmpty_eq_false hcond.1
      have hL : nearestLoop per q num d (fuel + 1) pending ev =
          nearestLoop per q num d fuel
            (nearestStep per q num ⊤ d pending ev).1
            (nearestStep per q num ⊤ d pending ev).2 := by
        simp only [nearestLoop]
        rw [if_pos hcond]
      rw [hL]
      have hstep := nearestStepTop_run per q d num pending ev hpend hne
        (by omega)
      have hwn := nearestStep_weight per q num ⊤ d ev hne
      have hlen2 : (nearestStep per q num ⊤ d pending ev).2.length +
          (pendingPairs (nearestStep per q num ⊤ d pending ev).1).length =
          num := by
        have h1 := hstep.2.length_eq
        simp only [List.length_append, gscoresOf, List.length_map] at h1
        omega
      exact (ih _ _ hstep.1 (by omega) hlen2).trans hstep.2
    · have hL : nearestLoop per q num d (fuel + 1) pending ev = ev := by
        simp only [nearestLoop]
        rw [if_neg hcond]
      rw [hL]
      have hppnil : pendingPairs pending = [] := by
        by_cases hne : pending = []
        · rw [hne]; rfl
        · have hemp : pending.isEmpty = false := by
            cases pending with
            | nil => exact absurd rfl hne
            | cons a b => rfl
          have : ¬ (ev.length < num ∨
              peekMinKey pending ≤ (peekMaxDist ev : WithTop ℚ)) :=
            fun hc => hcond ⟨hemp, hc⟩
          have hge : ¬ ev.length < num := fun hc => this (Or.inl hc)
          exact List.length_eq_zero.mp (by omega)
      rw [hppnil]
      rw [show gscoresOf d per q [] = [] from rfl, List.append_nil]

/-- `nearest` with the count at least the size, on any tree whose counters
agree and which accepts the query point: the result is an ascending
permutation of the scored stored pairs, of length the tree size — in either
periodic mode and for an arbitrary metric. -/
theorem nearest_run_gen {t : KdTree T} (hct : pairsCT t)
    {point : RawPoint} (hchk : t.checkPoint point = .ok ()) (d : Met)
    {num : ℕ} (hnum : t.size ≤ num) :
    ∃ res, t.nearest point num d = .ok res ∧
      res.Perm (gscoresOf d t.periodic (toQPoint point) t.pairs) ∧
      res.Sorted (fun a b => a.1 ≤ b.1) ∧
      res.length = t.size := by
  simp only [KdTree.nearest, hchk]
  rw [min_eq_right hnum]
  by_cases hz : t.size = 0
  · rw [if_pos hz]
    have hpnil : t.pairs = [] := List.length_eq_zero.mp
      (by rw [pairsCT_length t hct]; exact hz)
    refine ⟨[], rfl, ?_, List.sorted_nil, by simp [hz]⟩
    rw [hpnil]
    exact List.Perm.nil
  · rw [if_neg hz]
    have hloop := nearestLoopTop_run t.periodic (toQPoint point) d t.size
      (t.numNodes + 1) [((0 : WithTop ℚ), t)] []
      (by
        intro e he
        rw [List.mem_singleton] at he
        subst he
        exact hct)
      (by simp [pendingWeight])
      (by
        rw [show pendingPairs [((0 : WithTop ℚ), t)] = t.pairs ++ []
          from rfl, List.append_nil, pairsCT_length t hct]
        simp)
    have hL : (nearestLoop t.periodic (toQPoint point) t.size d
        (t.numNodes + 1) [((0 : WithTop ℚ), t)] []).Perm
        (gscoresOf d t.periodic (toQPoint point) t.pairs) := by
      refine hloop.trans ?_
      rw [List.nil_append,
        show pendingPairs [((0 : WithTop ℚ), t)] = t.pairs ++ [] from rfl,
        List.append_nil]
    have hlen : (sortByDist (nearestLoop t.periodic (toQPoint point)
        t.size d (t.numNodes + 1) [((0 : WithTop ℚ), t)] [])).length =
        t.size := by
      rw [sortByDist, List.length_insertionSort, hL.length_eq]
      rw [show (gscoresOf d t.periodic (toQPoint point) t.pairs).length =
        t.pairs.length from List.length_map _ _, pairsCT_length t hct]
    have htake := List.take_of_length_le (le_of_eq hlen)
    refine ⟨_, rfl, ?_, ?_, ?_⟩
    · rw [htake]
      exact (List.perm_insertionSort _ _).trans hL
    · rw [htake]
      exact List.sorted_insertionSort _ _
    · rw [htake, hlen]

/-- `nearest` with count zero returns the empty list on any tree that
accepts the query point, for every metric. -/
theorem nearest_zero_ok {t : KdTree T} {point : RawPoint}
    (hchk : t.checkPoint point = .ok ()) (d : Met) :
    t.nearest point 0 d = .ok [] := by
  simp only [KdTree.nearest, hchk]
  simp

theorem pushFoldGen_eq (q : Point) (d : Met) (per : Option Point) :
    ∀ (l : List (Point × T)) (ev : List (ℚ × T)),
      l.foldl (fun (ev : List (ℚ × T)) (pb : Point × T) =>
        (getDistance q pb.1 d per, pb.2) :: ev) ev =
      (gscoresOf d per q l).reverse ++ ev := by
  intro l
  induction l with
  | nil => intro ev; simp [gscoresOf]
  | cons pb rest ih =>
    intro ev
    rw [List.foldl_cons]
    rw [show gscoresOf d per q (pb :: rest) =
      gscoreOf d per q pb :: gscoresOf d per q rest from rfl,
      List.reverse_cons, List.append_assoc, List.singleton_append]
    exact ih _

/-- The advancing loop of `NearestIter::next` in either periodic mode, for
an arbitrary metric: it preserves the multiset of scored pairs split between
the pending set and the evaluated heap, and with sufficient fuel stops only
with an empty pending set or with the smallest pending bound strictly above
the smallest evaluated distance. -/
theorem iterAdvanceP (q : Point) (d : Met) (per : Option Point) :
    ∀ (fuel : ℕ) (pending : List (WithTop ℚ × KdTree T))
      (ev : List (ℚ × T)),
      ∃ pending' ev',
        iterAdvance d fuel (⟨q, pending, ev, per⟩ : NearestIter T) =
          ⟨q, pending', ev', per⟩ ∧
        (gscoresOf d per q (pendingPairs pending') ++ ev').Perm
          (gscoresOf d per q (pendingPairs pending) ++ ev) ∧
        (pendingWeight pending < fuel →
          (pending' = [] ∨ ¬ peekMinKey pending' ≤ evalMinKey ev')) := by
  intro fuel
  induction fuel with
  | zero =>
    intro pending ev
    exact ⟨pending, ev, rfl, List.Perm.refl _,
      fun h => absurd h (by omega)⟩
  | succ fuel ih =>
    intro pending ev
    by_cases hcond : pending.isEmpty = false ∧
        peekMinKey pending ≤ evalMinKey ev
    · cases hp : popFirstMinBy (fun x => x.1) pending with
      | none =>
        have heq : iterAdvance d (fuel + 1)
            (⟨q, pending, ev, per⟩ : NearestIter T) =
            ⟨q, pending, ev, per⟩ := by
          simp only [iterAdvance]
          rw [if_pos hcond]
          simp only [hp]
        exact ⟨pending, ev, heq, List.Perm.refl _,
          fun _ => Or.inl (popFirstMinBy_none hp)⟩
      | some xr =>
        obtain ⟨top, rest⟩ := xr
        have hperm0 := populatePending_top_perm q d top.2 rest
        have hppperm : (pendingPairs pending).Perm
            (top.2.pairs ++ pendingPairs rest) :=
          pendingPairs_perm (popFirstMinBy_perm hp)
        rcases hleaf : (populatePending q ⊤ d rest top.2).2 with
          ⟨s2, b2, pts2, bkt2, cap2, per2⟩ |
          ⟨s2, b2, l2, r2, sv2, sd2, per2⟩
        · have heq : iterAdvance d (fuel + 1)
              (⟨q, pending, ev, per⟩ : NearestIter T) =
              iterAdvance d fuel
                ⟨q, (populatePending q ⊤ d rest top.2).1,
                  (gscoresOf d per q (pts2.zip bkt2)).reverse ++ ev,
                  per⟩ := by
            simp only [iterAdvance]
            rw [if_pos hcond]
            simp only [hp, hleaf]
            rw [pushFoldGen_eq]
          rw [hleaf] at hperm0
          have hpairs2 : (KdTree.leafNode s2 b2 pts2 bkt2 cap2 per2 :
              KdTree T).pairs = pts2.zip bkt2 := rfl
          rw [hpairs2] at hperm0
          obtain ⟨pending', ev', heq2, hperm2, hstop2⟩ :=
            ih (populatePending q ⊤ d rest top.2).1
              ((gscoresOf d per q (pts2.zip bkt2)).reverse ++ ev)
          refine ⟨pending', ev', by rw [heq, heq2], ?_, ?_⟩
          · refine hperm2.trans ?_
            refine List.Perm.trans (List.Perm.append_left _
              (((List.reverse_perm _).append_right ev))) ?_
            rw [← List.append_assoc]
            refine List.Perm.append_right ev ?_
            rw [← gscoresOf_append]
            exact (hperm0.map (gscoreOf d per q)).trans
              ((List.perm_append_comm.trans hppperm.symm).map
                (gscoreOf d per q))
          · intro hwb
            refine hstop2 ?_
            have := popPopulate_weight q ⊤ d hp
            omega
        · exfalso
          have hil := populatePending_isLeaf q ⊤ d top.2 rest
          rw [hleaf] at hil
          simp [KdTree.isLeaf] at hil
    · have heq : iterAdvance d (fuel + 1)
          (⟨q, pending, ev, per⟩ : NearestIter T) =
          ⟨q, pending, ev, per⟩ := by
        simp only [iterAdvance]
        rw [if_neg hcond]
      refine ⟨pending, ev, heq, List.Perm.refl _, fun _ => ?_⟩
      by_cases hnil : pending = []
      · exact Or.inl hnil
      · right
        intro hc
        have hemp : pending.isEmpty = false := by
          cases pending with
          | nil => exact absurd rfl hnil
          | cons a b => rfl
        exact hcond ⟨hemp, hc⟩

/-- Fully consuming the iterator yields, in some order, the scored pairs
held by the pending set and the evaluated heap — in either periodic mode,
for an arbitrary metric. -/
theorem iterConsumeP (q : Point) (d : Met) (per : Option Point) :
    ∀ (n : ℕ) (pending : List (WithTop ℚ × KdTree T))
      (ev : List (ℚ × T)),
      (pendingPairs pending).length + ev.length ≤ n →
      (iterToList d n (⟨q, pending, ev, per⟩ : NearestIter T)).Perm
        (gscoresOf d per q (pendingPairs pending) ++ ev) := by
  intro n
  induction n with
  | zero =>
    intro pending ev h
    have h1 : pendingPairs pending = [] := List.length_eq_zero.mp (by omega)
    have h2 : ev = [] := List.length_eq_zero.mp (by omega)
    rw [h1, h2]
    exact List.Perm.nil
  | succ n ih =>
    intro pending ev hn
    obtain ⟨pending', ev', heq, hperm, hstop⟩ :=
      iterAdvanceP q d per (pendingWeight pending + 1) pending ev
    have hstop2 := hstop (by omega)
    cases hpe : popFirstMinBy (fun x => x.1) ev' with
    | none =>
      have hevnil : ev' = [] := popFirstMinBy_none hpe
      have hpnil : pending' = [] := by
        rcases hstop2 with h | h
        · exact h
        · exfalso
          refine h ?_
          rw [hevnil]
          rw [show evalMinKey ([] : List (ℚ × T)) = ⊤ from rfl]
          exact le_top
      have hnext : NearestIter.next d
          (⟨q, pending, ev, per⟩ : NearestIter T) = none := by
        simp only [NearestIter.next, heq, hpe]
      have hL1 : iterToList d (n + 1)
          (⟨q, pending, ev, per⟩ : NearestIter T) = [] := by
        simp [iterToList, hnext]
      rw [hL1]
      rw [hpnil, hevnil] at hperm
      rw [show pendingPairs ([] : List (WithTop ℚ × KdTree T)) = []
        from rfl] at hperm
      rw [show gscoresOf d per q ([] : List (Point × T)) = [] from rfl,
        List.nil_append] at hperm
      rw [hperm.symm.eq_nil]
    | some xr =>
      obtain ⟨x, rest⟩ := xr
      have hnext : NearestIter.next d
          (⟨q, pending, ev, per⟩ : NearestIter T) =
          some (x, ⟨q, pending', rest, per⟩) := by
        simp only [NearestIter.next, heq, hpe]
      have hL1 : iterToList d (n + 1)
          (⟨q, pending, ev, per⟩ : NearestIter T) =
          x :: iterToList d n (⟨q, pending', rest, per⟩ : NearestIter T) := by
        simp [iterToList, hnext]
      rw [hL1]
      have hpopperm := popFirstMinBy_perm hpe
      have hcount : (pendingPairs pending').length + rest.length ≤ n := by
        have h1 := hperm.length_eq
        have h2 := hpopperm.length_eq
        simp only [List.length_append, gscoresOf, List.length_map,
          List.length_cons] at h1 h2
        omega
      refine ((ih pending' rest hcount).cons x).trans ?_
      refine List.Perm.trans ?_ hperm
      refine List.Perm.trans List.perm_middle.symm ?_
      exact (hpopperm.symm).append_left _

/-! ## The layout-faithful heap model (tie order of C9)

The deterministic first-minimal list model above fixes one tie order for
both heaps.  The source's `std::collections::BinaryHeap` (not under `src/`)
is a binary max-heap in a vector, and its tie order differs between
`into_sorted_vec` (used by `nearest`) and repeated `pop` (used by
`NearestIter::next`).  The following models that vector layout: `sift_up`
moves the inserted element over its parent while it is strictly greater,
`pop` is `swap_remove(0)` followed by a sift-down of the moved-up last
element, and `into_sorted_vec` repeatedly swaps the root behind the
shrinking heap prefix and sifts down — element for element the same as
popping the root of the truncated heap, accumulated in ascending order. -/

instance : Inhabited (KdTree T) := ⟨.leafNode 0 none [] [] 0 none⟩

/-- Modelled from the source's `std::collections::BinaryHeap::sift_up`:
swap the element at `pos` with its parent while it is strictly greater
(elements compare by their key only, as `HeapElement`'s order compares only
the distance). -/
def siftUpF {α β : Type _} [Inhabited α] [LinearOrder β] (key : α → β) :
    ℕ → List α → ℕ → List α
  | 0, data, _ => data
  | _ + 1, data, 0 => data
  | fuel + 1, data, pos + 1 =>
    let parent := pos / 2
    let a := data.getD (pos + 1) default
    let b := data.getD parent default
    if key a ≤ key b then data
    else siftUpF key fuel ((data.set (pos + 1) b).set parent a) parent

/-- The method `BinaryHeap::push`: append, then sift up from the end. -/
def heapPush {α β : Type _} [Inhabited α] [LinearOrder β] (key : α → β)
    (x : α) (data : List α) : List α :=
  siftUpF key (data.length + 1) (data ++ [x]) data.length

/-- Modelled from the source's `BinaryHeap::sift_down_range`: descend while
the element is strictly below a child, always swapping with the greater
child (the right one on a tie). -/
def siftDownF {α β : Type _} [Inhabited α] [LinearOrder β] (key : α → β) :
    ℕ → List α → ℕ → ℕ → List α
  | 0, data, _, _ => data
  | fuel + 1, data, pos, en =>
    if 2 * pos + 1 < en then
      let child := if 2 * pos + 2 < en ∧
          key (data.getD (2 * pos + 1) default) ≤
            key (data.getD (2 * pos + 2) default)
        then 2 * pos + 2 else 2 * pos + 1
      if key (data.getD child default) ≤ key (data.getD pos default) then
        data
      else
        let a := data.getD pos default
        let b := data.getD child default
        siftDownF key fuel ((data.set pos b).set child a) child en
    else data

/-- The method `BinaryHeap::pop`: `swap_remove(0)` (the last element moves
into the root slot) followed by a sift-down of the root. -/
def heapPop {α β : Type _} [Inhabited α] [LinearOrder β] (key : α → β)
    (data : List α) : Option (α × List α) :=
  match data with
  | [] => none
  | x :: rest =>
    match rest.getLast? with
    | none => some (x, [])
    | some last =>
      let data' := last :: rest.dropLast
      some (x, siftDownF key data'.length data' 0 data'.length)

/-- The method `BinaryHeap::into_sorted_vec`: each step swaps the root
behind the shrinking heap prefix and sifts the swapped-in last element
down over that prefix — exactly a `pop` of the prefix with the popped root
placed next in descending position, so the ascending result is the
reversed pop sequence. -/
def heapIntoSortedF {α β : Type _} [Inhabited α] [LinearOrder β]
    (key : α → β) : ℕ → List α → List α → List α
  | 0, _, acc => acc
  | fuel + 1, data, acc =>
    match heapPop key data with
    | none => acc
    | some (x, rest) => heapIntoSortedF key fuel rest (x :: acc)

def heapIntoSorted {α β : Type _} [Inhabited α] [LinearOrder β]
    (key : α → β) (data : List α) : List α :=
  heapIntoSortedF key data.length data []

/-- The pending heaps store the *negated* box distance and pop the maximum;
the model keys the max-heap by the dual order instead of negating. -/
def pendKey : WithTop ℚ × KdTree T → OrderDual (WithTop ℚ) :=
  fun e => OrderDual.toDual e.1

/-- The iterator's evaluated heap stores the *negated* distance and pops
the maximum; the model keys the max-heap by the dual order. -/
def evalKeyH {T : Type} : ℚ × T → OrderDual ℚ :=
  fun x => OrderDual.toDual x.1

/-- `populate_pending` with the pending set as the layout-faithful heap. -/
def populatePendingH (point : Point) (maxDist : WithTop ℚ) (d : Met) :
    List (WithTop ℚ × KdTree T) → KdTree T →
      List (WithTop ℚ × KdTree T) × KdTree T
  | pending, .stemNode _ _ lch rch sv sd _ =>
    if point.getD sd 0 < sv then
      let c2s := distanceToSpace point rch.bounds d
      populatePendingH point maxDist d
        (if c2s ≤ maxDist then heapPush pendKey (c2s, rch) pending
         else pending) lch
    else
      let c2s := distanceToSpace point lch.bounds d
      populatePendingH point maxDist d
        (if c2s ≤ maxDist then heapPush pendKey (c2s, lch) pending
         else pending) rch
  | pending, t => (pending, t)

/-- The `peek_mut` replacement of `nearest_step` on the layout-faithful
heap: overwrite the root and sift it down. -/
def replaceTopH [Inhabited T] (e : ℚ × T) (data : List (ℚ × T)) : List (ℚ × T) :=
  match data with
  | [] => data
  | top :: rest =>
    if e.1 < top.1 then
      siftDownF Prod.fst (e :: rest).length (e :: rest) 0 (e :: rest).length
    else data

/-- The leaf processing of `nearest_step` on the layout-faithful evaluated
heap (keyed by the distance; `nearest` stores it un-negated). -/
def nearestStepLeafH [Inhabited T] (periodic : Option Point) (point : Point) (num : ℕ)
    (maxDist : WithTop ℚ) (d : Met) (pts : List Point) (bkt : List T)
    (evaluated : List (ℚ × T)) : List (ℚ × T) :=
  (pts.zip bkt).foldl
    (fun ev pb =>
      let dist := getDistance point pb.1 d periodic
      if (dist : WithTop ℚ) ≤ maxDist then
        if ev.length < num then heapPush Prod.fst (dist, pb.2) ev
        else replaceTopH (dist, pb.2) ev
      else ev)
    evaluated

/-- The method `nearest_step` on the layout-faithful heaps. -/
def nearestStepH [Inhabited T] (periodic : Option Point) (point : Point) (num : ℕ)
    (maxDist : WithTop ℚ) (d : Met)
    (pending : List (WithTop ℚ × KdTree T)) (evaluated : List (ℚ × T)) :
    List (WithTop ℚ × KdTree T) × List (ℚ × T) :=
  match heapPop pendKey pending with
  | none => (pending, evaluated)
  | some (top, rest) =>
    let pe := populatePendingH point maxDist d rest top.2
    match pe.2 with
    | .leafNode _ _ pts bkt _ _ =>
      (pe.1, nearestStepLeafH periodic point num maxDist d pts bkt evaluated)
    | _ => (pe.1, evaluated)

/-- The root of the layout-faithful pending heap: the smallest bound. -/
def peekMinKeyH (pending : List (WithTop ℚ × KdTree T)) : WithTop ℚ :=
  match pending with
  | [] => ⊤
  | x :: _ => x.1

/-- The root of `nearest`'s layout-faithful evaluated heap: the farthest
evaluated distance. -/
def peekMaxDistH (evaluated : List (ℚ × T)) : ℚ :=
  match evaluated with
  | [] => 0
  | x :: _ => x.1

/-- The query loop of `nearest` on the layout-faithful heaps. -/
def nearestLoopH [Inhabited T] (periodic : Option Point) (point : Point) (num : ℕ)
    (d : Met) :
    ℕ → List (WithTop ℚ × KdTree T) → List (ℚ × T) → List (ℚ × T)
  | 0, _, evaluated => evaluated
  | fuel + 1, pending, evaluated =>
    if pending.isEmpty = false ∧ (evaluated.length < num ∨
        peekMinKeyH pending ≤ (peekMaxDistH evaluated : WithTop ℚ)) then
      let st := nearestStepH periodic point num ⊤ d pending evaluated
      nearestLoopH periodic point num d fuel st.1 st.2
    else evaluated

/-- The method `nearest` on the layout-faithful heaps: the evaluated heap
is returned through `into_sorted_vec`, truncated to `num`. -/
def KdTree.nearestH [Inhabited T] (t : KdTree T) (point : RawPoint) (num : ℕ) (d : Met) :
    Except ErrorKind (List (ℚ × T)) :=
  match t.checkPoint point with
  | .error e => .error e
  | .ok _ =>
    let num := min num t.size
    if num = 0 then .ok []
    else
      let evaluated :=
        nearestLoopH t.periodic (toQPoint point) num d (t.numNodes + 1)
          [((0 : WithTop ℚ), t)] []
      .ok ((heapIntoSorted Prod.fst evaluated).take num)

/-- The smallest evaluated distance of the iterator's layout-faithful
evaluated heap (its root, as the heap is keyed by the dual order). -/
def evalMinKeyH (evaluated : List (ℚ × T)) : WithTop ℚ :=
  match evaluated with
  | [] => ⊤
  | x :: _ => (x.1 : WithTop ℚ)

/-- The advancing loop of `NearestIter::next` on the layout-faithful
heaps. -/
def iterAdvanceH [Inhabited T] (d : Met) : ℕ → NearestIter T → NearestIter T
  | 0, it => it
  | fuel + 1, it =>
    if it.pending.isEmpty = false ∧
        peekMinKeyH it.pending ≤ evalMinKeyH it.evaluated then
      match heapPop pendKey it.pending with
      | none => it
      | some (top, rest) =>
        let pe := populatePendingH it.point ⊤ d rest top.2
        match pe.2 with
        | .leafNode _ _ pts bkt _ _ =>
          iterAdvanceH d fuel
            ⟨it.point, pe.1,
              (pts.zip bkt).foldl (fun ev pb =>
                heapPush evalKeyH
                  (getDistance it.point pb.1 d it.periodic, pb.2) ev)
                it.evaluated,
              it.periodic⟩
        | _ => iterAdvanceH d fuel ⟨it.point, pe.1, it.evaluated, it.periodic⟩
    else it

/-- The method `NearestIter::next` on the layout-faithful heaps. -/
def NearestIter.nextH [Inhabited T] (d : Met) (it : NearestIter T) :
    Option ((ℚ × T) × NearestIter T) :=
  let it' := iterAdvanceH d (pendingWeight it.pending + 1) it
  match heapPop evalKeyH it'.evaluated with
  | none => none
  | some (x, rest) =>
    some (x, ⟨it'.point, it'.pending, rest, it'.periodic⟩)

/-- The method `iter_nearest` on the layout-faithful heaps. -/
def KdTree.iterNearestH (t : KdTree T) (point : RawPoint) (d : Met) :
    Except ErrorKind (NearestIter T) :=
  match t.checkPoint point with
  | .error e => .error e
  | .ok _ =>
    .ok ⟨toQPoint point, [((0 : WithTop ℚ), t)], [], t.periodic⟩

/-- Fully consuming the layout-faithful iterator. -/
def iterToListH [Inhabited T] (d : Met) : ℕ → NearestIter T → List (ℚ × T)
  | 0, _ => []
  | n + 1, it =>
    match it.nextH d with
    | none => []
    | some (x, it') => x :: iterToListH d n it'

deriving instance DecidableEq for NearestIter

/-- C8: on any tree — either constructor, after any interleaved sequence of
adds and removes — and any query point the tree's validation accepts,
`nearest` with a count above the size returns exactly `size` results, and
`nearest` with count zero returns the empty list, for every metric
uniformly (the metric is never invoked). -/
theorem C8_nearest_clamping {T : Type} [DecidableEq T] (K cap : ℕ)
    (t0 : KdTree T)
    (h0 : withPerNodeCapacity T cap = .ok t0 ∨
      ∃ L, periodicWithPerNodeCapacity T cap L = .ok t0)
    (ops : List (Op T)) (hK : ∀ op ∈ ops, (opPoint op).length = K)
    (point : RawPoint)
    (hchk : (applyOps t0 ops).1.checkPoint point = .ok ())
    (d : Met) (k : ℕ) :
    ((applyOps t0 ops).1.size < k →
      ∃ res, (applyOps t0 ops).1.nearest point k d = .ok res ∧
        res.length = (applyOps t0 ops).1.size) ∧
    (applyOps t0 ops).1.nearest point 0 d = .ok [] := by
  obtain ⟨hcap, per, ht0⟩ := constructor_cases h0
  have hsl0 : sizeLF K cap t0 := by
    subst ht0
    exact ⟨rfl, hcap, rfl, rfl,
      fun q hq => absurd hq (List.not_mem_nil q), rfl, Or.inl (by simp)⟩
  have hct : pairsCT (applyOps t0 ops).1 :=
    sizeLF_pairsCT _ (applyOps_invariant ops t0 hsl0 hK).1
  constructor
  · intro hk
    obtain ⟨res, h1, _, _, h4⟩ := nearest_run_gen hct hchk d (le_of_lt hk)
    exact ⟨res, h1, h4⟩
  · exact nearest_zero_ok hchk d

/-- Witness for C8: a periodic capacity-1 tree, two adds and a remove
(size 1), count 2 above the size and count zero. -/
theorem C8_nearest_clamping_witness :
    (withPerNodeCapacity ℕ 1 =
        .ok (KdTree.leafNode 0 none [] [] 1 (some [10])) ∨
      ∃ L, periodicWithPerNodeCapacity ℕ 1 L =
        .ok (KdTree.leafNode 0 none [] [] 1 (some [10]))) ∧
    (∀ op ∈ [Op.addOp [Coord.val 5] 0, Op.addOp [Coord.val 6] 1,
        Op.removeOp [Coord.val 5] 0], (opPoint op).length = 1) ∧
    (applyOps (KdTree.leafNode 0 none [] [] 1 (some [10]))
        [Op.addOp [Coord.val 5] 0, Op.addOp [Coord.val 6] 1,
         Op.removeOp [Coord.val 5] 0]).1.checkPoint [Coord.val 2] =
      .ok () ∧
    (((applyOps (KdTree.leafNode 0 none [] [] 1 (some [10]))
        [Op.addOp [Coord.val 5] 0, Op.addOp [Coord.val 6] 1,
         Op.removeOp [Coord.val 5] 0]).1.size < 2 →
      ∃ res, (applyOps (KdTree.leafNode 0 none [] [] 1 (some [10]))
          [Op.addOp [Coord.val 5] 0, Op.addOp [Coord.val 6] 1,
           Op.removeOp [Coord.val 5] 0]).1.nearest [Coord.val 2] 2
          squaredEuclidean = .ok res ∧
        res.length = (applyOps (KdTree.leafNode 0 none [] [] 1 (some [10]))
          [Op.addOp [Coord.val 5] 0, Op.addOp [Coord.val 6] 1,
           Op.removeOp [Coord.val 5] 0]).1.size) ∧
    (applyOps (KdTree.leafNode 0 none [] [] 1 (some [10]))
        [Op.addOp [Coord.val 5] 0, Op.addOp [Coord.val 6] 1,
         Op.removeOp [Coord.val 5] 0]).1.nearest [Coord.val 2] 0
        squaredEuclidean = .ok []) :=
  ⟨Or.inr ⟨[10], by with_unfolding_all decide⟩,
    by with_unfolding_all decide, by with_unfolding_all decide,
    C8_nearest_clamping 1 1 (KdTree.leafNode 0 none [] [] 1 (some [10]))
      (Or.inr ⟨[10], by with_unfolding_all decide⟩)
      [Op.addOp [Coord.val 5] 0, Op.addOp [Coord.val 6] 1,
       Op.removeOp [Coord.val 5] 0]
      (by with_unfolding_all decide)
      [Coord.val 2] (by with_unfolding_all decide) squaredEuclidean 2⟩

/-- C9, counterexample to the original exact-sequence claim on the source's
heap layout.  `nearest` returns `BinaryHeap::into_sorted_vec` of the
evaluated heap — each step swaps the root behind the heap and sifts down,
placing the *later-pushed* of two equal-distance elements first in the
ascending result — while fully consuming `iter_nearest` repeatedly *pops*
its evaluated heap, which yields the *earlier-pushed* of two equal elements
first.  With points `[1] ↦ 0` and `[3] ↦ 1` and query `[2]`, both distances
are `1`: `nearest` yields payload `1` before payload `0`, the iterator
yields `0` before `1`, refuting the claim that the sequences are equal. -/
theorem C9_counterexample_tie_order :
    (applyAdds (newTree ℕ)
        [(([Coord.val 1] : RawPoint), 0),
          (([Coord.val 3] : RawPoint), 1)]).nearestH [Coord.val 2] 2
        squaredEuclidean = .ok [(1, 1), (1, 0)] ∧
    (applyAdds (newTree ℕ)
        [(([Coord.val 1] : RawPoint), 0),
          (([Coord.val 3] : RawPoint), 1)]).iterNearestH [Coord.val 2]
        squaredEuclidean =
      .ok ⟨[2], [((0 : WithTop ℚ), applyAdds (newTree ℕ)
        [(([Coord.val 1] : RawPoint), 0),
          (([Coord.val 3] : RawPoint), 1)])], [], none⟩ ∧
    iterToListH squaredEuclidean 2
      (⟨[2], [((0 : WithTop ℚ), applyAdds (newTree ℕ)
        [(([Coord.val 1] : RawPoint), 0),
          (([Coord.val 3] : RawPoint), 1)])], [], none⟩ : NearestIter ℕ) =
      [(1, 0), (1, 1)] ∧
    ([(1, 1), (1, 0)] : List (ℚ × ℕ)) ≠ [(1, 0), (1, 1)] := by
  with_unfolding_all decide

/-- C9, amended: on any tree — either constructor, after any interleaved
sequence of adds and removes — and any query point the tree's validation
accepts, fully consuming the iterator of `iter_nearest` yields a
permutation of the ascending list returned by `nearest` at the tree size,
for every metric; the two sequences need not be equal, as equal-distance
elements come out of the source's two heap drains in different orders. -/
theorem C9_amended_iterator_equivalence {T : Type} [DecidableEq T]
    (K cap : ℕ) (t0 : KdTree T)
    (h0 : withPerNodeCapacity T cap = .ok t0 ∨
      ∃ L, periodicWithPerNodeCapacity T cap L = .ok t0)
    (ops : List (Op T)) (hK : ∀ op ∈ ops, (opPoint op).length = K)
    (point : RawPoint)
    (hchk : (applyOps t0 ops).1.checkPoint point = .ok ())
    (d : Met) :
    ∃ it0 res,
      (applyOps t0 ops).1.iterNearest point d = .ok it0 ∧
      (applyOps t0 ops).1.nearest point (applyOps t0 ops).1.size d =
        .ok res ∧
      res.Sorted (fun a b => a.1 ≤ b.1) ∧
      ∀ n, (applyOps t0 ops).1.size ≤ n →
        (iterToList d n it0).Perm res := by
  obtain ⟨hcap, per, ht0⟩ := constructor_cases h0
  have hsl0 : sizeLF K cap t0 := by
    subst ht0
    exact ⟨rfl, hcap, rfl, rfl,
      fun q hq => absurd hq (List.not_mem_nil q), rfl, Or.inl (by simp)⟩
  have hct : pairsCT (applyOps t0 ops).1 :=
    sizeLF_pairsCT _ (applyOps_invariant ops t0 hsl0 hK).1
  have hit : (applyOps t0 ops).1.iterNearest point d =
      .ok ⟨toQPoint point, [((0 : WithTop ℚ), (applyOps t0 ops).1)], [],
        (applyOps t0 ops).1.periodic⟩ := by
    simp only [KdTree.iterNearest, hchk]
  obtain ⟨res, hres, hperm, hsort, hlen⟩ := nearest_run_gen hct hchk d
    le_rfl
  refine ⟨_, res, hit, hres, hsort, ?_⟩
  intro n hn
  have hcons := iterConsumeP (toQPoint point) d (applyOps t0 ops).1.periodic
    n [((0 : WithTop ℚ), (applyOps t0 ops).1)] []
    (by
      rw [show pendingPairs [((0 : WithTop ℚ), (applyOps t0 ops).1)] =
        (applyOps t0 ops).1.pairs ++ [] from rfl, List.append_nil,
        pairsCT_length _ hct]
      simpa using hn)
  refine hcons.trans ?_
  rw [List.append_nil,
    show pendingPairs [((0 : WithTop ℚ), (applyOps t0 ops).1)] =
      (applyOps t0 ops).1.pairs ++ [] from rfl, List.append_nil]
  exact hperm.symm

/-- Witness for the amended C9: a periodic capacity-1 tree, two adds and a
remove, query 2, squared-Euclidean metric. -/
theorem C9_amended_iterator_equivalence_witness :
    (withPerNodeCapacity ℕ 1 =
        .ok (KdTree.leafNode 0 none [] [] 1 (some [10])) ∨
      ∃ L, periodicWithPerNodeCapacity ℕ 1 L =
        .ok (KdTree.leafNode 0 none [] [] 1 (some [10]))) ∧
    (∀ op ∈ [Op.addOp [Coord.val 5] 0, Op.addOp [Coord.val 6] 1,
        Op.removeOp [Coord.val 5] 0], (opPoint op).length = 1) ∧
    (applyOps (KdTree.leafNode 0 none [] [] 1 (some [10]))
        [Op.addOp [Coord.val 5] 0, Op.addOp [Coord.val 6] 1,
         Op.removeOp [Coord.val 5] 0]).1.checkPoint [Coord.val 2] =
      .ok () ∧
    (∃ it0 res,
      (applyOps (KdTree.leafNode 0 none [] [] 1 (some [10]))
        [Op.addOp [Coord.val 5] 0, Op.addOp [Coord.val 6] 1,
         Op.removeOp [Coord.val 5] 0]).1.iterNearest [Coord.val 2]
        squaredEuclidean = .ok it0 ∧
      (applyOps (KdTree.leafNode 0 none [] [] 1 (some [10]))
        [Op.addOp [Coord.val 5] 0, Op.addOp [Coord.val 6] 1,
         Op.removeOp [Coord.val 5] 0]).1.nearest [Coord.val 2]
        (applyOps (KdTree.leafNode 0 none [] [] 1 (some [10]))
          [Op.addOp [Coord.val 5] 0, Op.addOp [Coord.val 6] 1,
           Op.removeOp [Coord.val 5] 0]).1.size squaredEuclidean =
        .ok res ∧
      res.Sorted (fun a b => a.1 ≤ b.1) ∧
      ∀ n, (applyOps (KdTree.leafNode 0 none [] [] 1 (some [10]))
        [Op.addOp [Coord.val 5] 0, Op.addOp [Coord.val 6] 1,
         Op.removeOp [Coord.val 5] 0]).1.size ≤ n →
        (iterToList squaredEuclidean n it0).Perm res) :=
  ⟨Or.inr ⟨[10], by with_unfolding_all decide⟩,
    by with_unfolding_all decide, by with_unfolding_all decide,
    C9_amended_iterator_equivalence 1 1
      (KdTree.leafNode 0 none [] [] 1 (some [10]))
      (Or.inr ⟨[10], by with_unfolding_all decide⟩)
      [Op.addOp [Coord.val 5] 0, Op.addOp [Coord.val 6] 1,
       Op.removeOp [Coord.val 5] 0]
      (by with_unfolding_all decide)
      [Coord.val 2] (by with_unfolding_all decide) squaredEuclidean⟩

end Kiddo
